import Mathlib

/-!
Formal model of the sorting-algorithm benchmark suite.

The development embeds, as Lean definitions, the benchmark configuration
(benchmark.config.ts, performance-test.config.ts), the scenario
compatibility filter (scenario-helper.ts), the orchestrator
(benchmark-runner.ts), the test-data generator
(test-data-generator.service.ts) and the sorting algorithms of the
registry (algorithms.config.ts and src/algorithms), and proves theorems
about these definitions.

Modelling conventions:
* JS numbers that hold measured times or array elements are modelled as
  rationals; array sizes and indices are naturals.
* Wall-clock readings are external inputs, so timed durations enter the
  model as parameters.
* JS arrays are modelled as Lean lists; an indexed read a[i] is
  List.getD a i 0 (every read performed by the embedded code is in
  range) and an indexed write is List.set.
-/

/- ===== Benchmark configuration: benchmark.config.ts ===== -/

/-- Field MAX_EXECUTION_TIME_MS of BenchmarkSettings. -/
def MAX_EXECUTION_TIME_MS : ℚ := 60

/-- Field QUADRATIC_BEHAVIOR_THRESHOLD of BenchmarkSettings. -/
def QUADRATIC_BEHAVIOR_THRESHOLD : ℚ := 500

/-- Field MIN_TIME_FOR_DETECTION_MS of BenchmarkSettings. -/
def MIN_TIME_FOR_DETECTION_MS : ℚ := 10

/-- Function getSampleSize of BenchmarkSettings: number of sample arrays
for a given array size. -/
def getSampleSize (size : ℕ) : ℕ :=
  if size < 50 then 200
  else if size < 500 then 100
  else if size < 1000 then 50
  else if size < 2000 then 40
  else if size < 3000 then 30
  else if size < 6000 then 20
  else if size < 10000 then 10
  else 5

/- ===== Bail-out policy: BenchmarkRunner.checkForBailOut ===== -/

/-- Decision core of BenchmarkRunner.checkForBailOut in
benchmark-runner.ts: true exactly when the method inserts the scenario
key into abandonedScenarios.  The insertion itself is applied by the
orchestrator model below.  prevResult is the stored entry of
previousResults for the scenario key ((size, time), if present).  The
locals sizeGrowth, timeGrowth and degradation correspond to the source
variables for the size ratio, time ratio and degradation ratio.
Rational division is total (x / 0 = 0); every division reached by the
claims below has a nonzero denominator. -/
def checkForBailOut (averageTime : ℚ) (size : ℕ) (prevResult : Option (ℕ × ℚ)) : Bool :=
  if averageTime > MAX_EXECUTION_TIME_MS then true
  else
    match prevResult with
    | none => false
    | some (prevSize, prevTime) =>
      if averageTime > MIN_TIME_FOR_DETECTION_MS then
        let sizeGrowth : ℚ := (size : ℚ) / (prevSize : ℚ)
        let timeGrowth : ℚ := averageTime / prevTime
        if sizeGrowth > 1 ∧ timeGrowth > 1 then
          let degradation : ℚ := timeGrowth / sizeGrowth
          decide (degradation > QUADRATIC_BEHAVIOR_THRESHOLD)
        else false
      else false

/- ===== Measurement engine: BenchmarkRunner.measurePerformance ===== -/

/-- Core of BenchmarkRunner.measurePerformance in benchmark-runner.ts.
The method times algorithm.fn on a copy of each test array; the recorded
elapsed durations (end - start, in iteration order) are external
wall-clock inputs and enter the model as the list sampleTimes.  Returns
(averageTime, totalSampleTime) exactly as the source computes them: the
total is a reduce over the samples and the average guards against an
empty sample list. -/
def measurePerformance (sampleTimes : List ℚ) : ℚ × ℚ :=
  let totalSampleTime := sampleTimes.foldl (fun sum time => sum + time) 0
  let averageTime :=
    if sampleTimes.length > 0 then totalSampleTime / (sampleTimes.length : ℚ) else 0
  (averageTime, totalSampleTime)

theorem foldl_add_eq_sum (ts : List ℚ) (a : ℚ) :
    ts.foldl (fun sum time => sum + time) a = a + ts.sum := by
  induction ts generalizing a with
  | nil => simp
  | cons t ts ih => simp [List.foldl_cons, ih, add_assoc]

theorem measurePerformance_total (ts : List ℚ) : (measurePerformance ts).2 = ts.sum := by
  simp [measurePerformance, foldl_add_eq_sum]

/-- Claim C2: whenever the average time strictly exceeds
MAX_EXECUTION_TIME_MS, the bail-out check marks the pair abandoned for
every possible history, and the decision coincides with the decision for
an empty history (the hard cap short-circuits, so the trend check does
not influence the result). -/
theorem claim_C2 (averageTime : ℚ) (size : ℕ) (prevResult : Option (ℕ × ℚ))
    (hcap : averageTime > MAX_EXECUTION_TIME_MS) :
    checkForBailOut averageTime size prevResult = true ∧
    checkForBailOut averageTime size prevResult = checkForBailOut averageTime size none := by
  unfold checkForBailOut
  rw [if_pos hcap, if_pos hcap]
  exact ⟨rfl, rfl⟩

theorem claim_C2_witness :
    (61 : ℚ) > MAX_EXECUTION_TIME_MS ∧
    checkForBailOut 61 5 (some (2, 1)) = true := by
  refine ⟨by norm_num [MAX_EXECUTION_TIME_MS], ?_⟩
  exact (claim_C2 61 5 (some (2, 1)) (by norm_num [MAX_EXECUTION_TIME_MS])).1

/-- Claim C3: with the stored previous measurement (size 100, time 10)
and a current measurement at size 200 whose average time is
10 * QUADRATIC_BEHAVIOR_THRESHOLD * 2 (which exceeds
MIN_TIME_FOR_DETECTION_MS), the bail-out check marks the pair abandoned.
With the configured constants the hard time cap fires (10000 > 60); the
degradation ratio itself equals the threshold exactly and would not fire
on its own. -/
theorem claim_C3 :
    10 * QUADRATIC_BEHAVIOR_THRESHOLD * 2 > MIN_TIME_FOR_DETECTION_MS ∧
    checkForBailOut (10 * QUADRATIC_BEHAVIOR_THRESHOLD * 2) 200 (some (100, 10)) = true := by
  constructor
  · norm_num [QUADRATIC_BEHAVIOR_THRESHOLD, MIN_TIME_FOR_DETECTION_MS]
  · unfold checkForBailOut
    norm_num [QUADRATIC_BEHAVIOR_THRESHOLD, MAX_EXECUTION_TIME_MS]

/-- Claim C8: the measurement engine returns the sum of the per-sample
durations as the total time, the total divided by the sample count as
the average, zero as the average when there are no samples, and a
non-negative average whenever every sample duration is non-negative. -/
theorem claim_C8 :
    (∀ ts : List ℚ, (measurePerformance ts).2 = ts.sum) ∧
    (∀ ts : List ℚ, ts.length ≠ 0 →
      (measurePerformance ts).1 = ts.sum / (ts.length : ℚ)) ∧
    (measurePerformance []).1 = 0 ∧
    (∀ ts : List ℚ, (∀ t ∈ ts, 0 ≤ t) → 0 ≤ (measurePerformance ts).1) := by
  refine ⟨measurePerformance_total, ?_, by simp [measurePerformance], ?_⟩
  · intro ts h
    simp [measurePerformance, foldl_add_eq_sum, Nat.pos_of_ne_zero h]
  · intro ts h
    by_cases hlen : ts.length > 0
    · have hsum : 0 ≤ ts.sum := List.sum_nonneg h
      simp only [measurePerformance, foldl_add_eq_sum, zero_add, if_pos hlen]
      positivity
    · simp only [measurePerformance, foldl_add_eq_sum, zero_add, if_neg hlen]
      exact le_refl 0

theorem claim_C8_witness :
    (([1, 3] : List ℚ).length ≠ 0 ∧
      (measurePerformance [1, 3]).1 = ([1, 3] : List ℚ).sum / (([1, 3] : List ℚ).length : ℚ)) ∧
    ((∀ t ∈ ([1, 3] : List ℚ), 0 ≤ t) ∧ 0 ≤ (measurePerformance [1, 3]).1) :=
  ⟨⟨by decide, claim_C8.2.1 [1, 3] (by decide)⟩,
   ⟨by norm_num, claim_C8.2.2.2 [1, 3] (by norm_num)⟩⟩

/- ===== Scenario and algorithm configuration ===== -/

/-- Element kind of a test scenario (field dataType of the scenario
entries in test-scenarios.config.ts). -/
inductive DataKind
  | integer
  | float
deriving DecidableEq

/-- Configuration entry of test-scenarios.config.ts (interface
TestScenario).  The generator function draws from the unseeded
process-wide random source, so generated array contents enter the
orchestrator model as external inputs; the entry carries the data the
control flow reads: name and element kind. -/
structure TestScen where
  name : String
  dataType : DataKind
deriving DecidableEq

/-- Value of the accepts tag (type AcceptedData in
algorithms.config.ts); the tag value written as the string literal for
integers declares a non-negative-integer domain. -/
inductive AcceptedData
  | integers
  | all
deriving DecidableEq

/-- Registry entry of algorithms.config.ts (interface Algorithm): name
and the optional accepts tag.  The sorting function itself is embedded
separately below; the orchestrator only times it, and the measured
durations are external inputs of the model. -/
structure Algorithm where
  name : String
  accepts : Option AcceptedData
deriving DecidableEq

/-- The scenariosToTest catalog of test-scenarios.config.ts. -/
def scenariosToTest : List TestScen := [
  ⟨"on a random array of integers", DataKind.integer⟩,
  ⟨"on a random array of floats", DataKind.float⟩,
  ⟨"on a random integer array with many duplicates", DataKind.integer⟩,
  ⟨"on a random integer array with a sparse distribution (large values)", DataKind.integer⟩,
  ⟨"on a perfectly sorted ascending array", DataKind.integer⟩,
  ⟨"on a perfectly sorted descending (reversed) array", DataKind.integer⟩,
  ⟨"on a perfectly sorted array of floats", DataKind.float⟩,
  ⟨"on a nearly sorted (5% chaos) ascending array", DataKind.integer⟩,
  ⟨"on a nearly sorted (5% chaos) descending array", DataKind.integer⟩,
  ⟨"on a highly shuffled (40% chaos) array", DataKind.integer⟩]

/-- The ALGORITHMS_TO_TEST registry of algorithms.config.ts. -/
def ALGORITHMS_TO_TEST : List Algorithm := [
  ⟨"Bubble Sort", none⟩,
  ⟨"Bubble Sort Smart", none⟩,
  ⟨"Insertion Sort", none⟩,
  ⟨"Selection Sort", none⟩,
  ⟨"Merge Sort", none⟩,
  ⟨"Quick Sort", none⟩,
  ⟨"Heap Sort", none⟩,
  ⟨"Shell Sort", none⟩,
  ⟨"Counting Sort", some AcceptedData.integers⟩,
  ⟨"Radix Sort", some AcceptedData.integers⟩,
  ⟨"Bitwise Radix Sort", some AcceptedData.integers⟩,
  ⟨"Timsort (Native)", none⟩,
  ⟨"Bucket Sort", none⟩]

/-- Scenario filter getCompatibleScenariosFor of scenario-helper.ts over
an explicit catalog.  The source reads the module-level scenariosToTest
constant; the catalog is passed explicitly so that statements can also
be instantiated on small catalogs, and the constant-catalog version is
defined from this one. -/
def getCompatibleScenariosForIn (catalog : List TestScen) (algorithm : Algorithm) :
    List TestScen :=
  if algorithm.accepts = some AcceptedData.integers then
    catalog.filter (fun scen => decide (scen.dataType = DataKind.integer))
  else catalog

/-- Scenario filter applied to the actual catalog, as in
scenario-helper.ts. -/
def getCompatibleScenariosFor (algorithm : Algorithm) : List TestScen :=
  getCompatibleScenariosForIn scenariosToTest algorithm

/- ===== Size schedule: performance-test.config.ts ===== -/

/-- Combination step of performance-test.config.ts producing
PERFORMANCE_TEST_SIZES: the static size list and the dynamically
generated size list are poured into a JS Set (removing duplicates) and
the combined sizes are then sorted numerically ascending.  The dynamic
list itself is produced by floating-point growth arithmetic
(generateIncrementalTestSizes) and enters the model as a parameter. -/
def finalSizes (staticSizes dynamicSizes : List ℕ) : List ℕ :=
  List.insertionSort (· ≤ ·) ((staticSizes ++ dynamicSizes).dedup)

theorem finalSizes_perm (staticSizes dynamicSizes : List ℕ) :
    (finalSizes staticSizes dynamicSizes).Perm ((staticSizes ++ dynamicSizes).dedup) :=
  List.perm_insertionSort _ _

theorem finalSizes_sorted (staticSizes dynamicSizes : List ℕ) :
    (finalSizes staticSizes dynamicSizes).Pairwise (· < ·) := by
  have hnd : (finalSizes staticSizes dynamicSizes).Nodup :=
    (finalSizes_perm staticSizes dynamicSizes).nodup_iff.mpr (List.nodup_dedup _)
  have hle : (finalSizes staticSizes dynamicSizes).Pairwise (· ≤ ·) :=
    List.sorted_insertionSort (· ≤ ·) ((staticSizes ++ dynamicSizes).dedup)
  exact (hle.and hnd).imp (fun h => lt_of_le_of_ne h.1 h.2)

/- ===== Benchmark orchestrator: benchmark-runner.ts ===== -/

/-- Trial record (interface PerformanceResult of benchmarking/types.ts),
as accumulated by ResultManager.add. -/
structure PerformanceResult where
  algorithmName : String
  scenarioName : String
  arraySize : ℕ
  executionTime : ℚ
deriving DecidableEq

/-- Ghost instrumentation: one event per invocation of
measurePerformance by the orchestrator, recording which pair was
measured at which size, the element kind of the scenario and how many
sample arrays were timed.  The events do not influence the run; they
only let theorems speak about what was measured. -/
structure MeasureEvent where
  algorithmName : String
  scenarioName : String
  kind : DataKind
  arraySize : ℕ
  samples : ℕ
deriving DecidableEq

/-- Mutable state of BenchmarkRunner (previousResults map and
abandonedScenarios set, both keyed by the scenario key string) together
with the result list held by ResultManager and the ghost measurement
trace. -/
structure RunState where
  previousResults : String → Option (ℕ × ℚ)
  abandonedScenarios : String → Bool
  results : List PerformanceResult
  measurements : List MeasureEvent

/-- Inner size loop of BenchmarkRunner.runTestsForAlgorithm for one
(algorithm, scenario) pair: visit the configured sizes in order, skip
size 0, break out of the loop as soon as the pair's key is in
abandonedScenarios, skip sizes with no stored test arrays, and
otherwise measure, log, record the result, run the bail-out check (and
insert the key on a positive decision) and store the current
measurement as the pair's previous result.  scenData gives the number
of stored test arrays per size (none when the size is absent from the
scenario's map); timing gives the externally observed wall-clock
duration of each timed sample. -/
def runSizes (timing : String → ℕ → ℕ → ℚ) (algName scenName : String)
    (kind : DataKind) (scenData : ℕ → Option ℕ) :
    List ℕ → RunState → RunState
  | [], st => st
  | size :: rest, st =>
    if size = 0 then runSizes timing algName scenName kind scenData rest st
    else
      let scenarioKey := algName ++ "|" ++ scenName
      if st.abandonedScenarios scenarioKey then st
      else
        match scenData size with
        | none => runSizes timing algName scenName kind scenData rest st
        | some numArrays =>
          let sampleTimes := (List.range numArrays).map (fun i => timing scenarioKey size i)
          let averageTime := (measurePerformance sampleTimes).1
          let st1 : RunState := { st with
            results := st.results ++ [⟨algName, scenName, size, averageTime⟩],
            measurements := st.measurements ++ [⟨algName, scenName, kind, size, numArrays⟩] }
          let abandon := checkForBailOut averageTime size (st1.previousResults scenarioKey)
          let st2 : RunState := { st1 with
            abandonedScenarios := fun k =>
              if k = scenarioKey then st1.abandonedScenarios k || abandon
              else st1.abandonedScenarios k }
          let st3 : RunState := { st2 with
            previousResults := fun k =>
              if k = scenarioKey then some (size, averageTime) else st2.previousResults k }
          runSizes timing algName scenName kind scenData rest st3

/-- Scenario loop of BenchmarkRunner.runTestsForAlgorithm: for each
compatible scenario, look up the scenario's pre-generated data (skip
the scenario when absent) and run the size loop. -/
def runTestsForAlgorithm (catalog : List TestScen) (sizes : List ℕ)
    (timing : String → ℕ → ℕ → ℚ) (testData : String → Option (ℕ → Option ℕ))
    (algorithm : Algorithm) (st : RunState) : RunState :=
  (getCompatibleScenariosForIn catalog algorithm).foldl
    (fun st scen =>
      match testData scen.name with
      | none => st
      | some scenData =>
        runSizes timing algorithm.name scen.name scen.dataType scenData sizes st)
    st

/-- Deduplication by scenario name keeping the first occurrence, with
an accumulator of already-seen names.  This models the
reduce-into-a-JS-Map step of TestDataGenerator.getAllUniqueScenarios
(Map.set keeps the original insertion position of an existing key;
duplicate names in the actual catalog always refer to the same
entry). -/
def dedupByNameAux (seen : List String) : List TestScen → List TestScen
  | [] => []
  | scen :: rest =>
    if scen.name ∈ seen then dedupByNameAux seen rest
    else scen :: dedupByNameAux (scen.name :: seen) rest

/-- Deduplication by scenario name keeping the first occurrence. -/
def dedupByName (l : List TestScen) : List TestScen := dedupByNameAux [] l

/-- Unique scenario list of TestDataGenerator.getAllUniqueScenarios:
compatible scenarios of all registered algorithms, flattened and
deduplicated by name. -/
def getAllUniqueScenarios (catalog : List TestScen) (algorithms : List Algorithm) :
    List TestScen :=
  dedupByName (algorithms.flatMap (getCompatibleScenariosForIn catalog))

/-- Test-data layout produced by TestDataGenerator.generateAll: a map
from each unique scenario name to a map from each configured nonzero
size to the number of generated sample arrays for that size, which is
getSampleSize size.  The randomly generated array contents do not
affect any recorded quantity (only the count of arrays does) and are
not carried by the model. -/
def generateAll (catalog : List TestScen) (algorithms : List Algorithm)
    (sizes : List ℕ) : String → Option (ℕ → Option ℕ) :=
  fun scenName =>
    if (getAllUniqueScenarios catalog algorithms).any (fun s => decide (s.name = scenName)) then
      some (fun size =>
        if size ∈ sizes ∧ size ≠ 0 then some (getSampleSize size) else none)
    else none

/-- Output of a full run: the final orchestrator state and the record
list handed to ResultManager.save (save serializes exactly the
accumulated results; a write failure is reported to the logger and does
not change the list). -/
structure RunOutput where
  final : RunState
  saved : List PerformanceResult

/-- Fresh orchestrator state: empty previousResults map, empty
abandonedScenarios set, no results, no measurements. -/
def initialState : RunState := ⟨fun _ => none, fun _ => false, [], []⟩

/-- Driver BenchmarkRunner.run: pre-generate all test data, run every
algorithm of the registry in order, then hand the accumulated results
to ResultManager.save. -/
def runAll (catalog : List TestScen) (algorithms : List Algorithm) (sizes : List ℕ)
    (timing : String → ℕ → ℕ → ℚ) : RunOutput :=
  let testData := generateAll catalog algorithms sizes
  let final := algorithms.foldl
    (fun st algorithm => runTestsForAlgorithm catalog sizes timing testData algorithm st)
    initialState
  ⟨final, final.results⟩

/-- Full run with the actual registry and catalog. -/
def runBenchmark (sizes : List ℕ) (timing : String → ℕ → ℕ → ℚ) : RunOutput :=
  runAll scenariosToTest ALGORITHMS_TO_TEST sizes timing

/-- Trial records recorded for one (algorithm, scenario) pair, in
recording order. -/
def recordsForPair (results : List PerformanceResult) (a s : String) :
    List PerformanceResult :=
  results.filter (fun r => decide (r.algorithmName = a ∧ r.scenarioName = s))

/- ===== Structural lemmas about the orchestrator ===== -/

theorem runSizes_abandoned (timing : String → ℕ → ℕ → ℚ) (algName scenName : String)
    (kind : DataKind) (scenData : ℕ → Option ℕ) (l : List ℕ) (st : RunState)
    (h : st.abandonedScenarios (algName ++ "|" ++ scenName) = true) :
    runSizes timing algName scenName kind scenData l st = st := by
  induction l with
  | nil => rfl
  | cons size rest ih =>
    by_cases hz : size = 0
    · simp only [runSizes, if_pos hz]
      exact ih
    · simp only [runSizes, if_neg hz, h, if_pos rfl]
      simp

/-- Records and measurement events appended by one run of the size loop:
they all belong to the loop's pair, their sizes line up one to one, each
event's sample count is the stored array count for its size, the
recorded sizes form a sublist of the nonzero configured sizes, and when
every nonzero configured size has stored data they form a prefix of the
nonzero configured sizes. -/
theorem runSizes_spec (timing : String → ℕ → ℕ → ℚ) (algName scenName : String)
    (kind : DataKind) (scenData : ℕ → Option ℕ) (l : List ℕ) (st : RunState) :
    ∃ recs meas,
      (runSizes timing algName scenName kind scenData l st).results
        = st.results ++ recs ∧
      (runSizes timing algName scenName kind scenData l st).measurements
        = st.measurements ++ meas ∧
      (∀ r ∈ recs, r.algorithmName = algName ∧ r.scenarioName = scenName) ∧
      (∀ m ∈ meas, m.algorithmName = algName ∧ m.scenarioName = scenName ∧ m.kind = kind) ∧
      meas.map MeasureEvent.arraySize = recs.map PerformanceResult.arraySize ∧
      (∀ m ∈ meas, scenData m.arraySize = some m.samples) ∧
      (recs.map PerformanceResult.arraySize).Sublist
        (l.filter (fun z => decide (z ≠ 0))) ∧
      ((∀ size ∈ l, size ≠ 0 → scenData size ≠ none) →
        ∃ n, recs.map PerformanceResult.arraySize
          = (l.filter (fun z => decide (z ≠ 0))).take n) := by
  induction l generalizing st with
  | nil =>
    refine ⟨[], [], by simp [runSizes], by simp [runSizes], by simp, by simp, rfl,
      by simp, by simp, fun _ => ⟨0, by simp⟩⟩
  | cons size rest ih =>
    by_cases hz : size = 0
    · have hfil : (size :: rest).filter (fun z => decide (z ≠ 0))
          = rest.filter (fun z => decide (z ≠ 0)) := by
        simp [List.filter_cons, hz]
      obtain ⟨recs, meas, h1, h2, h3, h4, h5, h6, h7, h8⟩ := ih st
      refine ⟨recs, meas, ?_, ?_, h3, h4, h5, h6, ?_, ?_⟩
      · simpa only [runSizes, if_pos hz] using h1
      · simpa only [runSizes, if_pos hz] using h2
      · rw [hfil]; exact h7
      · intro htot
        rw [hfil]
        exact h8 (fun z hzr hzz => htot z (List.mem_cons_of_mem _ hzr) hzz)
    · have hfil : (size :: rest).filter (fun z => decide (z ≠ 0))
          = size :: rest.filter (fun z => decide (z ≠ 0)) := by
        simp [List.filter_cons, hz]
      by_cases habn : st.abandonedScenarios (algName ++ "|" ++ scenName) = true
      · refine ⟨[], [], ?_, ?_, by simp, by simp, rfl, by simp, ?_, fun _ => ⟨0, by simp⟩⟩
        · simp only [runSizes, if_neg hz, habn, if_pos rfl]
          simp
        · simp only [runSizes, if_neg hz, habn, if_pos rfl]
          simp
        · exact List.nil_sublist _
      · have habn' : st.abandonedScenarios (algName ++ "|" ++ scenName) = false :=
          Bool.eq_false_iff.mpr habn
        cases hd : scenData size with
        | none =>
          obtain ⟨recs, meas, h1, h2, h3, h4, h5, h6, h7, h8⟩ := ih st
          refine ⟨recs, meas, ?_, ?_, h3, h4, h5, h6, ?_, ?_⟩
          · simpa only [runSizes, if_neg hz, habn', Bool.false_eq_true, if_neg, hd] using h1
          · simpa only [runSizes, if_neg hz, habn', Bool.false_eq_true, if_neg, hd] using h2
          · rw [hfil]
            exact h7.cons size
          · intro htot
            exact absurd hd (htot size (List.mem_cons_self _ _) hz)
        | some numArrays =>
          set sampleTimes :=
            (List.range numArrays).map
              (fun i => timing (algName ++ "|" ++ scenName) size i) with hst
          set averageTime := (measurePerformance sampleTimes).1 with hat
          set rec0 : PerformanceResult := ⟨algName, scenName, size, averageTime⟩ with hrec
          set mev0 : MeasureEvent := ⟨algName, scenName, kind, size, numArrays⟩ with hmev
          set abandon := checkForBailOut averageTime size
            (st.previousResults (algName ++ "|" ++ scenName)) with hab
          set st3 : RunState :=
            { previousResults := fun k =>
                if k = algName ++ "|" ++ scenName then some (size, averageTime)
                else st.previousResults k,
              abandonedScenarios := fun k =>
                if k = algName ++ "|" ++ scenName then st.abandonedScenarios k || abandon
                else st.abandonedScenarios k,
              results := st.results ++ [rec0],
              measurements := st.measurements ++ [mev0] } with hst3
          have hstep : runSizes timing algName scenName kind scenData (size :: rest) st
              = runSizes timing algName scenName kind scenData rest st3 := by
            simp only [runSizes, if_neg hz, habn', Bool.false_eq_true, if_neg, hd]
            rfl
          obtain ⟨recs, meas, h1, h2, h3, h4, h5, h6, h7, h8⟩ := ih st3
          refine ⟨rec0 :: recs, mev0 :: meas, ?_, ?_, ?_, ?_, ?_, ?_, ?_, ?_⟩
          · rw [hstep, h1, hst3]
            simp
          · rw [hstep, h2, hst3]
            simp
          · intro r hr
            rcases List.mem_cons.mp hr with h | h
            · subst h; exact ⟨rfl, rfl⟩
            · exact h3 r h
          · intro m hm
            rcases List.mem_cons.mp hm with h | h
            · subst h; exact ⟨rfl, rfl, rfl⟩
            · exact h4 m h
          · simp only [List.map_cons, h5]
          · intro m hm
            rcases List.mem_cons.mp hm with h | h
            · subst h; exact hd
            · exact h6 m h
          · rw [hfil]
            simp only [List.map_cons]
            exact h7.cons₂ size
          · intro htot
            obtain ⟨n, hn⟩ := h8 (fun z hzr hzz => htot z (List.mem_cons_of_mem _ hzr) hzz)
            refine ⟨n + 1, ?_⟩
            rw [hfil]
            simp only [List.map_cons, List.take_succ_cons, hn]

/-- Closure property of the recorded size multiset of one pair: whenever
a recorded size has a smaller configured size, that smaller size is
recorded too.  Take-prefixes of the ascending schedule have it, it is
preserved by concatenation, and it directly yields the
abandonment-monotonicity claim. -/
def TakeClosed (sizesF occ : List ℕ) : Prop :=
  ∀ S S', S ∈ sizesF → S' ∈ occ → S < S' → S ∈ occ

theorem takeClosed_nil (sizesF : List ℕ) : TakeClosed sizesF [] := by
  intro S S' _ h
  simp at h

theorem takeClosed_append {sizesF o1 o2 : List ℕ}
    (h1 : TakeClosed sizesF o1) (h2 : TakeClosed sizesF o2) :
    TakeClosed sizesF (o1 ++ o2) := by
  intro S S' hS hS' hlt
  rcases List.mem_append.mp hS' with h | h
  · exact List.mem_append.mpr (Or.inl (h1 S S' hS h hlt))
  · exact List.mem_append.mpr (Or.inr (h2 S S' hS h hlt))

theorem takeClosed_take (sizesF : List ℕ) (hs : sizesF.Pairwise (· < ·)) (n : ℕ) :
    TakeClosed sizesF (sizesF.take n) := by
  intro S S' hS hS' hlt
  rcases List.mem_append.mp ((List.take_append_drop n sizesF) ▸ hS) with h | h
  · exact h
  · exact absurd hlt (lt_asymm (List.Sorted.rel_of_mem_take_of_mem_drop hs hS' h))

theorem recordsForPair_append (results1 results2 : List PerformanceResult) (a s : String) :
    recordsForPair (results1 ++ results2) a s
      = recordsForPair results1 a s ++ recordsForPair results2 a s :=
  List.filter_append _ _

/-- A batch whose records all belong to one pair either survives the
pair filter entirely or vanishes. -/
theorem recordsForPair_batch (recs : List PerformanceResult) (a s a0 s0 : String)
    (hall : ∀ r ∈ recs, r.algorithmName = a0 ∧ r.scenarioName = s0) :
    recordsForPair recs a s = recs ∨ recordsForPair recs a s = [] := by
  by_cases hmatch : a0 = a ∧ s0 = s
  · left
    apply List.filter_eq_self.mpr
    intro r hr
    obtain ⟨h1, h2⟩ := hall r hr
    simp [h1, h2, hmatch.1, hmatch.2]
  · right
    apply List.filter_eq_nil_iff.mpr
    intro r hr
    obtain ⟨h1, h2⟩ := hall r hr
    simp only [decide_eq_true_eq]
    intro ⟨ha, hs⟩
    exact hmatch ⟨h1 ▸ ha, h2 ▸ hs⟩

/-- Size-loop runs append a pair-record batch whose sizes are a
take-prefix of the nonzero schedule, provided every nonzero configured
size has stored data; hence they preserve TakeClosed for every pair. -/
theorem runSizes_takeClosed (timing : String → ℕ → ℕ → ℚ) (algName scenName : String)
    (kind : DataKind) (scenData : ℕ → Option ℕ) (sizes : List ℕ) (st : RunState)
    (a s : String)
    (hsorted : (sizes.filter (fun z => decide (z ≠ 0))).Pairwise (· < ·))
    (htot : ∀ z ∈ sizes, z ≠ 0 → scenData z ≠ none)
    (h : TakeClosed (sizes.filter (fun z => decide (z ≠ 0)))
      ((recordsForPair st.results a s).map PerformanceResult.arraySize)) :
    TakeClosed (sizes.filter (fun z => decide (z ≠ 0)))
      ((recordsForPair
          (runSizes timing algName scenName kind scenData sizes st).results a s).map
        PerformanceResult.arraySize) := by
  obtain ⟨recs, meas, h1, _, h3, _, _, _, _, h8⟩ :=
    runSizes_spec timing algName scenName kind scenData sizes st
  rw [h1, recordsForPair_append, List.map_append]
  apply takeClosed_append h
  rcases recordsForPair_batch recs a s algName scenName h3 with hb | hb
  · rw [hb]
    obtain ⟨n, hn⟩ := h8 htot
    rw [hn]
    exact takeClosed_take _ hsorted n
  · rw [hb]
    exact takeClosed_nil _

/-- Scenario loops preserve TakeClosed for every pair. -/
theorem runTestsForAlgorithm_takeClosed (catalog : List TestScen) (sizes : List ℕ)
    (timing : String → ℕ → ℕ → ℚ) (testData : String → Option (ℕ → Option ℕ))
    (algorithm : Algorithm) (st : RunState) (a s : String)
    (hsorted : (sizes.filter (fun z => decide (z ≠ 0))).Pairwise (· < ·))
    (htot : ∀ nm sd, testData nm = some sd → ∀ z ∈ sizes, z ≠ 0 → sd z ≠ none)
    (h : TakeClosed (sizes.filter (fun z => decide (z ≠ 0)))
      ((recordsForPair st.results a s).map PerformanceResult.arraySize)) :
    TakeClosed (sizes.filter (fun z => decide (z ≠ 0)))
      ((recordsForPair
          (runTestsForAlgorithm catalog sizes timing testData algorithm st).results a s).map
        PerformanceResult.arraySize) := by
  unfold runTestsForAlgorithm
  generalize getCompatibleScenariosForIn catalog algorithm = scens
  induction scens generalizing st with
  | nil => exact h
  | cons scen rest ih =>
    simp only [List.foldl_cons]
    cases hb : testData scen.name with
    | none =>
      simp only [hb]
      exact ih st h
    | some sd =>
      simp only [hb]
      exact ih _ (runSizes_takeClosed timing algorithm.name scen.name scen.dataType sd
        sizes st a s hsorted (htot scen.name sd hb) h)

/-- Algorithm-loop folds preserve TakeClosed for every pair when the
test data is total on the nonzero configured sizes. -/
theorem foldAlgs_takeClosed (catalog : List TestScen) (sizes : List ℕ)
    (timing : String → ℕ → ℕ → ℚ) (testData : String → Option (ℕ → Option ℕ))
    (algorithms : List Algorithm) (st0 : RunState) (a s : String)
    (hsorted : (sizes.filter (fun z => decide (z ≠ 0))).Pairwise (· < ·))
    (htot : ∀ nm sd, testData nm = some sd → ∀ z ∈ sizes, z ≠ 0 → sd z ≠ none)
    (hinit : TakeClosed (sizes.filter (fun z => decide (z ≠ 0)))
      ((recordsForPair st0.results a s).map PerformanceResult.arraySize)) :
    TakeClosed (sizes.filter (fun z => decide (z ≠ 0)))
      ((recordsForPair
          (algorithms.foldl
            (fun st algorithm => runTestsForAlgorithm catalog sizes timing testData algorithm st)
            st0).results a s).map PerformanceResult.arraySize) := by
  induction algorithms generalizing st0 with
  | nil => exact hinit
  | cons algorithm rest ih =>
    simp only [List.foldl_cons]
    exact ih _ (runTestsForAlgorithm_takeClosed catalog sizes timing testData algorithm st0
      a s hsorted htot hinit)

/-- Test data produced by generateAll is total on the nonzero configured
sizes. -/
theorem generateAll_total (catalog : List TestScen) (algorithms : List Algorithm)
    (sizes : List ℕ) :
    ∀ nm sd, generateAll catalog algorithms sizes nm = some sd →
      ∀ z ∈ sizes, z ≠ 0 → sd z ≠ none := by
  intro nm sd heq z hz hzz
  unfold generateAll at heq
  by_cases hmem : (getAllUniqueScenarios catalog algorithms).any
      (fun s => decide (s.name = nm)) = true
  · rw [if_pos hmem] at heq
    obtain rfl : (fun size =>
        if size ∈ sizes ∧ size ≠ 0 then some (getSampleSize size) else none) = sd :=
      Option.some_injective _ heq
    simp [hz, hzz]
  · rw [if_neg hmem] at heq
    exact absurd heq (by simp)

/-- Full runs preserve TakeClosed for every pair. -/
theorem runAll_takeClosed (catalog : List TestScen) (algorithms : List Algorithm)
    (sizes : List ℕ) (timing : String → ℕ → ℕ → ℚ) (a s : String)
    (hsorted : (sizes.filter (fun z => decide (z ≠ 0))).Pairwise (· < ·)) :
    TakeClosed (sizes.filter (fun z => decide (z ≠ 0)))
      ((recordsForPair (runAll catalog algorithms sizes timing).saved a s).map
        PerformanceResult.arraySize) := by
  show TakeClosed _ ((recordsForPair (List.foldl _ initialState algorithms).results a s).map _)
  exact foldAlgs_takeClosed catalog sizes timing _ algorithms initialState a s hsorted
    (generateAll_total catalog algorithms sizes) (takeClosed_nil _)

theorem finalSizes_filter_sorted (staticSizes dynamicSizes : List ℕ) :
    ((finalSizes staticSizes dynamicSizes).filter (fun z => decide (z ≠ 0))).Pairwise
      (· < ·) :=
  List.Pairwise.sublist (List.filter_sublist _) (finalSizes_sorted staticSizes dynamicSizes)

/-- Claim C1: in every run, once a pair is abandoned the size loop
produces nothing further for it (second conjunct), and if a pair has no
trial record at a configured size S it has none at any larger
configured size (first conjunct; the schedule must not contain size 0,
which the actual configuration satisfies since all its sizes are
positive). -/
theorem claim_C1 (catalog : List TestScen) (algorithms : List Algorithm)
    (staticSizes dynamicSizes : List ℕ) (timing : String → ℕ → ℕ → ℚ)
    (a s : String) (S S' : ℕ)
    (hS : S ∈ finalSizes staticSizes dynamicSizes)
    (hS' : S' ∈ finalSizes staticSizes dynamicSizes)
    (hz : (0 : ℕ) ∉ staticSizes ++ dynamicSizes)
    (hlt : S < S')
    (hnone : ∀ r ∈ recordsForPair
        (runAll catalog algorithms (finalSizes staticSizes dynamicSizes) timing).saved a s,
      r.arraySize ≠ S) :
    (∀ r ∈ recordsForPair
        (runAll catalog algorithms (finalSizes staticSizes dynamicSizes) timing).saved a s,
      r.arraySize ≠ S') ∧
    (∀ (kind : DataKind) (scenData : ℕ → Option ℕ) (l : List ℕ) (st : RunState),
      st.abandonedScenarios (a ++ "|" ++ s) = true →
      runSizes timing a s kind scenData l st = st) := by
  constructor
  · intro r hr hsize
    have hz' : (0 : ℕ) ∉ finalSizes staticSizes dynamicSizes := by
      intro hmem
      have := (finalSizes_perm staticSizes dynamicSizes).mem_iff.mp hmem
      rw [List.mem_dedup] at this
      exact hz this
    have hSf : S ∈ (finalSizes staticSizes dynamicSizes).filter
        (fun z => decide (z ≠ 0)) := by
      refine List.mem_filter.mpr ⟨hS, ?_⟩
      simp only [decide_eq_true_eq]
      intro h0
      exact hz' (h0 ▸ hS)
    have htc := runAll_takeClosed catalog algorithms
      (finalSizes staticSizes dynamicSizes) timing a s
      (finalSizes_filter_sorted staticSizes dynamicSizes)
    have hS'occ : S' ∈ (recordsForPair
        (runAll catalog algorithms (finalSizes staticSizes dynamicSizes) timing).saved a s).map
          PerformanceResult.arraySize :=
      List.mem_map.mpr ⟨r, hr, hsize⟩
    have hSocc := htc S S' hSf hS'occ hlt
    obtain ⟨r', hr', hr'size⟩ := List.mem_map.mp hSocc
    exact hnone r' hr' hr'size
  · intro kind scenData l st h
    exact runSizes_abandoned timing a s kind scenData l st h

theorem recordsForPair_batch_ne (recs : List PerformanceResult) (a s a0 s0 : String)
    (hall : ∀ r ∈ recs, r.algorithmName = a0 ∧ r.scenarioName = s0)
    (hne : ¬(a0 = a ∧ s0 = s)) :
    recordsForPair recs a s = [] := by
  apply List.filter_eq_nil_iff.mpr
  intro r hr
  obtain ⟨h1, h2⟩ := hall r hr
  simp only [decide_eq_true_eq]
  intro ⟨ha, hs⟩
  exact hne ⟨h1.symm.trans ha, h2.symm.trans hs⟩

theorem recordsForPair_batch_eq (recs : List PerformanceResult) (a s : String)
    (hall : ∀ r ∈ recs, r.algorithmName = a ∧ r.scenarioName = s) :
    recordsForPair recs a s = recs := by
  apply List.filter_eq_self.mpr
  intro r hr
  obtain ⟨h1, h2⟩ := hall r hr
  simp [h1, h2]

/-- Scenario loops of an algorithm whose name differs from a leave the
(a, s) pair records unchanged. -/
theorem runTestsForAlgorithm_other_alg (catalog : List TestScen) (sizes : List ℕ)
    (timing : String → ℕ → ℕ → ℚ) (testData : String → Option (ℕ → Option ℕ))
    (algorithm : Algorithm) (st : RunState) (a s : String)
    (hne : algorithm.name ≠ a) :
    recordsForPair
        (runTestsForAlgorithm catalog sizes timing testData algorithm st).results a s
      = recordsForPair st.results a s := by
  unfold runTestsForAlgorithm
  generalize getCompatibleScenariosForIn catalog algorithm = scens
  induction scens generalizing st with
  | nil => rfl
  | cons scen rest ih =>
    simp only [List.foldl_cons]
    cases hb : testData scen.name with
    | none =>
      simp only [hb]
      exact ih st
    | some sd =>
      simp only [hb]
      rw [ih]
      obtain ⟨recs, meas, h1, _, h3, _⟩ :=
        runSizes_spec timing algorithm.name scen.name scen.dataType sd sizes st
      rw [h1, recordsForPair_append,
        recordsForPair_batch_ne recs a s algorithm.name scen.name h3
          (fun hm => hne hm.1),
        List.append_nil]

/-- Algorithm-loop folds over algorithms none of which is named a leave
the (a, s) pair records unchanged. -/
theorem foldAlgs_no_pair (catalog : List TestScen) (sizes : List ℕ)
    (timing : String → ℕ → ℕ → ℚ) (testData : String → Option (ℕ → Option ℕ))
    (algorithms : List Algorithm) (st : RunState) (a s : String)
    (hna : ∀ algorithm ∈ algorithms, algorithm.name ≠ a) :
    recordsForPair
        (algorithms.foldl
          (fun st algorithm => runTestsForAlgorithm catalog sizes timing testData algorithm st)
          st).results a s
      = recordsForPair st.results a s := by
  induction algorithms generalizing st with
  | nil => rfl
  | cons algorithm rest ih =>
    simp only [List.foldl_cons]
    rw [ih _ (fun x hx => hna x (List.mem_cons_of_mem _ hx)),
      runTestsForAlgorithm_other_alg catalog sizes timing testData algorithm st a s
        (hna algorithm (List.mem_cons_self _ _))]

/-- Scenario-loop folds over scenarios none of which is named s leave
the (a, s) pair records unchanged. -/
theorem foldScens_no_pair (sizes : List ℕ) (timing : String → ℕ → ℕ → ℚ)
    (testData : String → Option (ℕ → Option ℕ)) (algName : String)
    (scens : List TestScen) (st : RunState) (a s : String)
    (hns : ∀ scen ∈ scens, scen.name ≠ s) :
    recordsForPair
        (scens.foldl
          (fun st scen =>
            match testData scen.name with
            | none => st
            | some scenData => runSizes timing algName scen.name scen.dataType scenData sizes st)
          st).results a s
      = recordsForPair st.results a s := by
  induction scens generalizing st with
  | nil => rfl
  | cons scen rest ih =>
    simp only [List.foldl_cons]
    rw [ih _ (fun x hx => hns x (List.mem_cons_of_mem _ hx))]
    cases hb : testData scen.name with
    | none => rfl
    | some sd =>
      obtain ⟨recs, meas, h1, _, h3, _⟩ :=
        runSizes_spec timing algName scen.name scen.dataType sd sizes st
      rw [h1, recordsForPair_append,
        recordsForPair_batch_ne recs a s algName scen.name h3
          (fun hm => hns scen (List.mem_cons_self _ _) hm.2),
        List.append_nil]

/-- One scenario loop appends, to the (a, s) pair records, a single
batch whose sizes are a take-prefix of the nonzero schedule (possibly
the empty prefix), provided s occurs at most once among the compatible
scenario names and the test data is total. -/
theorem runTestsForAlgorithm_pair_batch (catalog : List TestScen) (sizes : List ℕ)
    (timing : String → ℕ → ℕ → ℚ) (testData : String → Option (ℕ → Option ℕ))
    (algorithm : Algorithm) (st : RunState) (a s : String)
    (hcount : ((getCompatibleScenariosForIn catalog algorithm).map TestScen.name).count s ≤ 1)
    (htot : ∀ nm sd, testData nm = some sd → ∀ z ∈ sizes, z ≠ 0 → sd z ≠ none) :
    ∃ batch,
      recordsForPair
          (runTestsForAlgorithm catalog sizes timing testData algorithm st).results a s
        = recordsForPair st.results a s ++ batch ∧
      ∃ n, batch.map PerformanceResult.arraySize
        = (sizes.filter (fun z => decide (z ≠ 0))).take n := by
  unfold runTestsForAlgorithm
  generalize hsc : getCompatibleScenariosForIn catalog algorithm = scens
  rw [hsc] at hcount
  clear hsc
  induction scens generalizing st with
  | nil => exact ⟨[], by simp, 0, by simp⟩
  | cons scen rest ih =>
    simp only [List.foldl_cons]
    have hcountRest : ((rest.map TestScen.name).count s ≤ 1) := by
      simp only [List.map_cons, List.count_cons] at hcount
      omega
    cases hb : testData scen.name with
    | none =>
      simp only [hb]
      exact ih st hcountRest
    | some sd =>
      simp only [hb]
      obtain ⟨recs, meas, h1, _, h3, _, _, _, _, h8⟩ :=
        runSizes_spec timing algorithm.name scen.name scen.dataType sd sizes st
      by_cases hm : algorithm.name = a ∧ scen.name = s
      · have hcount0 : (rest.map TestScen.name).count s = 0 := by
          simp only [List.map_cons, List.count_cons, hm.2] at hcount
          simp at hcount
          omega
        have hns : ∀ x ∈ rest, x.name ≠ s := by
          intro x hx hxs
          have : s ∈ rest.map TestScen.name := List.mem_map.mpr ⟨x, hx, hxs⟩
          rw [← List.count_pos_iff] at this
          omega
        rw [foldScens_no_pair sizes timing testData algorithm.name rest _ a s hns]
        refine ⟨recs, ?_, ?_⟩
        · rw [h1, recordsForPair_append,
            recordsForPair_batch_eq recs a s
              (fun r hr => ⟨(h3 r hr).1.trans hm.1, (h3 r hr).2.trans hm.2⟩)]
        · exact h8 (htot scen.name sd hb)
      · obtain ⟨batch, hbatch, n, hn⟩ := ih
          (runSizes timing algorithm.name scen.name scen.dataType sd sizes st) hcountRest
        refine ⟨batch, ?_, n, hn⟩
        rw [hbatch, h1, recordsForPair_append,
          recordsForPair_batch_ne recs a s algorithm.name scen.name h3 hm,
          List.append_nil]

/-- Algorithm-loop folds append a single take-prefix batch to each
pair's records when algorithm names and compatible scenario names are
duplicate-free. -/
theorem foldAlgs_pair_batch (catalog : List TestScen) (sizes : List ℕ)
    (timing : String → ℕ → ℕ → ℚ) (testData : String → Option (ℕ → Option ℕ))
    (algorithms : List Algorithm) (st : RunState) (a s : String)
    (hcountA : (algorithms.map Algorithm.name).count a ≤ 1)
    (hcountC : ∀ algorithm ∈ algorithms,
      ((getCompatibleScenariosForIn catalog algorithm).map TestScen.name).count s ≤ 1)
    (htot : ∀ nm sd, testData nm = some sd → ∀ z ∈ sizes, z ≠ 0 → sd z ≠ none) :
    ∃ batch,
      recordsForPair
          (algorithms.foldl
            (fun st algorithm => runTestsForAlgorithm catalog sizes timing testData algorithm st)
            st).results a s
        = recordsForPair st.results a s ++ batch ∧
      ∃ n, batch.map PerformanceResult.arraySize
        = (sizes.filter (fun z => decide (z ≠ 0))).take n := by
  induction algorithms generalizing st with
  | nil => exact ⟨[], by simp, 0, by simp⟩
  | cons algorithm rest ih =>
    simp only [List.foldl_cons]
    have hcountRest : (rest.map Algorithm.name).count a ≤ 1 := by
      simp only [List.map_cons, List.count_cons] at hcountA
      omega
    by_cases hm : algorithm.name = a
    · have hcount0 : (rest.map Algorithm.name).count a = 0 := by
        simp only [List.map_cons, List.count_cons, hm] at hcountA
        simp at hcountA
        omega
      have hna : ∀ x ∈ rest, x.name ≠ a := by
        intro x hx hxa
        have : a ∈ rest.map Algorithm.name := List.mem_map.mpr ⟨x, hx, hxa⟩
        rw [← List.count_pos_iff] at this
        omega
      rw [foldAlgs_no_pair catalog sizes timing testData rest _ a s hna]
      exact runTestsForAlgorithm_pair_batch catalog sizes timing testData algorithm st a s
        (hcountC algorithm (List.mem_cons_self _ _)) htot
    · obtain ⟨batch, hbatch, n, hn⟩ :=
        ih (runTestsForAlgorithm catalog sizes timing testData algorithm st) hcountRest
          (fun x hx => hcountC x (List.mem_cons_of_mem _ hx))
      refine ⟨batch, ?_, n, hn⟩
      rw [hbatch,
        runTestsForAlgorithm_other_alg catalog sizes timing testData algorithm st a s hm]

/-- Full runs with duplicate-free algorithm and scenario names record,
for every pair, a take-prefix of the nonzero size schedule. -/
theorem runAll_pair_prefix (catalog : List TestScen) (algorithms : List Algorithm)
    (sizes : List ℕ) (timing : String → ℕ → ℕ → ℚ) (a s : String)
    (hndA : (algorithms.map Algorithm.name).Nodup)
    (hndC : (catalog.map TestScen.name).Nodup) :
    ∃ n, (recordsForPair (runAll catalog algorithms sizes timing).saved a s).map
        PerformanceResult.arraySize
      = (sizes.filter (fun z => decide (z ≠ 0))).take n := by
  have hcountC : ∀ algorithm ∈ algorithms,
      ((getCompatibleScenariosForIn catalog algorithm).map TestScen.name).count s ≤ 1 := by
    intro algorithm _
    have hsub : ((getCompatibleScenariosForIn catalog algorithm).map TestScen.name).Sublist
        (catalog.map TestScen.name) := by
      unfold getCompatibleScenariosForIn
      by_cases hacc : algorithm.accepts = some AcceptedData.integers
      · rw [if_pos hacc]
        exact List.Sublist.map _ (List.filter_sublist _)
      · rw [if_neg hacc]
    exact List.nodup_iff_count_le_one.mp (hsub.nodup hndC) s
  obtain ⟨batch, hbatch, n, hn⟩ := foldAlgs_pair_batch catalog sizes timing
    (generateAll catalog algorithms sizes) algorithms initialState a s
    (List.nodup_iff_count_le_one.mp hndA a) hcountC
    (generateAll_total catalog algorithms sizes)
  refine ⟨n, ?_⟩
  show (recordsForPair (List.foldl _ initialState algorithms).results a s).map _ = _
  rw [hbatch]
  simpa using hn

/-- Claim C4: the configured size schedule is deduplicated and sorted
strictly ascending, no recorded trial has array size 0, and within one
(algorithm, scenario) pair the recorded array sizes strictly increase
across consecutive records (the actual registry and catalog have
duplicate-free names, so each pair is visited exactly once and its
records follow the ascending schedule). -/
theorem claim_C4 (staticSizes dynamicSizes : List ℕ) (timing : String → ℕ → ℕ → ℚ)
    (a s : String) :
    (finalSizes staticSizes dynamicSizes).Pairwise (· < ·) ∧
    (∀ r ∈ (runBenchmark (finalSizes staticSizes dynamicSizes) timing).saved,
      r.arraySize ≠ 0) ∧
    ((recordsForPair (runBenchmark (finalSizes staticSizes dynamicSizes) timing).saved
        a s).map PerformanceResult.arraySize).Pairwise (· < ·) := by
  have hndA : (ALGORITHMS_TO_TEST.map Algorithm.name).Nodup := by decide
  have hndC : (scenariosToTest.map TestScen.name).Nodup := by decide
  refine ⟨finalSizes_sorted staticSizes dynamicSizes, ?_, ?_⟩
  · intro r hr h0
    have hrp : r ∈ recordsForPair
        (runBenchmark (finalSizes staticSizes dynamicSizes) timing).saved
        r.algorithmName r.scenarioName := by
      apply List.mem_filter.mpr
      exact ⟨hr, by simp⟩
    obtain ⟨n, hn⟩ := runAll_pair_prefix scenariosToTest ALGORITHMS_TO_TEST
      (finalSizes staticSizes dynamicSizes) timing r.algorithmName r.scenarioName hndA hndC
    have hmem : r.arraySize ∈ (recordsForPair
        (runBenchmark (finalSizes staticSizes dynamicSizes) timing).saved
        r.algorithmName r.scenarioName).map PerformanceResult.arraySize :=
      List.mem_map.mpr ⟨r, hrp, rfl⟩
    unfold runBenchmark at hmem
    rw [hn] at hmem
    have := List.mem_filter.mp ((List.take_sublist _ _).mem hmem)
    simp only [decide_eq_true_eq] at this
    exact this.2 h0
  · obtain ⟨n, hn⟩ := runAll_pair_prefix scenariosToTest ALGORITHMS_TO_TEST
      (finalSizes staticSizes dynamicSizes) timing a s hndA hndC
    unfold runBenchmark
    rw [hn]
    exact List.Pairwise.sublist
      ((List.take_sublist _ _).trans (List.filter_sublist _))
      (finalSizes_sorted staticSizes dynamicSizes)

/-- Size loops over a schedule that contains only size 0 do nothing. -/
theorem runSizes_all_zero (timing : String → ℕ → ℕ → ℚ) (algName scenName : String)
    (kind : DataKind) (scenData : ℕ → Option ℕ) (l : List ℕ) (st : RunState)
    (hz : ∀ z ∈ l, z = 0) :
    runSizes timing algName scenName kind scenData l st = st := by
  induction l with
  | nil => rfl
  | cons size rest ih =>
    have h0 : size = 0 := hz size (List.mem_cons_self _ _)
    simp only [runSizes, if_pos h0]
    exact ih (fun z hzz => hz z (List.mem_cons_of_mem _ hzz))

/-- Claim C9: an empty registry yields a run with zero records, zero
measurements and an empty saved list; a schedule that is empty or
contains only size 0 does the same for any registry; and in every case
the saved list handed to persistence is exactly the accumulated result
list (so the empty result sequence is still handed over). -/
theorem claim_C9 (catalog : List TestScen) (algorithms : List Algorithm)
    (sizes : List ℕ) (timing : String → ℕ → ℕ → ℚ) :
    ((runAll catalog [] sizes timing).saved = [] ∧
      (runAll catalog [] sizes timing).final.measurements = []) ∧
    ((∀ z ∈ sizes, z = 0) →
      (runAll catalog algorithms sizes timing).saved = [] ∧
      (runAll catalog algorithms sizes timing).final.measurements = []) ∧
    (runAll catalog algorithms sizes timing).saved
      = (runAll catalog algorithms sizes timing).final.results := by
  refine ⟨⟨rfl, rfl⟩, ?_, rfl⟩
  intro hz
  have hrun : ∀ (algorithm : Algorithm) (st : RunState),
      runTestsForAlgorithm catalog sizes timing
        (generateAll catalog algorithms sizes) algorithm st = st := by
    intro algorithm st
    unfold runTestsForAlgorithm
    generalize getCompatibleScenariosForIn catalog algorithm = scens
    induction scens generalizing st with
    | nil => rfl
    | cons scen rest ih =>
      simp only [List.foldl_cons]
      cases hb : generateAll catalog algorithms sizes scen.name with
      | none =>
        simp only [hb]
        exact ih st
      | some sd =>
        simp only [hb, runSizes_all_zero timing algorithm.name scen.name scen.dataType
          sd sizes st hz]
        exact ih st
  have hfold : ∀ (algs : List Algorithm) (st : RunState),
      algs.foldl (fun st algorithm => runTestsForAlgorithm catalog sizes timing
        (generateAll catalog algorithms sizes) algorithm st) st = st := by
    intro algs
    induction algs with
    | nil => exact fun st => rfl
    | cons x rest ih =>
      intro st
      simp only [List.foldl_cons, hrun x st]
      exact ih st
  constructor
  · show (List.foldl _ initialState algorithms).results = []
    rw [hfold algorithms initialState]
    rfl
  · show (List.foldl _ initialState algorithms).measurements = []
    rw [hfold algorithms initialState]
    rfl

theorem claim_C9_witness :
    (∀ z ∈ ([0] : List ℕ), z = 0) ∧
    (runAll [⟨"s", DataKind.integer⟩] [⟨"A", none⟩] [0] (fun _ _ _ => 0)).saved = [] :=
  ⟨by decide,
    ((claim_C9 [⟨"s", DataKind.integer⟩] [⟨"A", none⟩] [0] (fun _ _ _ => 0)).2.1
      (by decide)).1⟩

theorem claim_C1_witness :
    ((20000 ∈ finalSizes [10000, 20000, 30000] []) ∧
      (30000 ∈ finalSizes [10000, 20000, 30000] []) ∧
      ((0 : ℕ) ∉ [10000, 20000, 30000] ++ ([] : List ℕ)) ∧
      20000 < 30000 ∧
      (∀ r ∈ recordsForPair
          (runAll [⟨"s", DataKind.integer⟩] [⟨"A", none⟩]
            (finalSizes [10000, 20000, 30000] []) (fun _ _ _ => 1000)).saved "A" "s",
        r.arraySize ≠ 20000)) ∧
    (∀ r ∈ recordsForPair
        (runAll [⟨"s", DataKind.integer⟩] [⟨"A", none⟩]
          (finalSizes [10000, 20000, 30000] []) (fun _ _ _ => 1000)).saved "A" "s",
      r.arraySize ≠ 30000) := by
  refine ⟨⟨by decide, by decide, by decide, by decide, by with_unfolding_all decide⟩, ?_⟩
  exact (claim_C1 [⟨"s", DataKind.integer⟩] [⟨"A", none⟩] [10000, 20000, 30000] []
    (fun _ _ _ => 1000) "A" "s" 20000 30000 (by decide) (by decide) (by decide)
    (by decide) (by with_unfolding_all decide)).1

/- ===== Measurement-trace characterization ===== -/

theorem dedupByNameAux_name_mem (l : List TestScen) (seen : List String) (t : TestScen)
    (ht : t ∈ l) (hns : t.name ∉ seen) :
    ∃ u ∈ dedupByNameAux seen l, u.name = t.name := by
  induction l generalizing seen with
  | nil => cases ht
  | cons scen rest ih =>
    rcases List.mem_cons.mp ht with rfl | hrest
    · have hs : t.name ∉ seen := hns
      refine ⟨t, ?_, rfl⟩
      simp only [dedupByNameAux, if_neg hs]
      exact List.mem_cons_self _ _
    · by_cases hs : scen.name ∈ seen
      · simp only [dedupByNameAux, if_pos hs]
        exact ih seen hrest hns
      · simp only [dedupByNameAux, if_neg hs]
        by_cases heq : t.name = scen.name
        · exact ⟨scen, List.mem_cons_self _ _, heq.symm⟩
        · obtain ⟨u, hu, hun⟩ := ih (scen.name :: seen) hrest (by
            intro hmem
            rcases List.mem_cons.mp hmem with h | h
            · exact heq h
            · exact hns h)
          exact ⟨u, List.mem_cons_of_mem _ hu, hun⟩

/-- For a compatible scenario of a registered algorithm, generateAll
holds a full per-size map under the scenario's name. -/
theorem generateAll_mem (catalog : List TestScen) (algorithms : List Algorithm)
    (sizes : List ℕ) (algorithm : Algorithm) (scen : TestScen)
    (hA : algorithm ∈ algorithms)
    (hs : scen ∈ getCompatibleScenariosForIn catalog algorithm) :
    generateAll catalog algorithms sizes scen.name
      = some (fun size =>
          if size ∈ sizes ∧ size ≠ 0 then some (getSampleSize size) else none) := by
  unfold generateAll
  rw [if_pos]
  have hmem : scen ∈ algorithms.flatMap (getCompatibleScenariosForIn catalog) :=
    List.mem_flatMap.mpr ⟨algorithm, hA, hs⟩
  obtain ⟨u, hu, hun⟩ := dedupByNameAux_name_mem _ [] scen hmem (by simp)
  exact List.any_eq_true.mpr ⟨u, hu, by simp [hun]⟩

theorem foldScens_meas (sizes : List ℕ) (timing : String → ℕ → ℕ → ℚ)
    (testData : String → Option (ℕ → Option ℕ)) (algName : String)
    (scens : List TestScen) (st : RunState) :
    ∀ m ∈ (scens.foldl
        (fun st scen =>
          match testData scen.name with
          | none => st
          | some scenData => runSizes timing algName scen.name scen.dataType scenData sizes st)
        st).measurements,
      m ∈ st.measurements ∨
        (m.algorithmName = algName ∧
          ∃ scen ∈ scens, m.scenarioName = scen.name ∧ m.kind = scen.dataType ∧
            ∃ sd, testData scen.name = some sd ∧ sd m.arraySize = some m.samples) := by
  induction scens generalizing st with
  | nil => exact fun m hm => Or.inl hm
  | cons scen rest ih =>
    intro m hm
    simp only [List.foldl_cons] at hm
    cases hb : testData scen.name with
    | none =>
      simp only [hb] at hm
      rcases ih st m hm with h | ⟨h1, scen', hs', hrest⟩
      · exact Or.inl h
      · exact Or.inr ⟨h1, scen', List.mem_cons_of_mem _ hs', hrest⟩
    | some sd =>
      simp only [hb] at hm
      rcases ih _ m hm with h | ⟨h1, scen', hs', hrest⟩
      · obtain ⟨recs, meas, _, h2, _, h4, _, h6, _⟩ :=
          runSizes_spec timing algName scen.name scen.dataType sd sizes st
        rw [h2] at h
        rcases List.mem_append.mp h with h | h
        · exact Or.inl h
        · obtain ⟨ha, hsn, hk⟩ := h4 m h
          exact Or.inr ⟨ha, scen, List.mem_cons_self _ _, hsn, hk, sd, hb, h6 m h⟩
      · exact Or.inr ⟨h1, scen', List.mem_cons_of_mem _ hs', hrest⟩

theorem foldAlgs_meas (catalog : List TestScen) (sizes : List ℕ)
    (timing : String → ℕ → ℕ → ℚ) (testData : String → Option (ℕ → Option ℕ))
    (algorithms : List Algorithm) (st : RunState) :
    ∀ m ∈ (algorithms.foldl
        (fun st algorithm => runTestsForAlgorithm catalog sizes timing testData algorithm st)
        st).measurements,
      m ∈ st.measurements ∨
        ∃ algorithm ∈ algorithms, m.algorithmName = algorithm.name ∧
          ∃ scen ∈ getCompatibleScenariosForIn catalog algorithm,
            m.scenarioName = scen.name ∧ m.kind = scen.dataType ∧
            ∃ sd, testData scen.name = some sd ∧ sd m.arraySize = some m.samples := by
  induction algorithms generalizing st with
  | nil => exact fun m hm => Or.inl hm
  | cons algorithm rest ih =>
    intro m hm
    simp only [List.foldl_cons] at hm
    rcases ih _ m hm with h | ⟨alg', hA', hrest⟩
    · unfold runTestsForAlgorithm at h
      rcases foldScens_meas sizes timing testData algorithm.name
          (getCompatibleScenariosForIn catalog algorithm) st m h with h | ⟨h1, hrest⟩
      · exact Or.inl h
      · exact Or.inr ⟨algorithm, List.mem_cons_self _ _, h1, hrest⟩
    · exact Or.inr ⟨alg', List.mem_cons_of_mem _ hA', hrest⟩

/-- Every measurement of a full run belongs to a registered algorithm
and one of its compatible scenarios, and its sample count is the stored
array count of its size. -/
theorem runAll_meas (catalog : List TestScen) (algorithms : List Algorithm)
    (sizes : List ℕ) (timing : String → ℕ → ℕ → ℚ) :
    ∀ m ∈ (runAll catalog algorithms sizes timing).final.measurements,
      ∃ algorithm ∈ algorithms, m.algorithmName = algorithm.name ∧
        ∃ scen ∈ getCompatibleScenariosForIn catalog algorithm,
          m.scenarioName = scen.name ∧ m.kind = scen.dataType ∧
          ∃ sd, generateAll catalog algorithms sizes scen.name = some sd ∧
            sd m.arraySize = some m.samples := by
  intro m hm
  have := foldAlgs_meas catalog sizes timing (generateAll catalog algorithms sizes)
    algorithms initialState m hm
  rcases this with h | h
  · cases h
  · exact h

/-- Projection of a measurement event to (algorithm name, scenario name,
array size). -/
def measTriple (m : MeasureEvent) : String × String × ℕ :=
  (m.algorithmName, m.scenarioName, m.arraySize)

/-- Projection of a trial record to (algorithm name, scenario name,
array size). -/
def recTriple (r : PerformanceResult) : String × String × ℕ :=
  (r.algorithmName, r.scenarioName, r.arraySize)

theorem batch_triples (recs : List PerformanceResult) (meas : List MeasureEvent)
    (algName scenName : String) (kind : DataKind)
    (h3 : ∀ r ∈ recs, r.algorithmName = algName ∧ r.scenarioName = scenName)
    (h4 : ∀ m ∈ meas, m.algorithmName = algName ∧ m.scenarioName = scenName ∧ m.kind = kind)
    (h5 : meas.map MeasureEvent.arraySize = recs.map PerformanceResult.arraySize) :
    meas.map measTriple = recs.map recTriple := by
  have e1 : meas.map measTriple
      = (meas.map MeasureEvent.arraySize).map (fun z => (algName, scenName, z)) := by
    rw [List.map_map]
    exact List.map_congr_left (fun m hm => by
      obtain ⟨h1, h2, _⟩ := h4 m hm
      simp [measTriple, Function.comp, h1, h2])
  have e2 : recs.map recTriple
      = (recs.map PerformanceResult.arraySize).map (fun z => (algName, scenName, z)) := by
    rw [List.map_map]
    exact List.map_congr_left (fun r hr => by
      obtain ⟨h1, h2⟩ := h3 r hr
      simp [recTriple, Function.comp, h1, h2])
  rw [e1, e2, h5]

theorem runSizes_triples (timing : String → ℕ → ℕ → ℚ) (algName scenName : String)
    (kind : DataKind) (scenData : ℕ → Option ℕ) (sizes : List ℕ) (st : RunState)
    (hinv : st.measurements.map measTriple = st.results.map recTriple) :
    (runSizes timing algName scenName kind scenData sizes st).measurements.map measTriple
      = (runSizes timing algName scenName kind scenData sizes st).results.map recTriple := by
  obtain ⟨recs, meas, h1, h2, h3, h4, h5, _⟩ :=
    runSizes_spec timing algName scenName kind scenData sizes st
  rw [h1, h2, List.map_append, List.map_append, hinv,
    batch_triples recs meas algName scenName kind h3 h4 h5]

theorem runAll_triples (catalog : List TestScen) (algorithms : List Algorithm)
    (sizes : List ℕ) (timing : String → ℕ → ℕ → ℚ) :
    (runAll catalog algorithms sizes timing).final.measurements.map measTriple
      = (runAll catalog algorithms sizes timing).saved.map recTriple := by
  show (List.foldl _ initialState algorithms).measurements.map measTriple
    = (List.foldl _ initialState algorithms).results.map recTriple
  have hstep : ∀ (algorithm : Algorithm) (st : RunState),
      st.measurements.map measTriple = st.results.map recTriple →
      (runTestsForAlgorithm catalog sizes timing (generateAll catalog algorithms sizes)
          algorithm st).measurements.map measTriple
        = (runTestsForAlgorithm catalog sizes timing (generateAll catalog algorithms sizes)
          algorithm st).results.map recTriple := by
    intro algorithm st hinv
    unfold runTestsForAlgorithm
    generalize getCompatibleScenariosForIn catalog algorithm = scens
    induction scens generalizing st with
    | nil => exact hinv
    | cons scen rest ih =>
      simp only [List.foldl_cons]
      cases hb : generateAll catalog algorithms sizes scen.name with
      | none =>
        simp only [hb]
        exact ih st hinv
      | some sd =>
        simp only [hb]
        exact ih _ (runSizes_triples timing algorithm.name scen.name scen.dataType sd
          sizes st hinv)
  have : ∀ (algs : List Algorithm) (st : RunState),
      st.measurements.map measTriple = st.results.map recTriple →
      (algs.foldl (fun st algorithm => runTestsForAlgorithm catalog sizes timing
          (generateAll catalog algorithms sizes) algorithm st) st).measurements.map measTriple
        = (algs.foldl (fun st algorithm => runTestsForAlgorithm catalog sizes timing
          (generateAll catalog algorithms sizes) algorithm st) st).results.map recTriple := by
    intro algs
    induction algs with
    | nil => exact fun st hinv => hinv
    | cons algorithm rest ih =>
      intro st hinv
      simp only [List.foldl_cons]
      exact ih _ (hstep algorithm st hinv)
  exact this algorithms initialState rfl

/-- Claim C7: with the accepts tag set to integers the filter returns
exactly the integer-kind scenarios of the catalog, otherwise it returns
the whole catalog; consequently every compatible scenario of an
integers-tagged algorithm has integer kind, and in a full run no
measurement of a registered integers-tagged algorithm is ever taken on
a float-kind scenario. -/
theorem claim_C7 :
    (∀ (catalog : List TestScen) (algorithm : Algorithm),
      algorithm.accepts = some AcceptedData.integers →
      getCompatibleScenariosForIn catalog algorithm
        = catalog.filter (fun scen => decide (scen.dataType = DataKind.integer))) ∧
    (∀ (catalog : List TestScen) (algorithm : Algorithm),
      algorithm.accepts ≠ some AcceptedData.integers →
      getCompatibleScenariosForIn catalog algorithm = catalog) ∧
    (∀ (algorithm : Algorithm), algorithm.accepts = some AcceptedData.integers →
      ∀ scen ∈ getCompatibleScenariosFor algorithm, scen.dataType = DataKind.integer) ∧
    (∀ (sizes : List ℕ) (timing : String → ℕ → ℕ → ℚ) (algorithm : Algorithm),
      algorithm ∈ ALGORITHMS_TO_TEST →
      algorithm.accepts = some AcceptedData.integers →
      ∀ m ∈ (runBenchmark sizes timing).final.measurements,
        m.algorithmName = algorithm.name → m.kind = DataKind.integer) := by
  have hfilter : ∀ (catalog : List TestScen) (algorithm : Algorithm),
      algorithm.accepts = some AcceptedData.integers →
      getCompatibleScenariosForIn catalog algorithm
        = catalog.filter (fun scen => decide (scen.dataType = DataKind.integer)) := by
    intro catalog algorithm hacc
    unfold getCompatibleScenariosForIn
    rw [if_pos hacc]
  refine ⟨hfilter, ?_, ?_, ?_⟩
  · intro catalog algorithm hacc
    unfold getCompatibleScenariosForIn
    rw [if_neg hacc]
  · intro algorithm hacc scen hs
    unfold getCompatibleScenariosFor at hs
    rw [hfilter scenariosToTest algorithm hacc] at hs
    have := (List.mem_filter.mp hs).2
    simpa using this
  · intro sizes timing algorithm hA hacc m hm hname
    have hchar := runAll_meas scenariosToTest ALGORITHMS_TO_TEST sizes timing m hm
    obtain ⟨alg', hA', hname', scen, hscen, _, hkind, _⟩ := hchar
    have hnd : (ALGORITHMS_TO_TEST.map Algorithm.name).Nodup := by decide
    have halg : alg' = algorithm :=
      List.inj_on_of_nodup_map hnd hA' hA (hname'.symm.trans hname)
    subst halg
    rw [hfilter scenariosToTest alg' hacc] at hscen
    have := (List.mem_filter.mp hscen).2
    simp only [decide_eq_true_eq] at this
    rw [hkind, this]

theorem claim_C7_witness :
    ((⟨"Counting Sort", some AcceptedData.integers⟩ : Algorithm).accepts
        = some AcceptedData.integers) ∧
    getCompatibleScenariosForIn scenariosToTest
        ⟨"Counting Sort", some AcceptedData.integers⟩
      = scenariosToTest.filter (fun scen => decide (scen.dataType = DataKind.integer)) :=
  ⟨rfl, claim_C7.1 scenariosToTest ⟨"Counting Sort", some AcceptedData.integers⟩ rfl⟩

/-- Claim C10: for every registered algorithm and compatible scenario
the pre-generated master data holds, under the scenario's name, a map
giving exactly getSampleSize size arrays for every nonzero configured
size; every measurement of a run samples exactly getSampleSize of its
size arrays; measurements and trial records correspond one to one (same
pair and size, in order), so every measured triple yields exactly one
record; and each pair's records are a take-prefix of the nonzero
ascending schedule (one record per visited size until abandonment). -/
theorem claim_C10 (staticSizes dynamicSizes : List ℕ) (timing : String → ℕ → ℕ → ℚ) :
    (∀ algorithm ∈ ALGORITHMS_TO_TEST, ∀ scen ∈ getCompatibleScenariosFor algorithm,
      generateAll scenariosToTest ALGORITHMS_TO_TEST (finalSizes staticSizes dynamicSizes)
          scen.name
        = some (fun size =>
            if size ∈ finalSizes staticSizes dynamicSizes ∧ size ≠ 0
            then some (getSampleSize size) else none)) ∧
    (∀ m ∈ (runBenchmark (finalSizes staticSizes dynamicSizes) timing).final.measurements,
      m.samples = getSampleSize m.arraySize) ∧
    ((runBenchmark (finalSizes staticSizes dynamicSizes) timing).final.measurements.map
        measTriple
      = (runBenchmark (finalSizes staticSizes dynamicSizes) timing).saved.map recTriple) ∧
    (∀ a s, ∃ n,
      (recordsForPair (runBenchmark (finalSizes staticSizes dynamicSizes) timing).saved
          a s).map PerformanceResult.arraySize
        = ((finalSizes staticSizes dynamicSizes).filter (fun z => decide (z ≠ 0))).take n) := by
  refine ⟨?_, ?_, runAll_triples _ _ _ _, ?_⟩
  · intro algorithm hA scen hs
    exact generateAll_mem scenariosToTest ALGORITHMS_TO_TEST
      (finalSizes staticSizes dynamicSizes) algorithm scen hA hs
  · intro m hm
    obtain ⟨algorithm, hA, _, scen, hscen, _, _, sd, hsd, hval⟩ :=
      runAll_meas scenariosToTest ALGORITHMS_TO_TEST
        (finalSizes staticSizes dynamicSizes) timing m hm
    rw [generateAll_mem scenariosToTest ALGORITHMS_TO_TEST
      (finalSizes staticSizes dynamicSizes) algorithm scen hA hscen] at hsd
    obtain rfl : (fun size =>
        if size ∈ finalSizes staticSizes dynamicSizes ∧ size ≠ 0
        then some (getSampleSize size) else none) = sd :=
      Option.some_injective _ hsd
    have hval' : (if m.arraySize ∈ finalSizes staticSizes dynamicSizes ∧ m.arraySize ≠ 0
        then some (getSampleSize m.arraySize) else none) = some m.samples := hval
    by_cases hc : m.arraySize ∈ finalSizes staticSizes dynamicSizes ∧ m.arraySize ≠ 0
    · rw [if_pos hc] at hval'
      exact (Option.some_injective _ hval').symm
    · rw [if_neg hc] at hval'
      exact absurd hval' (by simp)
  · intro a s
    have hndA : (ALGORITHMS_TO_TEST.map Algorithm.name).Nodup := by decide
    have hndC : (scenariosToTest.map TestScen.name).Nodup := by decide
    exact runAll_pair_prefix scenariosToTest ALGORITHMS_TO_TEST
      (finalSizes staticSizes dynamicSizes) timing a s hndA hndC

theorem claim_C10_witness :
    ∃ n, (recordsForPair (runBenchmark (finalSizes [] []) (fun _ _ _ => 0)).saved
        "Bubble Sort" "on a random array of integers").map PerformanceResult.arraySize
      = ((finalSizes [] []).filter (fun z => decide (z ≠ 0))).take n :=
  (claim_C10 [] [] (fun _ _ _ => 0)).2.2.2 "Bubble Sort" "on a random array of integers"

/- ===== Sorting algorithms: array-as-list toolkit ===== -/

/-- Indexed read a[i] of a JS array.  Every read performed by the
embedded algorithms is in range, so the default value is never
observed. -/
def ag {α : Type} [Inhabited α] (l : List α) (i : ℕ) : α := l.getD i default

theorem ag_eq_getElem {α : Type} [Inhabited α] (l : List α) (i : ℕ) (h : i < l.length) :
    ag l i = l[i] := by
  simp [ag, List.getD_eq_getElem?_getD, List.getElem?_eq_getElem h]

theorem set_eq_take_cons_drop {α : Type} (l : List α) (i : ℕ) (h : i < l.length) (x : α) :
    l.set i x = l.take i ++ x :: l.drop (i + 1) := by
  rw [List.set_eq_take_append_cons_drop, if_pos h]

theorem eq_take_ag_cons_drop {α : Type} [Inhabited α] (l : List α) (i : ℕ)
    (h : i < l.length) : l = l.take i ++ ag l i :: l.drop (i + 1) := by
  rw [ag_eq_getElem l i h]
  conv_lhs => rw [← List.take_append_drop i l]
  congr 1
  exact (List.getElem_cons_drop l i h).symm

theorem ag_set_self {α : Type} [Inhabited α] (l : List α) (i : ℕ) (h : i < l.length)
    (x : α) : ag (l.set i x) i = x := by
  simp [ag, List.getD_eq_getElem?_getD, List.getElem?_set_self h]

theorem ag_set_ne {α : Type} [Inhabited α] (l : List α) (i j : ℕ) (hne : i ≠ j) (x : α) :
    ag (l.set i x) j = ag l j := by
  simp [ag, List.getD_eq_getElem?_getD, List.getElem?_set_ne hne]

theorem set_ag_self {α : Type} [Inhabited α] (l : List α) (i : ℕ) :
    l.set i (ag l i) = l := by
  by_cases h : i < l.length
  · rw [set_eq_take_cons_drop l i h, ← eq_take_ag_cons_drop l i h]
  · exact List.set_eq_of_length_le (by omega)

/-- Count-based permutation criterion. -/
theorem perm_of_count {α : Type} [DecidableEq α] (l1 l2 : List α)
    (h : ∀ v, l1.count v = l2.count v) : l1.Perm l2 :=
  List.perm_iff_count.mpr h

theorem count_set {α : Type} [Inhabited α] [DecidableEq α] (l : List α) (i : ℕ)
    (h : i < l.length) (x v : α) :
    (l.set i x).count v
      = l.count v + (if x = v then 1 else 0) - (if ag l i = v then 1 else 0) := by
  have hl : l.count v
      = (l.take i).count v + ((if ag l i = v then 1 else 0) + (l.drop (i + 1)).count v) := by
    conv_lhs => rw [eq_take_ag_cons_drop l i h]
    simp only [List.count_append, List.count_cons, beq_iff_eq]
    by_cases hv : ag l i = v <;> simp [hv] <;> omega
  have hset : (l.set i x).count v
      = (l.take i).count v + ((if x = v then 1 else 0) + (l.drop (i + 1)).count v) := by
    rw [set_eq_take_cons_drop l i h x]
    simp only [List.count_append, List.count_cons, beq_iff_eq]
    by_cases hx : x = v <;> simp [hx] <;> omega
  rw [hl, hset]
  by_cases hx : x = v <;> by_cases hv : ag l i = v <;> simp [hx, hv] <;> omega

/- ===== Reference ascending sort (correctness suite ground truth) ===== -/

/-- Reference ascending sort of the correctness suite
(getExpectedResult: a copy sorted with the numeric comparator
(a, b) => a - b), modelled as the sorted permutation. -/
def sortSpec (l : List ℚ) : List ℚ := List.insertionSort (· ≤ ·) l

/-- Reference ascending sort on natural numbers (inputs of the
integer-only algorithms). -/
def sortSpecN (l : List ℕ) : List ℕ := List.insertionSort (· ≤ ·) l

theorem eq_sortSpec_of (l out : List ℚ) (hp : out.Perm l) (hs : out.Pairwise (· ≤ ·)) :
    out = sortSpec l :=
  List.eq_of_perm_of_sorted (hp.trans (List.perm_insertionSort _ l).symm) hs
    (List.sorted_insertionSort _ l)

theorem eq_sortSpecN_of (l out : List ℕ) (hp : out.Perm l) (hs : out.Pairwise (· ≤ ·)) :
    out = sortSpecN l :=
  List.eq_of_perm_of_sorted (hp.trans (List.perm_insertionSort _ l).symm) hs
    (List.sorted_insertionSort _ l)

/- ===== Swap helper (quick-sort.ts; same net effect as the inline
three-assignment swaps of the other algorithm files) ===== -/

/-- Function swap of quick-sort.ts: temp = arr[i]; arr[i] = arr[j];
arr[j] = temp. -/
def swap {α : Type} [Inhabited α] (arr : List α) (i j : ℕ) : List α :=
  let temp := ag arr i
  (arr.set i (ag arr j)).set j temp

theorem length_swap {α : Type} [Inhabited α] (arr : List α) (i j : ℕ) :
    (swap arr i j).length = arr.length := by
  simp [swap]

theorem ag_mem {α : Type} [Inhabited α] (l : List α) (i : ℕ) (h : i < l.length) :
    ag l i ∈ l := by
  rw [ag_eq_getElem l i h]
  exact List.getElem_mem h

theorem ag_swap_fst {α : Type} [Inhabited α] (arr : List α) (i j : ℕ)
    (hi : i < arr.length) (hne : i ≠ j) : ag (swap arr i j) i = ag arr j := by
  rw [swap, ag_set_ne _ j i (fun h => hne h.symm), ag_set_self _ i hi]

theorem ag_swap_snd {α : Type} [Inhabited α] (arr : List α) (i j : ℕ)
    (hj : j < arr.length) : ag (swap arr i j) j = ag arr i := by
  rw [swap, ag_set_self]
  simpa using hj

theorem ag_swap_other {α : Type} [Inhabited α] (arr : List α) (i j k : ℕ)
    (hki : k ≠ i) (hkj : k ≠ j) : ag (swap arr i j) k = ag arr k := by
  rw [swap, ag_set_ne _ j k (fun h => hkj h.symm), ag_set_ne _ i k (fun h => hki h.symm)]

theorem swap_count {α : Type} [Inhabited α] [DecidableEq α] (arr : List α) (i j : ℕ)
    (hi : i < arr.length) (hj : j < arr.length) (v : α) :
    (swap arr i j).count v = arr.count v := by
  have hj' : j < (arr.set i (ag arr j)).length := by simpa using hj
  have hmid : ag (arr.set i (ag arr j)) j = ag arr j := by
    by_cases hij : i = j
    · subst hij
      exact ag_set_self arr i hi _
    · exact ag_set_ne _ i j hij _
  rw [swap]
  rw [count_set _ j hj' _ v, count_set _ i hi _ v, hmid]
  have h1 : ag arr i = v → 1 ≤ arr.count v := fun h =>
    List.count_pos_iff.mpr (h ▸ ag_mem arr i hi)
  by_cases e1 : ag arr i = v
  · by_cases e2 : ag arr j = v
    · rw [if_pos e1, if_pos e2]
      omega
    · have c1 := h1 e1
      rw [if_pos e1, if_neg e2]
      omega
  · by_cases e2 : ag arr j = v
    · rw [if_neg e1, if_pos e2]
      omega
    · rw [if_neg e1, if_neg e2]
      omega

theorem swap_perm {α : Type} [Inhabited α] [DecidableEq α] (arr : List α) (i j : ℕ)
    (hi : i < arr.length) (hj : j < arr.length) : (swap arr i j).Perm arr :=
  perm_of_count _ _ (swap_count arr i j hi hj)

/- ===== Merge sort (merge-sort.ts / part_001) ===== -/

/-- Function merge of merge-sort.ts: repeatedly push the smaller head
while both arrays are non-empty (strict comparison left < right), then
concatenate whatever remains.  The index-based loop of the source is
the structural recursion on the two suffixes left.slice(leftIndex) and
right.slice(rightIndex). -/
def merge : List ℚ → List ℚ → List ℚ
  | [], right => right
  | a :: left, [] => a :: left
  | a :: left, b :: right =>
    if a < b then a :: merge left (b :: right)
    else b :: merge (a :: left) right
termination_by l r => l.length + r.length

theorem merge_perm (l r : List ℚ) : (merge l r).Perm (l ++ r) := by
  induction l, r using merge.induct with
  | case1 r => simp [merge]
  | case2 a left => simp [merge]
  | case3 a left b right h ih =>
    rw [merge, if_pos h]
    exact ih.cons a
  | case4 a left b right h ih =>
    rw [merge, if_neg h]
    exact (ih.cons b).trans (List.perm_append_comm_assoc [b] (a :: left) right)

theorem merge_sorted (l r : List ℚ) (hl : l.Pairwise (· ≤ ·)) (hr : r.Pairwise (· ≤ ·)) :
    (merge l r).Pairwise (· ≤ ·) := by
  induction l, r using merge.induct with
  | case1 r => simpa [merge] using hr
  | case2 a left => simpa [merge] using hl
  | case3 a left b right h ih =>
    rw [merge, if_pos h]
    rw [List.pairwise_cons] at hl
    refine List.pairwise_cons.mpr ⟨?_, ih hl.2 hr⟩
    intro y hy
    rcases List.mem_append.mp ((merge_perm left (b :: right)).mem_iff.mp hy) with hm | hm
    · exact hl.1 y hm
    · rcases List.mem_cons.mp hm with rfl | hm
      · exact le_of_lt h
      · exact le_of_lt (lt_of_lt_of_le h ((List.pairwise_cons.mp hr).1 y hm))
  | case4 a left b right h ih =>
    rw [merge, if_neg h]
    rw [List.pairwise_cons] at hr
    refine List.pairwise_cons.mpr ⟨?_, ih hl hr.2⟩
    intro y hy
    rcases List.mem_append.mp ((merge_perm (a :: left) right).mem_iff.mp hy) with hm | hm
    · rcases List.mem_cons.mp hm with rfl | hm
      · exact not_lt.mp h
      · exact le_trans (not_lt.mp h) ((List.pairwise_cons.mp hl).1 y hm)
    · exact hr.1 y hm

/-- Function mergeSort of merge-sort.ts: arrays of length at most one
are returned as is; otherwise the array is split at middle =
floor(length / 2) into slice(0, middle) and slice(middle), both halves
are sorted recursively and merged. -/
def mergeSort (arr : List ℚ) : List ℚ :=
  if arr.length ≤ 1 then arr
  else
    let middle := arr.length / 2
    merge (mergeSort (arr.take middle)) (mergeSort (arr.drop middle))
termination_by arr.length
decreasing_by
  · simp only [List.length_take]
    omega
  · simp only [List.length_drop]
    omega

theorem mergeSort_perm (arr : List ℚ) : (mergeSort arr).Perm arr := by
  induction arr using mergeSort.induct with
  | case1 arr h =>
    rw [mergeSort, if_pos h]
  | case2 arr h middle ih1 ih2 =>
    rw [mergeSort, if_neg h]
    exact ((merge_perm _ _).trans (ih1.append ih2)).trans
      (by rw [List.take_append_drop])

theorem mergeSort_sorted (arr : List ℚ) : (mergeSort arr).Pairwise (· ≤ ·) := by
  induction arr using mergeSort.induct with
  | case1 arr h =>
    rw [mergeSort, if_pos h]
    cases arr with
    | nil => exact List.Pairwise.nil
    | cons a t =>
      cases t with
      | nil => simp
      | cons b t => simp at h
  | case2 arr h middle ih1 ih2 =>
    rw [mergeSort, if_neg h]
    exact merge_sorted _ _ ih1 ih2

theorem mergeSort_eq_sortSpec (arr : List ℚ) : mergeSort arr = sortSpec arr :=
  eq_sortSpec_of arr _ (mergeSort_perm arr) (mergeSort_sorted arr)

/- ===== Gapped insertion loop (insertion-sort.ts and shell-sort.ts) ===== -/

/-- Inner while loop shared by insertion-sort.ts (gap 1; the source's j
corresponds to j - 1 here, so the loop starts at j = i) and
shell-sort.ts: while j >= gap and a[j - gap] > temp, shift a[j - gap]
up to a[j] and decrease j by gap; finally write temp at position j.
Positivity of the gap is what makes the source loop terminate (shell
sort only runs it while gap > 0, insertion sort uses gap 1), so it is
part of the termination guard here. -/
def shellInsertLoop (gap : ℕ) (temp : ℚ) : ℕ → List ℚ → List ℚ
  | j, l =>
    if h : 0 < gap ∧ gap ≤ j ∧ ag l (j - gap) > temp then
      shellInsertLoop gap temp (j - gap) (l.set j (ag l (j - gap)))
    else l.set j temp
termination_by j => j
decreasing_by omega

theorem shellInsertLoop_length (gap : ℕ) (temp : ℚ) (j : ℕ) (l : List ℚ) :
    (shellInsertLoop gap temp j l).length = l.length := by
  induction j, l using shellInsertLoop.induct gap temp with
  | case1 j l h ih =>
    rw [shellInsertLoop, dif_pos h]
    simpa using ih
  | case2 j l h =>
    rw [shellInsertLoop, dif_neg h]
    simp

theorem shellInsertLoop_count (gap : ℕ) (temp : ℚ) (j : ℕ) (l : List ℚ)
    (hj : j < l.length) (v : ℚ) :
    (shellInsertLoop gap temp j l).count v
      = l.count v + (if temp = v then 1 else 0) - (if ag l j = v then 1 else 0) := by
  induction j, l using shellInsertLoop.induct gap temp with
  | case1 j l h ih =>
    rw [shellInsertLoop, dif_pos h]
    have hg : j - gap < l.length := by omega
    have hne : j ≠ j - gap := by omega
    have hj' : j - gap < (l.set j (ag l (j - gap))).length := by simpa using hg
    rw [ih hj']
    rw [count_set l j hj _ v, ag_set_ne l j (j - gap) hne _]
    have hc1 : ag l j = v → 1 ≤ l.count v := fun hh =>
      List.count_pos_iff.mpr (hh ▸ ag_mem l j hj)
    have hc2 : ag l (j - gap) = v → 1 ≤ l.count v := fun hh =>
      List.count_pos_iff.mpr (hh ▸ ag_mem l (j - gap) hg)
    by_cases e1 : ag l j = v
    · by_cases e2 : ag l (j - gap) = v
      · have := hc1 e1
        rw [if_pos e1, if_pos e2]
        omega
      · have := hc1 e1
        rw [if_pos e1, if_neg e2]
        omega
    · by_cases e2 : ag l (j - gap) = v
      · have := hc2 e2
        rw [if_neg e1, if_pos e2]
        omega
      · rw [if_neg e1, if_neg e2]
        omega
  | case2 j l h =>
    rw [shellInsertLoop, dif_neg h]
    exact count_set l j hj temp v

/-- One iteration of a gapped insertion pass permutes the array: it
removes the element at position i and re-inserts the key read there. -/
theorem shellInsertLoop_perm (gap : ℕ) (i : ℕ) (l : List ℚ) (hi : i < l.length) :
    (shellInsertLoop gap (ag l i) i l).Perm l := by
  apply perm_of_count
  intro v
  rw [shellInsertLoop_count gap (ag l i) i l hi v]
  by_cases e : ag l i = v
  · have : 1 ≤ l.count v := List.count_pos_iff.mpr (e ▸ ag_mem l i hi)
    rw [if_pos e]
    omega
  · rw [if_neg e]
    omega

/-- Ascending insertion before the first strictly larger element; this
is where the gap-1 loop, run on a sorted prefix, places its key. -/
def insertBefore (x : ℚ) : List ℚ → List ℚ
  | [] => [x]
  | a :: t => if a > x then x :: a :: t else a :: insertBefore x t

theorem insertBefore_perm (x : ℚ) (s : List ℚ) : (insertBefore x s).Perm (x :: s) := by
  induction s with
  | nil => simp [insertBefore]
  | cons a t ih =>
    rw [insertBefore]
    by_cases h : a > x
    · rw [if_pos h]
    · rw [if_neg h]
      exact (ih.cons a).trans (List.Perm.swap x a t)

theorem insertBefore_length (x : ℚ) (s : List ℚ) :
    (insertBefore x s).length = s.length + 1 := by
  simpa using (insertBefore_perm x s).length_eq

theorem insertBefore_sorted (x : ℚ) (s : List ℚ) (hs : s.Pairwise (· ≤ ·)) :
    (insertBefore x s).Pairwise (· ≤ ·) := by
  induction s with
  | nil => simp [insertBefore]
  | cons a t ih =>
    rw [List.pairwise_cons] at hs
    rw [insertBefore]
    by_cases h : a > x
    · rw [if_pos h]
      refine List.pairwise_cons.mpr ⟨?_, List.pairwise_cons.mpr hs⟩
      intro y hy
      rcases List.mem_cons.mp hy with rfl | hy
      · exact le_of_lt h
      · exact le_trans (le_of_lt h) (hs.1 y hy)
    · rw [if_neg h]
      refine List.pairwise_cons.mpr ⟨?_, ih hs.2⟩
      intro y hy
      rcases List.mem_cons.mp ((insertBefore_perm x t).mem_iff.mp hy) with rfl | hy
      · exact not_lt.mp h
      · exact hs.1 y hy

theorem insertBefore_append_big (x a : ℚ) (s : List ℚ) (ha : a > x) :
    insertBefore x (s ++ [a]) = insertBefore x s ++ [a] := by
  induction s with
  | nil => simp [insertBefore, ha]
  | cons b t ih =>
    simp only [List.cons_append, insertBefore]
    by_cases h : b > x
    · rw [if_pos h, if_pos h]
      rfl
    · rw [if_neg h, if_neg h]
      simp only [List.append_eq]
      rw [ih]
      rfl

theorem insertBefore_all_le (x : ℚ) (s : List ℚ) (h : ∀ b ∈ s, ¬b > x) :
    insertBefore x s = s ++ [x] := by
  induction s with
  | nil => rfl
  | cons b t ih =>
    rw [insertBefore, if_neg (h b (List.mem_cons_self _ _)),
      ih (fun c hc => h c (List.mem_cons_of_mem _ hc))]
    rfl

theorem take_set_of_le {α : Type} (l : List α) (i k : ℕ) (x : α) (h : k ≤ i) :
    (l.set i x).take k = l.take k := by
  apply List.ext_getElem?
  intro m
  rw [List.getElem?_take, List.getElem?_take]
  by_cases hm : m < k
  · rw [if_pos hm, if_pos hm, List.getElem?_set_ne (by omega)]
  · rw [if_neg hm, if_neg hm]

theorem take_succ_ag {α : Type} [Inhabited α] (l : List α) (k : ℕ) (h : k < l.length) :
    l.take (k + 1) = l.take k ++ [ag l k] := by
  rw [List.take_succ]
  congr 1
  rw [ag_eq_getElem l k h, List.getElem?_eq_getElem h]
  rfl

theorem take_pred_sublist_take {α : Type} (l : List α) (j : ℕ) :
    (l.take (j - 1)).Sublist (l.take j) := by
  have h1 : (l.take j).take (j - 1) = l.take (j - 1) := by
    rw [List.take_take]
    congr 1
    omega
  rw [← h1]
  exact List.take_sublist _ _

/-- Effect of the gap-1 insertion loop on an array whose first j
positions are sorted: the key is inserted into the sorted prefix before
its first strictly larger element, and the tail beyond position j is
unchanged. -/
theorem shellInsertLoop_one (temp : ℚ) (j : ℕ) (l : List ℚ) (hj : j < l.length)
    (hs : (l.take j).Pairwise (· ≤ ·)) :
    shellInsertLoop 1 temp j l = insertBefore temp (l.take j) ++ l.drop (j + 1) := by
  induction j, l using shellInsertLoop.induct 1 temp with
  | case1 j l h ih =>
    obtain ⟨-, hj1, hgt⟩ := h
    rw [shellInsertLoop, dif_pos ⟨Nat.one_pos, hj1, hgt⟩]
    set l' := l.set j (ag l (j - 1)) with hl'
    have hlen' : j - 1 < l'.length := by simp [hl']; omega
    have htake' : l'.take (j - 1) = l.take (j - 1) :=
      take_set_of_le l j (j - 1) _ (by omega)
    have hs' : (l'.take (j - 1)).Pairwise (· ≤ ·) := by
      rw [htake']
      exact List.Pairwise.sublist (take_pred_sublist_take l j) hs
    rw [ih hlen' hs', htake']
    have hdrop' : l'.drop ((j - 1) + 1) = ag l (j - 1) :: l.drop (j + 1) := by
      rw [hl', set_eq_take_cons_drop l j hj, show (j - 1) + 1 = j by omega]
      rw [List.drop_append_eq_append_drop]
      simp [List.length_take, Nat.min_eq_left (le_of_lt hj)]
    rw [hdrop']
    have htakej : l.take j = l.take (j - 1) ++ [ag l (j - 1)] := by
      have h2 := take_succ_ag l (j - 1) (by omega)
      rw [show j - 1 + 1 = j by omega] at h2
      exact h2
    rw [htakej, insertBefore_append_big temp _ _ hgt]
    simp
  | case2 j l h =>
    rw [shellInsertLoop, dif_neg h]
    rw [set_eq_take_cons_drop l j hj]
    have hle : ∀ b ∈ l.take j, ¬b > temp := by
      intro b hb
      rcases Nat.eq_zero_or_pos j with hj0 | hjpos
      · rw [hj0] at hb
        simp at hb
      · have hnot : ¬ag l (j - 1) > temp := by
          intro hgt
          exact h ⟨Nat.one_pos, by omega, hgt⟩
        have htakej : l.take j = l.take (j - 1) ++ [ag l (j - 1)] := by
          have h2 := take_succ_ag l (j - 1) (by omega)
          rw [show j - 1 + 1 = j by omega] at h2
          exact h2
        rw [htakej] at hb hs
        rcases List.mem_append.mp hb with hb | hb
        · have hble : b ≤ ag l (j - 1) := by
            have := List.pairwise_append.mp hs
            exact this.2.2 b hb _ (List.mem_cons_self _ _)
          intro hbgt
          exact hnot (lt_of_lt_of_le hbgt hble)
        · rcases List.mem_cons.mp hb with rfl | hb
          · exact hnot
          · simp at hb
    rw [insertBefore_all_le temp _ hle]
    simp

/- ===== Insertion sort (insertion-sort.ts / part_001) ===== -/

/-- insertionSort of insertion-sort.ts: for i from 1 to n - 1, read
key = newAry[i] and run the shift loop over the sorted prefix (the
gap-1 instance of shellInsertLoop, started at position i). -/
def insertionSort (arr : List ℚ) : List ℚ :=
  let newAry := arr
  let n := newAry.length
  (List.range' 1 (n - 1)).foldl (fun a i => shellInsertLoop 1 (ag a i) i a) newAry

theorem pairwise_take_one {α : Type} (l : List α) (r : α → α → Prop) :
    (l.take 1).Pairwise r := by
  cases l with
  | nil => simp
  | cons a t => simp

/-- Invariant of the insertion-sort outer loop: the fold keeps the
length and the multiset, and extends the sorted prefix one position per
iteration. -/
theorem insertFold_spec (m : ℕ) : ∀ (s : ℕ) (a : List ℚ), 1 ≤ s → s + m ≤ a.length →
    (a.take s).Pairwise (· ≤ ·) →
    ((List.range' s m).foldl (fun a i => shellInsertLoop 1 (ag a i) i a) a).length
        = a.length ∧
    ((List.range' s m).foldl (fun a i => shellInsertLoop 1 (ag a i) i a) a).Perm a ∧
    (((List.range' s m).foldl (fun a i => shellInsertLoop 1 (ag a i) i a) a).take
        (s + m)).Pairwise (· ≤ ·) := by
  induction m with
  | zero =>
    intro s a hs1 hsm hsort
    refine ⟨by simp, by simp, ?_⟩
    simpa using hsort
  | succ m ih =>
    intro s a hs1 hsm hsort
    rw [List.range'_succ, List.foldl_cons]
    have hslen : s < a.length := by omega
    have hchar := shellInsertLoop_one (ag a s) s a hslen hsort
    have hlen' : (shellInsertLoop 1 (ag a s) s a).length = a.length :=
      shellInsertLoop_length 1 _ s a
    have hperm' : (shellInsertLoop 1 (ag a s) s a).Perm a :=
      shellInsertLoop_perm 1 s a hslen
    have htake' : (shellInsertLoop 1 (ag a s) s a).take (s + 1)
        = insertBefore (ag a s) (a.take s) := by
      have hlen1 : (insertBefore (ag a s) (a.take s)).length = s + 1 := by
        rw [insertBefore_length]
        simp only [List.length_take]
        omega
      rw [hchar, ← hlen1, List.take_left]
    have hsort' : ((shellInsertLoop 1 (ag a s) s a).take (s + 1)).Pairwise (· ≤ ·) := by
      rw [htake']
      exact insertBefore_sorted _ _ hsort
    obtain ⟨ih1, ih2, ih3⟩ := ih (s + 1) (shellInsertLoop 1 (ag a s) s a)
      (by omega) (by omega) hsort'
    refine ⟨by rw [ih1, hlen'], ih2.trans hperm', ?_⟩
    rw [show s + (m + 1) = (s + 1) + m by omega]
    exact ih3

theorem insertionSort_length (arr : List ℚ) : (insertionSort arr).length = arr.length := by
  show ((List.range' 1 (arr.length - 1)).foldl
      (fun a i => shellInsertLoop 1 (ag a i) i a) arr).length = arr.length
  rcases Nat.eq_zero_or_pos arr.length with h0 | hpos
  · rw [List.length_eq_zero.mp h0]
    simp
  · exact (insertFold_spec (arr.length - 1) 1 arr le_rfl (by omega)
      (pairwise_take_one arr _)).1

theorem insertionSort_perm (arr : List ℚ) : (insertionSort arr).Perm arr := by
  show ((List.range' 1 (arr.length - 1)).foldl
      (fun a i => shellInsertLoop 1 (ag a i) i a) arr).Perm arr
  rcases Nat.eq_zero_or_pos arr.length with h0 | hpos
  · rw [List.length_eq_zero.mp h0]
    simp
  · exact (insertFold_spec (arr.length - 1) 1 arr le_rfl (by omega)
      (pairwise_take_one arr _)).2.1

theorem insertionSort_sorted (arr : List ℚ) :
    (insertionSort arr).Pairwise (· ≤ ·) := by
  show (((List.range' 1 (arr.length - 1)).foldl
      (fun a i => shellInsertLoop 1 (ag a i) i a) arr)).Pairwise (· ≤ ·)
  rcases Nat.eq_zero_or_pos arr.length with h0 | hpos
  · rw [h0]
    simp only [Nat.zero_sub, List.range'_zero, List.foldl_nil]
    rw [List.length_eq_zero.mp h0]
    exact List.Pairwise.nil
  · obtain ⟨h1, -, h3⟩ := insertFold_spec (arr.length - 1) 1 arr le_rfl (by omega)
      (pairwise_take_one arr _)
    rw [List.take_of_length_le (by omega)] at h3
    exact h3

theorem insertionSort_eq_sortSpec (arr : List ℚ) : insertionSort arr = sortSpec arr :=
  eq_sortSpec_of arr _ (insertionSort_perm arr) (insertionSort_sorted arr)

/- ===== Shell sort (shell-sort.ts / part_001) ===== -/

/-- Gap-sequence generation of shell-sort.ts: gap starts at 1 and grows
by gap = 3 * gap + 1 while gap < n / 3 (JS real division: for an
integer gap, gap < n / 3 iff 3 * gap < n). -/
def shellGapInit (n : ℕ) : ℕ → ℕ
  | gap => if 3 * gap < n then shellGapInit n (3 * gap + 1) else gap
termination_by gap => n - gap
decreasing_by omega

/-- Knuth gaps 1, 4, 13, 40, ... produced by h = 3 * h + 1 from 1. -/
inductive KnuthGap : ℕ → Prop
  | one : KnuthGap 1
  | step (g : ℕ) : KnuthGap g → KnuthGap (3 * g + 1)

theorem shellGapInit_knuth (n gap : ℕ) (h : KnuthGap gap) :
    KnuthGap (shellGapInit n gap) := by
  revert h
  induction gap using shellGapInit.induct n with
  | case1 x g hlt ih =>
    intro h
    rw [shellGapInit, if_pos hlt]
    exact ih (KnuthGap.step x h)
  | case2 x g hlt =>
    intro h
    rw [shellGapInit, if_neg hlt]
    exact h

/-- One gapped insertion pass of shell-sort.ts for a fixed gap: i runs
from gap to n - 1 (n is the array length, which the pass preserves). -/
def shellPass (gap : ℕ) (a : List ℚ) : List ℚ :=
  (List.range' gap (a.length - gap)).foldl (fun a i => shellInsertLoop gap (ag a i) i a) a

/-- Gapped insertion folds keep the length and the multiset. -/
theorem foldInsert_perm (gap : ℕ) (m : ℕ) : ∀ (s : ℕ) (a : List ℚ), s + m ≤ a.length →
    ((List.range' s m).foldl (fun a i => shellInsertLoop gap (ag a i) i a) a).length
        = a.length ∧
    ((List.range' s m).foldl (fun a i => shellInsertLoop gap (ag a i) i a) a).Perm a := by
  induction m with
  | zero =>
    intro s a _
    simp
  | succ m ih =>
    intro s a hsm
    rw [List.range'_succ, List.foldl_cons]
    have hslen : s < a.length := by omega
    have hlen' : (shellInsertLoop gap (ag a s) s a).length = a.length :=
      shellInsertLoop_length gap _ s a
    have hperm' : (shellInsertLoop gap (ag a s) s a).Perm a :=
      shellInsertLoop_perm gap s a hslen
    obtain ⟨ih1, ih2⟩ := ih (s + 1) (shellInsertLoop gap (ag a s) s a) (by omega)
    exact ⟨by rw [ih1, hlen'], ih2.trans hperm'⟩

theorem shellPass_length (gap : ℕ) (a : List ℚ) (hgap : 1 ≤ gap) :
    (shellPass gap a).length = a.length := by
  unfold shellPass
  rcases le_or_lt a.length gap with hle | hlt
  · rw [show a.length - gap = 0 by omega]
    simp
  · exact (foldInsert_perm gap (a.length - gap) gap a (by omega)).1

theorem shellPass_perm (gap : ℕ) (a : List ℚ) (hgap : 1 ≤ gap) :
    (shellPass gap a).Perm a := by
  unfold shellPass
  rcases le_or_lt a.length gap with hle | hlt
  · rw [show a.length - gap = 0 by omega]
    simp
  · exact (foldInsert_perm gap (a.length - gap) gap a (by omega)).2

/-- The pass with gap 1 is exactly the insertion-sort outer loop, so it
sorts the array outright. -/
theorem shellPass_one_sorted (a : List ℚ) : (shellPass 1 a).Pairwise (· ≤ ·) := by
  have : shellPass 1 a = insertionSort a := rfl
  rw [this]
  exact insertionSort_sorted a

/-- Outer while loop of shell-sort.ts: run a pass, then divide the gap
by 3 (integer division), until the gap reaches 0. -/
def shellMain : ℕ → List ℚ → List ℚ
  | gap, a => if 0 < gap then shellMain (gap / 3) (shellPass gap a) else a
termination_by gap _ => gap
decreasing_by omega

/-- shellSort of shell-sort.ts: generate the Knuth gap sequence
starting from 1, then run gapped passes with decreasing gaps. -/
def shellSort (arr : List ℚ) : List ℚ :=
  let newArr := arr
  let n := newArr.length
  shellMain (shellGapInit n 1) newArr

theorem shellMain_perm (gap : ℕ) (a : List ℚ) : (shellMain gap a).Perm a := by
  induction gap, a using shellMain.induct with
  | case1 gap a hpos ih =>
    rw [shellMain, if_pos hpos]
    exact ih.trans (shellPass_perm gap a hpos)
  | case2 gap a hpos =>
    rw [shellMain, if_neg hpos]

theorem shellMain_sorted (gap : ℕ) (hk : KnuthGap gap) (a : List ℚ) :
    (shellMain gap a).Pairwise (· ≤ ·) := by
  induction hk generalizing a with
  | one =>
    rw [shellMain, if_pos Nat.one_pos]
    rw [shellMain, if_neg (by norm_num)]
    exact shellPass_one_sorted a
  | step g hg ih =>
    rw [shellMain, if_pos (by omega)]
    rw [show (3 * g + 1) / 3 = g by omega]
    exact ih _

theorem shellSort_eq_sortSpec (arr : List ℚ) : shellSort arr = sortSpec arr := by
  unfold shellSort
  exact eq_sortSpec_of arr _ (shellMain_perm _ arr)
    (shellMain_sorted _ (shellGapInit_knuth arr.length 1 KnuthGap.one) arr)

/- ===== Bucket/partition toolkit (counting, bucket and radix sorts) ===== -/

theorem count_flatMap {α β : Type} [DecidableEq β] (g : α → List β) (L : List α) (v : β) :
    (L.flatMap g).count v = (L.map (fun k => (g k).count v)).sum := by
  induction L with
  | nil => simp
  | cons k L ih => simp [List.flatMap_cons, List.count_append, ih]

theorem sum_spike (g : ℕ → ℕ) (w n : ℕ) :
    ((List.range n).map (fun k => if k = w then g k else 0)).sum
      = if w < n then g w else 0 := by
  induction n with
  | zero => simp
  | succ n ih =>
    rw [List.range_succ, List.map_append, List.sum_append, ih]
    by_cases h : n = w
    · subst h
      rw [if_neg (lt_irrefl n), if_pos (Nat.lt_succ_self n)]
      simp
    · by_cases hw : w < n
      · rw [if_pos hw, if_pos (Nat.lt_succ_of_lt hw)]
        simp [h]
      · rw [if_neg hw, if_neg (by omega)]
        simp [h]

/-- Partitioning a list into its fiber blocks over 0..n-1 preserves the
multiset. -/
theorem perm_flatMap_filter {α : Type} [DecidableEq α] (f : α → ℕ) (n : ℕ) (l : List α)
    (h : ∀ x ∈ l, f x < n) :
    ((List.range n).flatMap (fun k => l.filter (fun x => decide (f x = k)))).Perm l := by
  apply perm_of_count
  intro v
  rw [count_flatMap]
  have hcount : ∀ k, (l.filter (fun x => decide (f x = k))).count v
      = if k = f v then l.count v else 0 := by
    intro k
    by_cases hv : f v = k
    · rw [if_pos hv.symm]
      exact List.count_filter (by simp [hv])
    · rw [if_neg (fun hh => hv hh.symm)]
      apply List.count_eq_zero_of_not_mem
      intro hmem
      have := (List.mem_filter.mp hmem).2
      simp at this
      exact hv this
  calc ((List.range n).map fun k => (l.filter (fun x => decide (f x = k))).count v).sum
      = ((List.range n).map (fun k => if k = f v then l.count v else 0)).sum := by
        apply congrArg
        exact List.map_congr_left (fun k _ => hcount k)
    _ = if f v < n then l.count v else 0 :=
        sum_spike (fun _ => l.count v) (f v) n
    _ = l.count v := by
        by_cases hv : v ∈ l
        · rw [if_pos (h v hv)]
        · rw [List.count_eq_zero_of_not_mem hv]
          simp

/-- A concatenation of internally sorted blocks with sorted cross-block
order is sorted. -/
theorem flatMap_blocks_sorted (n : ℕ) (B : ℕ → List ℚ)
    (hin : ∀ k, (B k).Pairwise (· ≤ ·))
    (hcross : ∀ j k, j < k → ∀ x ∈ B j, ∀ y ∈ B k, x ≤ y) :
    ((List.range n).flatMap B).Pairwise (· ≤ ·) := by
  rw [List.flatMap_def]
  apply List.pairwise_flatten.mpr
  refine ⟨?_, ?_⟩
  · intro l hl
    obtain ⟨k, _, rfl⟩ := List.mem_map.mp hl
    exact hin k
  · rw [List.pairwise_map]
    have hrange : (List.range n).Pairwise (· < ·) := List.pairwise_lt_range n
    exact hrange.imp (fun hjk => hcross _ _ hjk)

/-- Natural-number version of the block-sortedness lemma. -/
theorem flatMap_blocks_sortedN (n : ℕ) (B : ℕ → List ℕ)
    (hin : ∀ k, (B k).Pairwise (· ≤ ·))
    (hcross : ∀ j k, j < k → ∀ x ∈ B j, ∀ y ∈ B k, x ≤ y) :
    ((List.range n).flatMap B).Pairwise (· ≤ ·) := by
  rw [List.flatMap_def]
  apply List.pairwise_flatten.mpr
  refine ⟨?_, ?_⟩
  · intro l hl
    obtain ⟨k, _, rfl⟩ := List.mem_map.mp hl
    exact hin k
  · rw [List.pairwise_map]
    have hrange : (List.range n).Pairwise (· < ·) := List.pairwise_lt_range n
    exact hrange.imp (fun hjk => hcross _ _ hjk)

/- ===================== countingSort (draft algorithms file) ===================== -/

/-- The maximum scan of countingSort: fold `if num > mx then num else mx`
over the array, starting from 0. -/
def foldMax (l : List ℕ) (m0 : ℕ) : ℕ :=
  l.foldl (fun mx num => if num > mx then num else mx) m0

theorem foldMax_spec (l : List ℕ) : ∀ (m0 : ℕ),
    m0 ≤ foldMax l m0 ∧ ∀ x ∈ l, x ≤ foldMax l m0 := by
  induction l with
  | nil => intro m0; simp [foldMax]
  | cons a t ih =>
    intro m0
    have hstep : foldMax (a :: t) m0 = foldMax t (if a > m0 then a else m0) := rfl
    obtain ⟨h1, h2⟩ := ih (if a > m0 then a else m0)
    rw [hstep]
    refine ⟨le_trans (by split <;> omega) h1, ?_⟩
    intro x hx
    rcases List.mem_cons.mp hx with rfl | hx
    · exact le_trans (by split <;> omega) h1
    · exact h2 x hx

/-- The frequency-count fold of countingSort: `counts[num]++` for each
element of the array. -/
def foldCounts (l : List ℕ) (cs : List ℕ) : List ℕ :=
  l.foldl (fun cs num => cs.set num (ag cs num + 1)) cs

theorem foldCounts_spec (l : List ℕ) : ∀ (cs : List ℕ), (∀ x ∈ l, x < cs.length) →
    (foldCounts l cs).length = cs.length ∧
    ∀ v, ag (foldCounts l cs) v = ag cs v + l.count v := by
  induction l with
  | nil => intro cs _; simp [foldCounts]
  | cons a t ih =>
    intro cs h
    have hstep : foldCounts (a :: t) cs = foldCounts t (cs.set a (ag cs a + 1)) := rfl
    have ha : a < cs.length := h a (List.mem_cons_self a t)
    obtain ⟨ih1, ih2⟩ := ih (cs.set a (ag cs a + 1))
      (by intro x hx; simpa using h x (List.mem_cons_of_mem _ hx))
    rw [hstep]
    refine ⟨by simpa using ih1, ?_⟩
    intro v
    rw [ih2 v, List.count_cons]
    by_cases hv : a = v
    · subst hv
      rw [ag_set_self cs a ha]
      simp
      omega
    · rw [ag_set_ne cs a v hv]
      simp [hv]

/-- `ag` on a replicate list reads the replicated value in range and the
default out of range. -/
theorem ag_replicate (n : ℕ) (c : ℕ) (v : ℕ) :
    ag (List.replicate n c) v = if v < n then c else 0 := by
  simp [ag, List.getD_eq_getElem?_getD, List.getElem?_replicate]
  split <;> rfl

/-- countingSort of the draft algorithms file: trivial arrays are
returned unchanged (the source returns a copy); otherwise scan the
maximum, build the frequency array `counts` of size `max + 1` by
incrementing `counts[num]` per element, then rebuild the output by
emitting each value `i` from 0 to `max` exactly `counts[i]` times (the
source's inner while loop pushes `i` and decrements `counts[i]` until it
reaches zero). -/
def countingSort (arr : List ℕ) : List ℕ :=
  if arr.length ≤ 1 then arr
  else
    let max := foldMax arr 0
    let counts := foldCounts arr (List.replicate (max + 1) 0)
    (List.range (max + 1)).flatMap (fun i => List.replicate (ag counts i) i)

theorem countingSort_eq_sortSpecN (arr : List ℕ) : countingSort arr = sortSpecN arr := by
  unfold countingSort
  by_cases hlen : arr.length ≤ 1
  · rw [if_pos hlen]
    apply eq_sortSpecN_of _ _ (List.Perm.refl _)
    match arr, hlen with
    | [], _ => exact List.Pairwise.nil
    | [x], _ => exact List.pairwise_singleton _ x
  · rw [if_neg hlen]
    have hmax := foldMax_spec arr 0
    have hbound : ∀ x ∈ arr, x < (List.replicate (foldMax arr 0 + 1) (0 : ℕ)).length := by
      intro x hx
      rw [List.length_replicate]
      exact Nat.lt_succ_of_le (hmax.2 x hx)
    obtain ⟨hclen, hcval⟩ := foldCounts_spec arr _ hbound
    have hcount : ∀ v, ag (foldCounts arr (List.replicate (foldMax arr 0 + 1) 0)) v
        = if v < foldMax arr 0 + 1 then arr.count v else 0 := by
      intro v
      rw [hcval v, ag_replicate]
      by_cases hv : v < foldMax arr 0 + 1
      · rw [if_pos hv, if_pos hv, Nat.zero_add]
      · rw [if_neg hv, if_neg hv, Nat.zero_add]
        apply List.count_eq_zero_of_not_mem
        intro hmem
        exact hv (Nat.lt_succ_of_le (hmax.2 v hmem))
    apply eq_sortSpecN_of
    · -- permutation: count every value
      apply perm_of_count
      intro v
      rw [count_flatMap]
      have hone : ∀ k, ((List.replicate
            (ag (foldCounts arr (List.replicate (foldMax arr 0 + 1) 0)) k) k).count v)
          = if k = v then ag (foldCounts arr (List.replicate (foldMax arr 0 + 1) 0)) v else 0 := by
        intro k
        rw [List.count_replicate]
        by_cases hk : k = v
        · subst hk; simp
        · simp [hk]
      calc ((List.range (foldMax arr 0 + 1)).map fun k =>
              ((List.replicate (ag (foldCounts arr (List.replicate (foldMax arr 0 + 1) 0)) k) k).count v)).sum
          = ((List.range (foldMax arr 0 + 1)).map (fun k =>
              if k = v then ag (foldCounts arr (List.replicate (foldMax arr 0 + 1) 0)) v else 0)).sum := by
            apply congrArg
            exact List.map_congr_left (fun k _ => hone k)
        _ = if v < foldMax arr 0 + 1
              then ag (foldCounts arr (List.replicate (foldMax arr 0 + 1) 0)) v else 0 :=
            sum_spike _ v (foldMax arr 0 + 1)
        _ = arr.count v := by
            by_cases hv : v < foldMax arr 0 + 1
            · rw [if_pos hv, hcount v, if_pos hv]
            · rw [if_neg hv]
              symm
              apply List.count_eq_zero_of_not_mem
              intro hmem
              exact hv (Nat.lt_succ_of_le (hmax.2 v hmem))
    · -- sortedness: replicate blocks in increasing block order
      apply flatMap_blocks_sortedN
      · intro k
        exact List.pairwise_replicate.mpr (Or.inr le_rfl)
      · intro j k hjk x hx y hy
        rw [List.eq_of_mem_replicate hx, List.eq_of_mem_replicate hy]
        exact le_of_lt hjk

/- ===================== bucketSort (bucket-sort file) ===================== -/

/-- Bucket index of bucketSort: `Math.floor((x - min) / bucketSize)`
(non-negative for `min ≤ x` and positive bucketSize, so read as ℕ). -/
def bIdx (mn bucketSize x : ℚ) : ℕ := (⌊(x - mn) / bucketSize⌋).toNat

theorem bIdx_mono (mn b x y : ℚ) (hb : 0 < b) (hxy : x ≤ y) :
    bIdx mn b x ≤ bIdx mn b y := by
  apply Int.toNat_le_toNat
  apply Int.floor_le_floor
  apply div_le_div_of_nonneg_right _ (le_of_lt hb)
  linarith

/-- The min/max scan of bucketSort over indices `1 ≤ i < arr.length`:
note the else-if, so the max branch only runs when the min branch did
not (sound because min ≤ max is maintained throughout). -/
def minmaxFold (arr : List ℚ) (s m : ℕ) (p : ℚ × ℚ) : ℚ × ℚ :=
  (List.range' s m).foldl
    (fun mm i =>
      if ag arr i < mm.1 then (ag arr i, mm.2)
      else if ag arr i > mm.2 then (mm.1, ag arr i)
      else mm) p

theorem minmaxFold_spec (arr : List ℚ) : ∀ (m s : ℕ) (p : ℚ × ℚ), p.1 ≤ p.2 →
    (minmaxFold arr s m p).1 ≤ (minmaxFold arr s m p).2 ∧
    (minmaxFold arr s m p).1 ≤ p.1 ∧ p.2 ≤ (minmaxFold arr s m p).2 ∧
    ∀ i, s ≤ i → i < s + m →
      (minmaxFold arr s m p).1 ≤ ag arr i ∧ ag arr i ≤ (minmaxFold arr s m p).2 := by
  intro m
  induction m with
  | zero =>
    intro s p hp
    refine ⟨hp, le_rfl, le_rfl, ?_⟩
    intro i h1 h2
    omega
  | succ m ih =>
    intro s p hp
    have hstep : minmaxFold arr s (m + 1) p = minmaxFold arr (s + 1) m
        (if ag arr s < p.1 then (ag arr s, p.2)
         else if ag arr s > p.2 then (p.1, ag arr s)
         else p) := by
      unfold minmaxFold
      rw [List.range'_succ, List.foldl_cons]
    set p' := (if ag arr s < p.1 then (ag arr s, p.2)
         else if ag arr s > p.2 then (p.1, ag arr s)
         else p) with hp'
    have hp'le : p'.1 ≤ p.1 ∧ p.2 ≤ p'.2 ∧ p'.1 ≤ ag arr s ∧ ag arr s ≤ p'.2 := by
      rw [hp']
      by_cases h1 : ag arr s < p.1
      · rw [if_pos h1]
        exact ⟨le_of_lt h1, le_rfl, le_rfl, by simpa using le_trans (le_of_lt h1) hp⟩
      · rw [if_neg h1]
        by_cases h2 : ag arr s > p.2
        · rw [if_pos h2]
          exact ⟨le_rfl, le_of_lt h2, by simp; linarith, le_rfl⟩
        · rw [if_neg h2]
          exact ⟨le_rfl, le_rfl, by linarith, by linarith⟩
    have hp'ord : p'.1 ≤ p'.2 := le_trans hp'le.1 (le_trans hp hp'le.2.1)
    obtain ⟨g1, g2, g3, g4⟩ := ih (s + 1) p' hp'ord
    rw [hstep]
    refine ⟨g1, le_trans g2 hp'le.1, le_trans hp'le.2.1 g3, ?_⟩
    intro i hi1 hi2
    rcases Nat.eq_or_lt_of_le hi1 with rfl | hgt
    · exact ⟨le_trans g2 hp'le.2.2.1, le_trans hp'le.2.2.2 g3⟩
    · exact g4 i hgt (by omega)

/-- The distribution loop of bucketSort: push each element onto bucket
`floor((x - min) / bucketSize)`. -/
def bucketFold (mn bucketSize : ℚ) (l : List ℚ) (bs : List (List ℚ)) : List (List ℚ) :=
  l.foldl (fun bs x =>
    bs.set (bIdx mn bucketSize x) (ag bs (bIdx mn bucketSize x) ++ [x])) bs

/-- `ag` on a replicate list, for any element type. -/
theorem ag_replicate_gen {α : Type} [Inhabited α] (n : ℕ) (c : α) (v : ℕ) :
    ag (List.replicate n c) v = if v < n then c else default := by
  simp [ag, List.getD_eq_getElem?_getD, List.getElem?_replicate]
  split <;> rfl

theorem bucketFold_spec (mn b : ℚ) (l : List ℚ) : ∀ (bs : List (List ℚ)),
    (∀ x ∈ l, bIdx mn b x < bs.length) →
    (bucketFold mn b l bs).length = bs.length ∧
    ∀ k, ag (bucketFold mn b l bs) k
      = ag bs k ++ l.filter (fun x => decide (bIdx mn b x = k)) := by
  induction l with
  | nil => intro bs _; simp [bucketFold]
  | cons a t ih =>
    intro bs h
    have hstep : bucketFold mn b (a :: t) bs
        = bucketFold mn b t (bs.set (bIdx mn b a) (ag bs (bIdx mn b a) ++ [a])) := rfl
    have ha : bIdx mn b a < bs.length := h a (List.mem_cons_self a t)
    obtain ⟨ih1, ih2⟩ := ih (bs.set (bIdx mn b a) (ag bs (bIdx mn b a) ++ [a]))
      (by intro x hx; simpa using h x (List.mem_cons_of_mem _ hx))
    rw [hstep]
    refine ⟨by simpa using ih1, ?_⟩
    intro k
    rw [ih2 k, List.filter_cons]
    by_cases hk : bIdx mn b a = k
    · subst hk
      rw [ag_set_self bs _ ha]
      simp [List.append_assoc]
    · rw [ag_set_ne bs _ k hk]
      simp [hk]

/-- bucketSort of the bucket-sort file: trivial arrays are returned
unchanged (the source returns a copy); otherwise scan min and max with
the else-if loop from index 1, create `floor((max - min) / bucketSize) + 1`
empty buckets, distribute each element to bucket
`floor((x - min) / bucketSize)`, sort each bucket with insertionSort and
concatenate.  The registry calls it with the default `bucketSize = 5`. -/
def bucketSort (arr : List ℚ) (bucketSize : ℚ) : List ℚ :=
  if arr.length ≤ 1 then arr
  else
    let mm := minmaxFold arr 1 (arr.length - 1) (ag arr 0, ag arr 0)
    let bucketCount := (⌊(mm.2 - mm.1) / bucketSize⌋).toNat + 1
    let buckets := bucketFold mm.1 bucketSize arr (List.replicate bucketCount ([] : List ℚ))
    (buckets.map insertionSort).flatten

theorem bucketSort_eq_sortSpec (arr : List ℚ) (b : ℚ) (hb : 0 < b) :
    bucketSort arr b = sortSpec arr := by
  unfold bucketSort
  by_cases hlen : arr.length ≤ 1
  · rw [if_pos hlen]
    apply eq_sortSpec_of _ _ (List.Perm.refl _)
    match arr, hlen with
    | [], _ => exact List.Pairwise.nil
    | [x], _ => exact List.pairwise_singleton _ x
  · rw [if_neg hlen]
    set mm := minmaxFold arr 1 (arr.length - 1) (ag arr 0, ag arr 0) with hmmdef
    set bucketCount := (⌊(mm.2 - mm.1) / b⌋).toNat + 1 with hbc
    obtain ⟨g1, g2, g3, g4⟩ := minmaxFold_spec arr (arr.length - 1) 1 (ag arr 0, ag arr 0) le_rfl
    have hbounds : ∀ x ∈ arr, mm.1 ≤ x ∧ x ≤ mm.2 := by
      intro x hx
      obtain ⟨i, hi, rfl⟩ := List.mem_iff_getElem.mp hx
      rw [← ag_eq_getElem arr i hi]
      match i with
      | 0 => exact ⟨g2, g3⟩
      | Nat.succ j =>
        exact g4 (j + 1) (by omega) (by omega)
    have hbcount : ∀ x ∈ arr, bIdx mm.1 b x < bucketCount := by
      intro x hx
      have : bIdx mm.1 b x ≤ bIdx mm.1 b mm.2 := bIdx_mono mm.1 b x mm.2 hb (hbounds x hx).2
      rw [hbc]
      unfold bIdx at this ⊢
      omega
    obtain ⟨hblen, hbval⟩ := bucketFold_spec mm.1 b arr
      (List.replicate bucketCount ([] : List ℚ))
      (by intro x hx; rw [List.length_replicate]; exact hbcount x hx)
    have hbval' : ∀ k, ag (bucketFold mm.1 b arr (List.replicate bucketCount ([] : List ℚ))) k
        = arr.filter (fun x => decide (bIdx mm.1 b x = k)) := by
      intro k
      rw [hbval k, ag_replicate_gen]
      split <;> rfl
    have hbuckets : bucketFold mm.1 b arr (List.replicate bucketCount ([] : List ℚ))
        = (List.range bucketCount).map
            (fun k => arr.filter (fun x => decide (bIdx mm.1 b x = k))) := by
      apply List.ext_getElem
      · rw [hblen, List.length_replicate, List.length_map, List.length_range]
      · intro k h1 h2
        rw [List.getElem_map, List.getElem_range]
        rw [← ag_eq_getElem _ k h1]
        exact hbval' k
    show ((bucketFold mm.1 b arr (List.replicate bucketCount ([] : List ℚ))).map
        insertionSort).flatten = sortSpec arr
    rw [hbuckets, List.map_map]
    have hflat : (((List.range bucketCount).map
          (fun k => arr.filter (fun x => decide (bIdx mm.1 b x = k)))).map insertionSort).flatten
        = (List.range bucketCount).flatMap
            (fun k => insertionSort (arr.filter (fun x => decide (bIdx mm.1 b x = k)))) := by
      rw [List.flatMap_def, List.map_map]
      rfl
    rw [List.map_map] at hflat
    rw [hflat]
    have hperm0 := perm_flatMap_filter (bIdx mm.1 b) bucketCount arr hbcount
    apply eq_sortSpec_of
    · -- permutation via value counts
      apply perm_of_count
      intro v
      rw [count_flatMap]
      calc ((List.range bucketCount).map fun k =>
              (insertionSort (arr.filter (fun x => decide (bIdx mm.1 b x = k)))).count v).sum
          = ((List.range bucketCount).map fun k =>
              (arr.filter (fun x => decide (bIdx mm.1 b x = k))).count v).sum := by
            apply congrArg
            apply List.map_congr_left
            intro k _
            exact (insertionSort_perm _).count_eq v
        _ = ((List.range bucketCount).flatMap
              (fun k => arr.filter (fun x => decide (bIdx mm.1 b x = k)))).count v :=
            (count_flatMap _ _ _).symm
        _ = arr.count v := hperm0.count_eq v
    · -- sortedness: sorted buckets in increasing index order
      apply flatMap_blocks_sorted
      · intro k
        exact insertionSort_sorted _
      · intro j k hjk x hx y hy
        have hxj : bIdx mm.1 b x = j := by
          have := (List.mem_filter.mp ((insertionSort_perm _).mem_iff.mp hx)).2
          simpa using this
        have hyk : bIdx mm.1 b y = k := by
          have := (List.mem_filter.mp ((insertionSort_perm _).mem_iff.mp hy)).2
          simpa using this
        by_contra hxy
        push_neg at hxy
        have := bIdx_mono mm.1 b y x hb (le_of_lt hxy)
        omega

/- ===================== selectionSort (draft algorithms file) ===================== -/

/-- The inner minimum scan of selectionSort's outer iteration: fold
`if newAry[i] < min then (newAry[i], i)` over indices `s ≤ i < s + m`,
starting from the pair (min, minIndex). -/
def selMin (a : List ℚ) (s m : ℕ) (p : ℚ × ℕ) : ℚ × ℕ :=
  (List.range' s m).foldl (fun mm i => if ag a i < mm.1 then (ag a i, i) else mm) p

theorem selMin_spec (a : List ℚ) : ∀ (m s : ℕ) (p : ℚ × ℕ), p.1 = ag a p.2 →
    (selMin a s m p).1 = ag a (selMin a s m p).2 ∧
    ((selMin a s m p).2 = p.2 ∨ (s ≤ (selMin a s m p).2 ∧ (selMin a s m p).2 < s + m)) ∧
    (selMin a s m p).1 ≤ p.1 ∧
    ∀ i, s ≤ i → i < s + m → (selMin a s m p).1 ≤ ag a i := by
  intro m
  induction m with
  | zero =>
    intro s p hp
    refine ⟨hp, Or.inl rfl, le_rfl, ?_⟩
    intro i h1 h2
    omega
  | succ m ih =>
    intro s p hp
    have hstep : selMin a s (m + 1) p
        = selMin a (s + 1) m (if ag a s < p.1 then (ag a s, s) else p) := by
      unfold selMin
      rw [List.range'_succ, List.foldl_cons]
    set p' := (if ag a s < p.1 then (ag a s, s) else p) with hp'
    have hp'1 : p'.1 = ag a p'.2 := by
      rw [hp']
      by_cases h1 : ag a s < p.1
      · rw [if_pos h1]
      · rw [if_neg h1]; exact hp
    have hp'le : p'.1 ≤ p.1 ∧ p'.1 ≤ ag a s := by
      rw [hp']
      by_cases h1 : ag a s < p.1
      · rw [if_pos h1]; exact ⟨le_of_lt h1, le_rfl⟩
      · rw [if_neg h1]; exact ⟨le_rfl, le_of_not_lt h1⟩
    obtain ⟨g1, g2, g3, g4⟩ := ih (s + 1) p' hp'1
    rw [hstep]
    refine ⟨g1, ?_, le_trans g3 hp'le.1, ?_⟩
    · rcases g2 with hg | hg
      · rw [hg, hp']
        by_cases h1 : ag a s < p.1
        · rw [if_pos h1]
          exact Or.inr ⟨le_rfl, by omega⟩
        · rw [if_neg h1]
          exact Or.inl rfl
      · exact Or.inr ⟨by omega, by omega⟩
    · intro i hi1 hi2
      rcases Nat.eq_or_lt_of_le hi1 with rfl | hgt
      · exact le_trans g3 hp'le.2
      · exact g4 i hgt (by omega)

/-- One outer iteration of selectionSort at position j: scan for the
minimum of positions j..n-1 starting from (newAry[j], j); if a smaller
element was found (minIndex ≠ j), write the old newAry[j] into
minIndex and the minimum into j. -/
def selStep (n : ℕ) (a : List ℚ) (j : ℕ) : List ℚ :=
  let mm := selMin a (j + 1) (n - (j + 1)) (ag a j, j)
  if mm.2 ≠ j then (a.set mm.2 (ag a j)).set j mm.1 else a

theorem selStep_spec (n : ℕ) (a : List ℚ) (j : ℕ) (hn : a.length = n) (hj : j < n) :
    (selStep n a j).length = n ∧
    (selStep n a j).Perm a ∧
    (∀ u, u < j → ag (selStep n a j) u = ag a u) ∧
    (∀ i, j ≤ i → i < n → ag (selStep n a j) j ≤ ag (selStep n a j) i) ∧
    (∀ b : ℚ, (∀ i, j ≤ i → i < n → b ≤ ag a i) →
      ∀ i, j ≤ i → i < n → b ≤ ag (selStep n a j) i) := by
  set mm := selMin a (j + 1) (n - (j + 1)) (ag a j, j) with hmmdef
  obtain ⟨g1, g2, g3, g4⟩ := selMin_spec a (n - (j + 1)) (j + 1) (ag a j, j) rfl
  rw [← hmmdef] at g1 g2 g3 g4
  have hmmrange : j ≤ mm.2 ∧ mm.2 < n := by
    rcases g2 with hg | hg
    · rw [hg]; exact ⟨le_rfl, hj⟩
    · omega
  have hmin : ∀ i, j ≤ i → i < n → mm.1 ≤ ag a i := by
    intro i hi1 hi2
    rcases Nat.eq_or_lt_of_le hi1 with rfl | hgt
    · exact g3
    · exact g4 i hgt (by omega)
  by_cases hne : mm.2 ≠ j
  · have ha' : selStep n a j = swap a mm.2 j := by
      show (if mm.2 ≠ j then (a.set mm.2 (ag a j)).set j mm.1 else a) = swap a mm.2 j
      rw [if_pos hne, swap, ← g1]
    have hi2 : mm.2 < a.length := by omega
    have hjl : j < a.length := by omega
    rw [ha']
    refine ⟨by rw [length_swap]; exact hn, swap_perm a mm.2 j hi2 hjl, ?_, ?_, ?_⟩
    · intro u hu
      exact ag_swap_other a mm.2 j u (by omega) (by omega)
    · intro i hi1 hi2'
      have hgoalj : ag (swap a mm.2 j) j = mm.1 := by
        rw [ag_swap_snd a mm.2 j hjl]
        exact g1.symm
      rw [hgoalj]
      by_cases hij : i = j
      · rw [hij, hgoalj]
      · by_cases him : i = mm.2
        · rw [him, ag_swap_fst a mm.2 j hi2 hne]
          exact hmin j le_rfl hj
        · rw [ag_swap_other a mm.2 j i him hij]
          exact hmin i hi1 hi2'
    · intro b hb i hi1 hi2'
      by_cases hij : i = j
      · rw [hij, ag_swap_snd a mm.2 j hjl]
        exact hb mm.2 hmmrange.1 hmmrange.2
      · by_cases him : i = mm.2
        · rw [him, ag_swap_fst a mm.2 j hi2 hne]
          exact hb j le_rfl hj
        · rw [ag_swap_other a mm.2 j i him hij]
          exact hb i hi1 hi2'
  · have heq : mm.2 = j := by omega
    have ha' : selStep n a j = a := by
      show (if mm.2 ≠ j then (a.set mm.2 (ag a j)).set j mm.1 else a) = a
      rw [if_neg hne]
    rw [ha']
    refine ⟨hn, List.Perm.refl a, fun u _ => rfl, ?_, fun b hb i h1 h2 => hb i h1 h2⟩
    intro i hi1 hi2'
    have : mm.1 = ag a j := by rw [g1, heq]
    rw [← this]
    exact hmin i hi1 hi2'

/-- selectionSort of the draft algorithms file: copy the array, then
for each j from 0 to n-2 scan the minimum of positions j..n-1 and move
it to position j. -/
def selectionSort (arr : List ℚ) : List ℚ :=
  (List.range (arr.length - 1)).foldl (selStep arr.length) arr

theorem selFold_spec (arr : List ℚ) : ∀ t, t + 1 ≤ arr.length →
    ((List.range t).foldl (selStep arr.length) arr).length = arr.length ∧
    ((List.range t).foldl (selStep arr.length) arr).Perm arr ∧
    ∀ u v, u < t → u ≤ v → v < arr.length →
      ag ((List.range t).foldl (selStep arr.length) arr) u
        ≤ ag ((List.range t).foldl (selStep arr.length) arr) v := by
  intro t
  induction t with
  | zero =>
    intro _
    refine ⟨by simp, by simp, ?_⟩
    intro u v hu _ _
    omega
  | succ t ih =>
    intro ht
    obtain ⟨ih1, ih2, ih3⟩ := ih (by omega)
    rw [List.range_succ, List.foldl_append, List.foldl_cons, List.foldl_nil]
    obtain ⟨s1, s2, s3, s4, s5⟩ := selStep_spec arr.length
      ((List.range t).foldl (selStep arr.length) arr) t ih1 (by omega)
    refine ⟨s1, s2.trans ih2, ?_⟩
    intro u v hu huv hv
    rcases Nat.lt_succ_iff_lt_or_eq.mp hu with hut | rfl
    · rw [s3 u hut]
      by_cases hvt : v < t
      · rw [s3 v hvt]
        exact ih3 u v hut huv hv
      · exact s5 (ag ((List.range t).foldl (selStep arr.length) arr) u)
          (fun i hi1 hi2 => ih3 u i hut (by omega) hi2) v (by omega) hv
    · exact s4 v huv hv

theorem selectionSort_eq_sortSpec (arr : List ℚ) : selectionSort arr = sortSpec arr := by
  by_cases h0 : arr.length = 0
  · rw [List.length_eq_zero.mp h0]
    rfl
  · obtain ⟨h1, h2, h3⟩ := selFold_spec arr (arr.length - 1) (by omega)
    show (List.range (arr.length - 1)).foldl (selStep arr.length) arr = sortSpec arr
    apply eq_sortSpec_of _ _ h2
    apply List.pairwise_iff_getElem.mpr
    intro i j hi hj hij
    rw [← ag_eq_getElem _ i hi, ← ag_eq_getElem _ j hj]
    rw [h1] at hj
    exact h3 i j (by omega) (le_of_lt hij) hj

/- ===================== bubbleSort and bubbleSortSmart ===================== -/

/-- The shared inner comparison of both bubble sorts: swap the adjacent
pair (j, j+1) when the left element is larger. -/
def cmpSwap (cur : List ℚ) (j : ℕ) : List ℚ :=
  if ag cur j > ag cur (j + 1) then swap cur j (j + 1) else cur

/-- One inner pass of bubbleSort: compare-and-swap positions j and j+1
for j = 0 .. e-1. -/
def bubblePass (e : ℕ) (a : List ℚ) : List ℚ := (List.range e).foldl cmpSwap a

/-- One pass of bubbleSortSmart, additionally tracking the changed flag
and the index of the last swap (both reset at the start of the pass). -/
def smartPass (e : ℕ) (a : List ℚ) : List ℚ × Bool × ℕ :=
  (List.range e).foldl
    (fun st j => if ag st.1 j > ag st.1 (j + 1) then (swap st.1 j (j + 1), true, j) else st)
    (a, false, 0)

theorem foldSmart_fst (l : List ℕ) : ∀ (p : List ℚ × Bool × ℕ),
    (l.foldl (fun st j =>
        if ag st.1 j > ag st.1 (j + 1) then (swap st.1 j (j + 1), true, j) else st) p).1
      = l.foldl cmpSwap p.1 := by
  induction l with
  | nil => intro p; rfl
  | cons n t ih =>
    intro p
    rw [List.foldl_cons, List.foldl_cons, ih]
    congr 1
    unfold cmpSwap
    by_cases hc : ag p.1 n > ag p.1 (n + 1)
    · rw [if_pos hc, if_pos hc]
    · rw [if_neg hc, if_neg hc]

/-- The array component of a smart pass is exactly a plain bubble pass. -/
theorem smartPass_fst (e : ℕ) (a : List ℚ) : (smartPass e a).1 = bubblePass e a :=
  foldSmart_fst (List.range e) (a, false, 0)

/-- The last-swap index of a smart pass stays below the pass bound
whenever a swap occurred, and is 0 otherwise. -/
theorem smartPass_lastSwap (e : ℕ) (a : List ℚ) :
    ((smartPass e a).2.1 = true → (smartPass e a).2.2 < e) ∧
    ((smartPass e a).2.1 = false → (smartPass e a).2.2 = 0) := by
  induction e with
  | zero =>
    refine ⟨?_, fun _ => rfl⟩
    intro h
    exact absurd h (by simp [smartPass])
  | succ e ih =>
    have hstep : smartPass (e + 1) a
        = (if ag (smartPass e a).1 e > ag (smartPass e a).1 (e + 1)
           then (swap (smartPass e a).1 e (e + 1), true, e) else smartPass e a) := by
      unfold smartPass
      rw [List.range_succ, List.foldl_append, List.foldl_cons, List.foldl_nil]
    rw [hstep]
    by_cases hc : ag (smartPass e a).1 e > ag (smartPass e a).1 (e + 1)
    · rw [if_pos hc]
      exact ⟨fun _ => Nat.lt_succ_self e, fun h => by simp at h⟩
    · rw [if_neg hc]
      refine ⟨fun h => lt_trans (ih.1 h) (by omega), ih.2⟩

/-- Full invariant of one smart pass over positions 0..e (hypothesis:
e stays inside the array): the array component keeps its length, is a
permutation, leaves positions beyond e untouched, carries the running
maximum to position e, makes every position strictly after the last
swap dominate all positions at or before it, and keeps any upper bound
of the original prefix an upper bound of the new prefix. -/
theorem smartPass_spec (a : List ℚ) : ∀ e, e < a.length →
    (smartPass e a).1.length = a.length ∧
    (smartPass e a).1.Perm a ∧
    (∀ k, e < k → ag (smartPass e a).1 k = ag a k) ∧
    (∀ k, k ≤ e → ag (smartPass e a).1 k ≤ ag (smartPass e a).1 e) ∧
    (∀ v, (smartPass e a).2.2 < v → v < e → ∀ u, u ≤ v →
      ag (smartPass e a).1 u ≤ ag (smartPass e a).1 v) ∧
    (∀ b, (∀ k, k ≤ e → ag a k ≤ b) → ∀ k, k ≤ e → ag (smartPass e a).1 k ≤ b) := by
  intro e
  induction e with
  | zero =>
    intro _
    refine ⟨rfl, List.Perm.refl a, fun k _ => rfl, fun k hk => by
      rw [Nat.le_zero.mp hk], fun v h1 h2 _ _ => by omega, fun b hb k hk => hb k hk⟩
  | succ e ih =>
    intro he
    obtain ⟨i1, i2, i3, i4, i5, i6⟩ := ih (by omega)
    have hstep : smartPass (e + 1) a
        = (if ag (smartPass e a).1 e > ag (smartPass e a).1 (e + 1)
           then (swap (smartPass e a).1 e (e + 1), true, e) else smartPass e a) := by
      unfold smartPass
      rw [List.range_succ, List.foldl_append, List.foldl_cons, List.foldl_nil]
    have hel : e < (smartPass e a).1.length := by omega
    have hel1 : e + 1 < (smartPass e a).1.length := by omega
    by_cases hc : ag (smartPass e a).1 e > ag (smartPass e a).1 (e + 1)
    · rw [hstep, if_pos hc]
      have hfst : ag (swap (smartPass e a).1 e (e + 1)) e = ag (smartPass e a).1 (e + 1) :=
        ag_swap_fst _ e (e + 1) hel (by omega)
      have hsnd : ag (swap (smartPass e a).1 e (e + 1)) (e + 1) = ag (smartPass e a).1 e :=
        ag_swap_snd _ e (e + 1) hel1
      refine ⟨by rw [length_swap]; exact i1,
        (swap_perm _ e (e + 1) hel hel1).trans i2, ?_, ?_, ?_, ?_⟩
      · intro k hk
        rw [ag_swap_other _ e (e + 1) k (by omega) (by omega)]
        exact i3 k (by omega)
      · intro k hk
        rw [hsnd]
        by_cases hk1 : k = e + 1
        · rw [hk1, hsnd]
        · by_cases hk2 : k = e
          · rw [hk2, hfst]
            exact le_of_lt hc
          · rw [ag_swap_other _ e (e + 1) k hk2 hk1]
            exact i4 k (by omega)
      · intro v h1 h2 u hu
        have h1' : e < v := h1
        omega
      · intro b hb k hk
        by_cases hk1 : k = e + 1
        · rw [hk1, hsnd]
          exact i6 b (fun k' hk' => hb k' (by omega)) e le_rfl
        · by_cases hk2 : k = e
          · rw [hk2, hfst, i3 (e + 1) (by omega)]
            exact hb (e + 1) le_rfl
          · rw [ag_swap_other _ e (e + 1) k hk2 hk1]
            exact i6 b (fun k' hk' => hb k' (by omega)) k (by omega)
    · rw [hstep, if_neg hc]
      have hle : ag (smartPass e a).1 e ≤ ag (smartPass e a).1 (e + 1) := le_of_not_lt hc
      refine ⟨i1, i2, ?_, ?_, ?_, ?_⟩
      · intro k hk
        exact i3 k (by omega)
      · intro k hk
        by_cases hk1 : k = e + 1
        · rw [hk1]
        · exact le_trans (i4 k (by omega)) hle
      · intro v h1 h2 u hu
        by_cases hv : v = e
        · subst hv
          exact le_trans (i4 u hu) le_rfl
        · exact i5 v h1 (by omega) u hu
      · intro b hb k hk
        by_cases hk1 : k = e + 1
        · rw [hk1, i3 (e + 1) (by omega)]
          exact hb (e + 1) le_rfl
        · exact i6 b (fun k' hk' => hb k' (by omega)) k (by omega)

/-- bubblePass inherits the pass invariant through the array component
of the smart pass. -/
theorem bubblePass_spec (a : List ℚ) (e : ℕ) (he : e < a.length) :
    (bubblePass e a).length = a.length ∧
    (bubblePass e a).Perm a ∧
    (∀ k, e < k → ag (bubblePass e a) k = ag a k) ∧
    (∀ k, k ≤ e → ag (bubblePass e a) k ≤ ag (bubblePass e a) e) ∧
    (∀ b, (∀ k, k ≤ e → ag a k ≤ b) → ∀ k, k ≤ e → ag (bubblePass e a) k ≤ b) := by
  obtain ⟨i1, i2, i3, i4, i5, i6⟩ := smartPass_spec a e he
  rw [smartPass_fst] at i1 i2 i3 i4 i6
  exact ⟨i1, i2, i3, i4, i6⟩

/-- The outer loop of bubbleSort: passes with shrinking bound
i = n-1, n-2, ..., 1. -/
def bubbleOuter : ℕ → List ℚ → List ℚ
  | 0, a => a
  | i + 1, a => bubbleOuter i (bubblePass (i + 1) a)

/-- bubbleSort of bubble-sort.ts: copy the array, then run n-1
compare-and-swap passes with shrinking inner bound. -/
def bubbleSort (arr : List ℚ) : List ℚ := bubbleOuter (arr.length - 1) arr

theorem bubbleOuter_spec : ∀ (i : ℕ) (a : List ℚ), i < a.length →
    (∀ u v, u ≤ v → i < v → v < a.length → ag a u ≤ ag a v) →
    (bubbleOuter i a).length = a.length ∧
    (bubbleOuter i a).Perm a ∧
    (∀ u v, u ≤ v → 0 < v → v < a.length →
      ag (bubbleOuter i a) u ≤ ag (bubbleOuter i a) v) := by
  intro i
  induction i with
  | zero =>
    intro a _ hsuf
    exact ⟨rfl, List.Perm.refl a, fun u v huv hv hvl => hsuf u v huv hv hvl⟩
  | succ i ih =>
    intro a hia hsuf
    obtain ⟨p1, p2, p3, p4, p5⟩ := bubblePass_spec a (i + 1) hia
    have hsuf' : ∀ u v, u ≤ v → i < v → v < (bubblePass (i + 1) a).length →
        ag (bubblePass (i + 1) a) u ≤ ag (bubblePass (i + 1) a) v := by
      intro u v huv hiv hv
      rw [p1] at hv
      by_cases hve : v = i + 1
      · subst hve
        exact p4 u huv
      · have hv' : i + 1 < v := by omega
        rw [p3 v hv']
        by_cases hu : u ≤ i + 1
        · exact p5 (ag a v) (fun k hk => hsuf k v (by omega) (by omega) hv) u hu
        · rw [p3 u (by omega)]
          exact hsuf u v huv (by omega) hv
    have hunfold : bubbleOuter (i + 1) a = bubbleOuter i (bubblePass (i + 1) a) := rfl
    rw [hunfold]
    obtain ⟨q1, q2, q3⟩ := ih (bubblePass (i + 1) a) (by omega) hsuf'
    refine ⟨q1.trans p1, q2.trans p2, ?_⟩
    intro u v huv hv hvl
    exact q3 u v huv hv (by rw [p1]; exact hvl)

theorem bubbleSort_eq_sortSpec (arr : List ℚ) : bubbleSort arr = sortSpec arr := by
  by_cases h0 : arr.length = 0
  · rw [List.length_eq_zero.mp h0]
    rfl
  · unfold bubbleSort
    obtain ⟨q1, q2, q3⟩ := bubbleOuter_spec (arr.length - 1) arr (by omega)
      (fun u v huv hiv hv => absurd hv (by omega))
    apply eq_sortSpec_of _ _ q2
    apply List.pairwise_iff_getElem.mpr
    intro i j hi hj hij
    rw [← ag_eq_getElem _ i hi, ← ag_eq_getElem _ j hj]
    exact q3 i j (le_of_lt hij) (by omega) (by rw [← q1]; exact hj)

/-- The while loop of bubbleSortSmart: run a pass over the current
unsorted prefix; if no swap happened the array is returned, otherwise
the bound shrinks to the last swap index (strictly smaller than the
old bound, which gives termination). -/
def smartLoop (newEnd : ℕ) (a : List ℚ) : List ℚ :=
  if 0 < newEnd then
    if h2 : (smartPass newEnd a).2.1 = true then
      smartLoop (smartPass newEnd a).2.2 (smartPass newEnd a).1
    else (smartPass newEnd a).1
  else a
termination_by newEnd
decreasing_by exact (smartPass_lastSwap newEnd a).1 h2

theorem smartLoop_spec : ∀ (newEnd : ℕ) (a : List ℚ), newEnd < a.length →
    (∀ u v, u ≤ v → newEnd < v → v < a.length → ag a u ≤ ag a v) →
    (smartLoop newEnd a).Perm a ∧ (smartLoop newEnd a).Pairwise (· ≤ ·) := by
  intro newEnd
  induction newEnd using Nat.strong_induction_on with
  | _ newEnd ih =>
    intro a hlen hsuf
    by_cases h0 : 0 < newEnd
    · obtain ⟨i1, i2, i3, i4, i5, i6⟩ := smartPass_spec a newEnd hlen
      by_cases h2 : (smartPass newEnd a).2.1 = true
      · have hunf : smartLoop newEnd a
            = smartLoop (smartPass newEnd a).2.2 (smartPass newEnd a).1 := by
          rw [smartLoop, if_pos h0, dif_pos h2]
        have hL := (smartPass_lastSwap newEnd a).1 h2
        have hsuf' : ∀ u v, u ≤ v → (smartPass newEnd a).2.2 < v →
            v < (smartPass newEnd a).1.length →
            ag (smartPass newEnd a).1 u ≤ ag (smartPass newEnd a).1 v := by
          intro u v huv hLv hv
          rw [i1] at hv
          by_cases hvn : v < newEnd
          · exact i5 v hLv hvn u huv
          · by_cases hve : v = newEnd
            · subst hve
              exact i4 u huv
            · have hvgt : newEnd < v := by omega
              rw [i3 v hvgt]
              by_cases hu : u ≤ newEnd
              · exact i6 (ag a v) (fun k hk => hsuf k v (by omega) hvgt hv) u hu
              · rw [i3 u (by omega)]
                exact hsuf u v huv hvgt hv
        have hrec := ih (smartPass newEnd a).2.2 hL (smartPass newEnd a).1
          (by rw [i1]; omega) hsuf'
        rw [hunf]
        exact ⟨hrec.1.trans i2, hrec.2⟩
      · have hunf : smartLoop newEnd a = (smartPass newEnd a).1 := by
          rw [smartLoop, if_pos h0, dif_neg h2]
        have hL0 := (smartPass_lastSwap newEnd a).2 (by simpa using h2)
        rw [hunf]
        refine ⟨i2, ?_⟩
        apply List.pairwise_iff_getElem.mpr
        intro x y hx hy hxy
        rw [← ag_eq_getElem _ x hx, ← ag_eq_getElem _ y hy]
        rw [i1] at hy
        by_cases hyn : y < newEnd
        · exact i5 y (by rw [hL0]; omega) hyn x (le_of_lt hxy)
        · by_cases hye : y = newEnd
          · subst hye
            exact i4 x (le_of_lt hxy)
          · have hygt : newEnd < y := by omega
            rw [i3 y hygt]
            by_cases hux : x ≤ newEnd
            · exact i6 (ag a y) (fun k hk => hsuf k y (by omega) hygt hy) x hux
            · rw [i3 x (by omega)]
              exact hsuf x y (le_of_lt hxy) hygt hy
    · have hunf : smartLoop newEnd a = a := by rw [smartLoop, if_neg h0]
      rw [hunf]
      refine ⟨List.Perm.refl a, ?_⟩
      apply List.pairwise_iff_getElem.mpr
      intro x y hx hy hxy
      rw [← ag_eq_getElem _ x hx, ← ag_eq_getElem _ y hy]
      exact hsuf x y (le_of_lt hxy) (by omega) hy

/-- bubbleSortSmart of bubble-sort-smart.ts: copy the array, then run
shrinking passes with early termination and the last-swap bound. -/
def bubbleSortSmart (arr : List ℚ) : List ℚ := smartLoop (arr.length - 1) arr

theorem bubbleSortSmart_eq_sortSpec (arr : List ℚ) :
    bubbleSortSmart arr = sortSpec arr := by
  by_cases h0 : arr.length = 0
  · rw [List.length_eq_zero.mp h0]
    show smartLoop 0 [] = sortSpec []
    rw [smartLoop, if_neg (by omega)]
    rfl
  · obtain ⟨hp, hs⟩ := smartLoop_spec (arr.length - 1) arr (by omega)
      (fun u v huv hiv hv => absurd hv (by omega))
    exact eq_sortSpec_of arr (bubbleSortSmart arr) hp hs

/- ===================== quickSort (quick-sort.ts) ===================== -/

/-- The segment of an array from index lo to index hi inclusive. -/
def seg (a : List ℚ) (lo hi : ℕ) : List ℚ := (a.drop lo).take (hi + 1 - lo)

theorem length_seg (a : List ℚ) (lo hi : ℕ) (hlo : lo ≤ hi) (hhi : hi < a.length) :
    (seg a lo hi).length = hi + 1 - lo := by
  rw [seg, List.length_take, List.length_drop]
  omega

theorem mem_seg_iff (a : List ℚ) (lo hi : ℕ) (hhi : hi < a.length) (x : ℚ) :
    x ∈ seg a lo hi ↔ ∃ k, lo ≤ k ∧ k ≤ hi ∧ ag a k = x := by
  constructor
  · intro hx
    obtain ⟨k, hk, hget⟩ := List.mem_iff_getElem.mp hx
    have hk' : k < (seg a lo hi).length := hk
    rw [seg, List.length_take, List.length_drop] at hk'
    have hkd : k < (a.drop lo).length := by rw [List.length_drop]; omega
    have hlk : lo + k < a.length := by omega
    have hseg : (seg a lo hi)[k] = a[lo + k] := by
      simp only [seg]
      rw [List.getElem_take, List.getElem_drop]
    refine ⟨lo + k, by omega, by omega, ?_⟩
    rw [ag_eq_getElem a (lo + k) (by omega), ← hseg, hget]
  · rintro ⟨k, hk1, hk2, rfl⟩
    apply List.mem_iff_getElem.mpr
    have hlen : (seg a lo hi).length = (hi + 1 - lo) ⊓ (a.length - lo) := by
      rw [seg, List.length_take, List.length_drop]
    refine ⟨k - lo, by rw [hlen]; omega, ?_⟩
    have hkd : k - lo < (a.drop lo).length := by rw [List.length_drop]; omega
    have hkl1 : k - lo < (seg a lo hi).length := by rw [hlen]; omega
    have hkl2 : lo + (k - lo) < a.length := by omega
    have hstep : (seg a lo hi)[k - lo] = a[lo + (k - lo)] := by
      simp only [seg]
      rw [List.getElem_take, List.getElem_drop]
    rw [hstep]
    have : lo + (k - lo) = k := by omega
    rw [ag_eq_getElem a k (by omega)]
    congr 1

/-- A length-preserving permutation that agrees pointwise outside
[lo, hi] permutes the segment [lo, hi]. -/
theorem seg_perm_of (a b : List ℚ) (lo hi : ℕ) (hlen : b.length = a.length)
    (hperm : b.Perm a) (hfr : ∀ k, k < lo ∨ hi < k → ag b k = ag a k)
    (hlo : lo ≤ hi) (hhi : hi < a.length) :
    (seg b lo hi).Perm (seg a lo hi) := by
  have hsplit : ∀ (c : List ℚ), lo ≤ hi → hi < c.length →
      c = c.take lo ++ (seg c lo hi ++ c.drop (hi + 1)) := by
    intro c h1 h2
    conv_lhs => rw [← List.take_append_drop lo c]
    congr 1
    conv_lhs => rw [← List.take_append_drop (hi + 1 - lo) (c.drop lo)]
    congr 1
    rw [List.drop_drop]
    congr 1
    omega
  have htake : b.take lo = a.take lo := by
    apply List.ext_getElem
    · rw [List.length_take, List.length_take, hlen]
    · intro i h1 h2
      rw [List.length_take] at h1 h2
      rw [List.getElem_take, List.getElem_take,
        ← ag_eq_getElem b i (by omega), ← ag_eq_getElem a i (by omega)]
      exact hfr i (Or.inl (by omega))
  have hdrop : b.drop (hi + 1) = a.drop (hi + 1) := by
    apply List.ext_getElem
    · rw [List.length_drop, List.length_drop, hlen]
    · intro i h1 h2
      rw [List.length_drop] at h1 h2
      rw [List.getElem_drop, List.getElem_drop,
        ← ag_eq_getElem b (hi + 1 + i) (by omega), ← ag_eq_getElem a (hi + 1 + i) (by omega)]
      exact hfr (hi + 1 + i) (Or.inr (by omega))
  apply perm_of_count
  intro v
  have hb := hsplit b hlo (by omega)
  have ha := hsplit a hlo hhi
  have hcb : b.count v = (b.take lo).count v + ((seg b lo hi).count v
      + (b.drop (hi + 1)).count v) := by
    conv_lhs => rw [hb]
    rw [List.count_append, List.count_append]
  have hca : a.count v = (a.take lo).count v + ((seg a lo hi).count v
      + (a.drop (hi + 1)).count v) := by
    conv_lhs => rw [ha]
    rw [List.count_append, List.count_append]
  have hpc := hperm.count_eq v
  rw [htake, hdrop] at hcb
  omega

/-- Swapping an element with itself does nothing. -/
theorem swap_self {α : Type} [Inhabited α] (a : List α) (i : ℕ) : swap a i i = a := by
  rw [swap, set_ag_self, set_ag_self]

/-- The conditional adjacent swap used by the median-of-three
arrangement: frame, length and permutation facts. -/
theorem condSwap_spec (x : List ℚ) (c : Prop) [Decidable c] (i j : ℕ)
    (hi : i < x.length) (hj : j < x.length) :
    (if c then swap x i j else x).length = x.length ∧
    (if c then swap x i j else x).Perm x ∧
    (∀ k, k ≠ i → k ≠ j → ag (if c then swap x i j else x) k = ag x k) := by
  by_cases hc : c
  · rw [if_pos hc]
    exact ⟨length_swap x i j, swap_perm x i j hi hj,
      fun k hk1 hk2 => ag_swap_other x i j k hk1 hk2⟩
  · rw [if_neg hc]
    exact ⟨rfl, List.Perm.refl x, fun k _ _ => rfl⟩

/-- The median-of-three pivot arrangement of robustQuickSort: order
positions low, mid, high with three conditional swaps, then move the
median at mid to high. -/
def medianArrange (a : List ℚ) (low mid high : ℕ) : List ℚ :=
  let a1 := if ag a low > ag a mid then swap a low mid else a
  let a2 := if ag a1 low > ag a1 high then swap a1 low high else a1
  let a3 := if ag a2 mid > ag a2 high then swap a2 mid high else a2
  swap a3 mid high

theorem medianArrange_spec (a : List ℚ) (low mid high : ℕ)
    (hm1 : low ≤ mid) (hm2 : mid ≤ high) (hh : high < a.length) :
    (medianArrange a low mid high).length = a.length ∧
    (medianArrange a low mid high).Perm a ∧
    (∀ k, k < low ∨ high < k → ag (medianArrange a low mid high) k = ag a k) := by
  obtain ⟨c11, c12, c13⟩ := condSwap_spec a (ag a low > ag a mid) low mid
    (by omega) (by omega)
  set a1 := if ag a low > ag a mid then swap a low mid else a with ha1
  obtain ⟨c21, c22, c23⟩ := condSwap_spec a1 (ag a1 low > ag a1 high) low high
    (by omega) (by omega)
  set a2 := if ag a1 low > ag a1 high then swap a1 low high else a1 with ha2
  obtain ⟨c31, c32, c33⟩ := condSwap_spec a2 (ag a2 mid > ag a2 high) mid high
    (by omega) (by omega)
  set a3 := if ag a2 mid > ag a2 high then swap a2 mid high else a2 with ha3
  have hml : mid < a3.length := by omega
  have hhl : high < a3.length := by omega
  have hres : medianArrange a low mid high = swap a3 mid high := rfl
  rw [hres]
  refine ⟨by rw [length_swap]; omega, (swap_perm a3 mid high hml hhl).trans
    (c32.trans (c22.trans c12)), ?_⟩
  intro k hk
  rw [ag_swap_other a3 mid high k (by omega) (by omega),
    c33 k (by omega) (by omega), c23 k (by omega) (by omega),
    c13 k (by omega) (by omega)]

/-- The partition loop of quick-sort.ts, tracking (array, i + 1) where
i is the source's index of the last element placed in the small side:
for each j, if arr[j] ≤ pivot then increment i and swap positions i
and j. -/
def partitionFold (pivot : ℚ) (js : List ℕ) (st : List ℚ × ℕ) : List ℚ × ℕ :=
  js.foldl (fun st j => if ag st.1 j ≤ pivot then (swap st.1 st.2 j, st.2 + 1) else st) st

/-- Function partition of quick-sort.ts: loop j from low to high-1,
then swap the pivot into position i + 1 and return that index. -/
def partition (arr : List ℚ) (low high : ℕ) : List ℚ × ℕ :=
  let st := partitionFold (ag arr high) (List.range' low (high - low)) (arr, low)
  (swap st.1 st.2 high, st.2)

theorem partitionFold_snd (pivot : ℚ) : ∀ (js : List ℕ) (st : List ℚ × ℕ),
    st.2 ≤ (partitionFold pivot js st).2 ∧
    (partitionFold pivot js st).2 ≤ st.2 + js.length := by
  intro js
  induction js with
  | nil => intro st; exact ⟨le_rfl, by simp [partitionFold]⟩
  | cons j t ih =>
    intro st
    have hstep : partitionFold pivot (j :: t) st
        = partitionFold pivot t
            (if ag st.1 j ≤ pivot then (swap st.1 st.2 j, st.2 + 1) else st) := rfl
    rw [hstep]
    by_cases hc : ag st.1 j ≤ pivot
    · rw [if_pos hc]
      obtain ⟨h1, h2⟩ := ih (swap st.1 st.2 j, st.2 + 1)
      constructor
      · exact le_trans (by omega) h1
      · rw [List.length_cons]
        have : (swap st.1 st.2 j, st.2 + 1).2 = st.2 + 1 := rfl
        omega
    · rw [if_neg hc]
      obtain ⟨h1, h2⟩ := ih st
      exact ⟨h1, by rw [List.length_cons]; omega⟩

theorem partition_snd (arr : List ℚ) (low high : ℕ) :
    low ≤ (partition arr low high).2 ∧ (partition arr low high).2 ≤ low + (high - low) := by
  have h := partitionFold_snd (ag arr high) (List.range' low (high - low)) (arr, low)
  rw [List.length_range'] at h
  have h2 : (arr, low).2 = low := rfl
  have heq : (partition arr low high).2
      = (partitionFold (ag arr high) (List.range' low (high - low)) (arr, low)).2 := rfl
  rw [heq]
  omega

theorem partitionFold_spec (a : List ℚ) (low high : ℕ) (hlh : low < high)
    (hh : high < a.length) : ∀ m, low + m ≤ high →
    (partitionFold (ag a high) (List.range' low m) (a, low)).1.length = a.length ∧
    (partitionFold (ag a high) (List.range' low m) (a, low)).1.Perm a ∧
    (∀ k, k < low ∨ high < k →
      ag (partitionFold (ag a high) (List.range' low m) (a, low)).1 k = ag a k) ∧
    (low ≤ (partitionFold (ag a high) (List.range' low m) (a, low)).2 ∧
      (partitionFold (ag a high) (List.range' low m) (a, low)).2 ≤ low + m) ∧
    (∀ k, low ≤ k → k < (partitionFold (ag a high) (List.range' low m) (a, low)).2 →
      ag (partitionFold (ag a high) (List.range' low m) (a, low)).1 k ≤ ag a high) ∧
    (∀ k, (partitionFold (ag a high) (List.range' low m) (a, low)).2 ≤ k → k < low + m →
      ag a high < ag (partitionFold (ag a high) (List.range' low m) (a, low)).1 k) ∧
    ag (partitionFold (ag a high) (List.range' low m) (a, low)).1 high = ag a high := by
  intro m
  induction m with
  | zero =>
    intro _
    refine ⟨rfl, List.Perm.refl a, fun k _ => rfl, ⟨le_rfl, le_rfl⟩, ?_, ?_, rfl⟩
    · intro k hk1 hk2
      have hk2' : k < low := hk2
      omega
    · intro k hk1 hk2
      have hk1' : low ≤ k := hk1
      omega
  | succ m ih =>
    intro hm
    obtain ⟨j1, j2, j3, ⟨j41, j42⟩, j5, j6, j7⟩ := ih (by omega)
    set st := partitionFold (ag a high) (List.range' low m) (a, low) with hstdef
    have hstep : partitionFold (ag a high) (List.range' low (m + 1)) (a, low)
        = (if ag st.1 (low + m) ≤ ag a high
           then (swap st.1 st.2 (low + m), st.2 + 1) else st) := by
      unfold partitionFold
      rw [List.range'_concat, List.foldl_append, List.foldl_cons, List.foldl_nil,
        Nat.one_mul]
      rfl
    have hjlt : low + m < high := by omega
    have hstl : st.2 < st.1.length := by omega
    have hjl : low + m < st.1.length := by omega
    rw [hstep]
    by_cases hc : ag st.1 (low + m) ≤ ag a high
    · rw [if_pos hc]
      have hfst : ag (swap st.1 st.2 (low + m)) st.2 = ag st.1 (low + m) := by
        by_cases he : st.2 = low + m
        · rw [he, swap_self]
        · exact ag_swap_fst st.1 st.2 (low + m) hstl he
      refine ⟨by rw [length_swap]; exact j1,
        (swap_perm st.1 st.2 (low + m) hstl hjl).trans j2, ?_, ⟨by omega, by omega⟩,
        ?_, ?_, ?_⟩
      · intro k hk
        rw [ag_swap_other st.1 st.2 (low + m) k (by omega) (by omega)]
        exact j3 k hk
      · intro k hk1 hk2
        have hk2' : k < st.2 + 1 := hk2
        by_cases hks : k = st.2
        · rw [hks, hfst]
          exact hc
        · rw [ag_swap_other st.1 st.2 (low + m) k hks (by omega)]
          exact j5 k hk1 (by omega)
      · intro k hk1 hk2
        have hk1' : st.2 + 1 ≤ k := hk1
        by_cases hkj : k = low + m
        · have hsj : st.2 < low + m := by omega
          rw [hkj, ag_swap_snd st.1 st.2 (low + m) hjl]
          exact j6 st.2 le_rfl hsj
        · rw [ag_swap_other st.1 st.2 (low + m) k (by omega) hkj]
          exact j6 k (by omega) (by omega)
      · rw [ag_swap_other st.1 st.2 (low + m) high (by omega) (by omega)]
        exact j7
    · rw [if_neg hc]
      refine ⟨j1, j2, j3, ⟨j41, by omega⟩, j5, ?_, j7⟩
      intro k hk1 hk2
      by_cases hkj : k = low + m
      · rw [hkj]
        exact lt_of_not_le hc
      · exact j6 k hk1 (by omega)

theorem partition_spec (a : List ℚ) (low high : ℕ) (hlh : low < high)
    (hh : high < a.length) :
    low ≤ (partition a low high).2 ∧ (partition a low high).2 ≤ high ∧
    (partition a low high).1.length = a.length ∧
    (partition a low high).1.Perm a ∧
    (∀ k, k < low ∨ high < k → ag (partition a low high).1 k = ag a k) ∧
    (∀ k, low ≤ k → k < (partition a low high).2 →
      ag (partition a low high).1 k
        ≤ ag (partition a low high).1 (partition a low high).2) ∧
    (∀ k, (partition a low high).2 < k → k ≤ high →
      ag (partition a low high).1 (partition a low high).2
        ≤ ag (partition a low high).1 k) := by
  obtain ⟨j1, j2, j3, ⟨j41, j42⟩, j5, j6, j7⟩ :=
    partitionFold_spec a low high hlh hh (high - low) (by omega)
  set st := partitionFold (ag a high) (List.range' low (high - low)) (a, low) with hstdef
  have hpr1 : (partition a low high).1 = swap st.1 st.2 high := rfl
  have hpr2 : (partition a low high).2 = st.2 := rfl
  have hp2h : st.2 ≤ high := by omega
  have hstl : st.2 < st.1.length := by omega
  have hhl : high < st.1.length := by omega
  have hvp : ag (swap st.1 st.2 high) st.2 = ag a high := by
    by_cases he : st.2 = high
    · rw [he, swap_self]
      exact j7
    · rw [ag_swap_fst st.1 st.2 high hstl he]
      exact j7
  rw [hpr1, hpr2]
  refine ⟨j41, hp2h, by rw [length_swap]; exact j1,
    (swap_perm st.1 st.2 high hstl hhl).trans j2, ?_, ?_, ?_⟩
  · intro k hk
    rw [ag_swap_other st.1 st.2 high k (by omega) (by omega)]
    exact j3 k hk
  · intro k hk1 hk2
    rw [hvp, ag_swap_other st.1 st.2 high k (by omega) (by omega)]
    exact j5 k hk1 hk2
  · intro k hk1 hk2
    rw [hvp]
    by_cases hkh : k = high
    · rw [hkh, ag_swap_snd st.1 st.2 high hhl]
      exact le_of_lt (j6 st.2 le_rfl (by omega))
    · rw [ag_swap_other st.1 st.2 high k (by omega) hkh]
      exact le_of_lt (j6 k (by omega) (by omega))

/-- Function robustQuickSort of quick-sort.ts: when low < high, arrange
the median of arr[low], arr[mid], arr[high] into the pivot position
high, partition the segment, and recurse on the two sides of the
returned pivot index. -/
def robustQuickSort (a : List ℚ) (low high : ℕ) : List ℚ :=
  if low < high then
    robustQuickSort
      (robustQuickSort
        (partition (medianArrange a low (low + (high - low) / 2) high) low high).1
        low
        ((partition (medianArrange a low (low + (high - low) / 2) high) low high).2 - 1))
      ((partition (medianArrange a low (low + (high - low) / 2) high) low high).2 + 1)
      high
  else a
termination_by high - low
decreasing_by
  · have h := partition_snd (medianArrange a low (low + (high - low) / 2) high) low high
    omega
  · have h := partition_snd (medianArrange a low (low + (high - low) / 2) high) low high
    omega

theorem robustQuickSort_spec : ∀ (n : ℕ) (a : List ℚ) (low high : ℕ), high - low ≤ n →
    high < a.length →
    (robustQuickSort a low high).length = a.length ∧
    (robustQuickSort a low high).Perm a ∧
    (∀ k, k < low ∨ high < k → ag (robustQuickSort a low high) k = ag a k) ∧
    (¬low < high → robustQuickSort a low high = a) ∧
    (∀ u v, low ≤ u → u ≤ v → v ≤ high →
      ag (robustQuickSort a low high) u ≤ ag (robustQuickSort a low high) v) := by
  intro n
  induction n with
  | zero =>
    intro a low high hn hh
    have hnl : ¬low < high := by omega
    have hres : robustQuickSort a low high = a := by
      rw [robustQuickSort, if_neg hnl]
    rw [hres]
    refine ⟨rfl, List.Perm.refl a, fun k _ => rfl, fun _ => rfl, ?_⟩
    intro u v hu huv hv
    have : u = v := by omega
    rw [this]
  | succ n ih =>
    intro a low high hn hh
    by_cases hlh : low < high
    · -- the recursive case
      have hmid1 : low ≤ low + (high - low) / 2 := by omega
      have hmid2 : low + (high - low) / 2 ≤ high := by omega
      obtain ⟨m1, m2, m3⟩ := medianArrange_spec a low (low + (high - low) / 2) high
        hmid1 hmid2 hh
      set A := medianArrange a low (low + (high - low) / 2) high with hA
      obtain ⟨p1, p2, p3, p4, p5, p6, p7⟩ := partition_spec A low high hlh (by omega)
      set P := partition A low high with hP
      have hPlen : P.1.length = a.length := by omega
      obtain ⟨l1, l2, l3, l4, l5⟩ := ih P.1 low (P.2 - 1) (by omega) (by omega)
      set L := robustQuickSort P.1 low (P.2 - 1) with hL
      obtain ⟨r1, r2, r3, r4, r5⟩ := ih L (P.2 + 1) high (by omega) (by omega)
      set R := robustQuickSort L (P.2 + 1) high with hR
      have hres : robustQuickSort a low high = R := by
        rw [robustQuickSort, if_pos hlh]
      rw [hres]
      -- positions at or above the pivot index are untouched by the left call
      have fL : ∀ k, P.2 ≤ k → ag L k = ag P.1 k := by
        intro k hk
        by_cases hcall : low < P.2 - 1
        · exact l3 k (Or.inr (by omega))
        · rw [l4 hcall]
      -- positions at or below the pivot index are untouched by the right call
      have fR : ∀ k, k ≤ P.2 → ag R k = ag L k := by
        intro k hk
        exact r3 k (Or.inl (by omega))
      -- the pivot value survives both recursive calls
      have hvp : ag R P.2 = ag P.1 P.2 := by
        rw [fR P.2 le_rfl, fL P.2 le_rfl]
      -- elements of the left side remain bounded by the pivot
      have hleft : ∀ u, low ≤ u → u < P.2 → ag R u ≤ ag P.1 P.2 := by
        intro u hu1 hu2
        rw [fR u (by omega)]
        by_cases hcall : low < P.2 - 1
        · -- the left segment was shuffled by a genuine recursive call
          have hseg : (seg L low (P.2 - 1)).Perm (seg P.1 low (P.2 - 1)) := by
            apply seg_perm_of P.1 L low (P.2 - 1) l1 l2 l3 (by omega) (by omega)
          have hmem : ag L u ∈ seg L low (P.2 - 1) := by
            apply (mem_seg_iff L low (P.2 - 1) (by omega) _).mpr
            exact ⟨u, hu1, by omega, rfl⟩
          obtain ⟨k, hk1, hk2, hk3⟩ := (mem_seg_iff P.1 low (P.2 - 1) (by omega) _).mp
            (hseg.mem_iff.mp hmem)
          rw [← hk3]
          exact p6 k hk1 (by omega)
        · rw [l4 hcall]
          exact p6 u hu1 hu2
      -- elements of the right side remain at least the pivot
      have hright : ∀ v, P.2 < v → v ≤ high → ag P.1 P.2 ≤ ag R v := by
        intro v hv1 hv2
        have hLseg : ∀ k, P.2 + 1 ≤ k → k ≤ high → ag L k = ag P.1 k := by
          intro k hk1 _
          exact fL k (by omega)
        by_cases hcall : P.2 + 1 < high
        · have hseg : (seg R (P.2 + 1) high).Perm (seg L (P.2 + 1) high) := by
            apply seg_perm_of L R (P.2 + 1) high r1 r2 r3 (by omega) (by omega)
          have hmem : ag R v ∈ seg R (P.2 + 1) high := by
            apply (mem_seg_iff R (P.2 + 1) high (by omega) _).mpr
            exact ⟨v, by omega, hv2, rfl⟩
          obtain ⟨k, hk1, hk2, hk3⟩ := (mem_seg_iff L (P.2 + 1) high (by omega) _).mp
            (hseg.mem_iff.mp hmem)
          rw [← hk3, hLseg k hk1 hk2]
          exact p7 k (by omega) hk2
        · rw [r4 hcall, hLseg v (by omega) hv2]
          exact p7 v hv1 hv2
      refine ⟨r1.trans (l1.trans hPlen), r2.trans (l2.trans (p4.trans m2)), ?_, ?_, ?_⟩
      · -- frame outside [low, high]
        intro k hk
        rw [r3 k (by rcases hk with h | h; exact Or.inl (by omega); exact Or.inr h),
          l3 k (by rcases hk with h | h; exact Or.inl h; exact Or.inr (by omega)),
          p5 k hk, m3 k hk]
      · intro hcon
        exact absurd hlh hcon
      · -- the segment [low, high] is sorted
        intro u v hu huv hv
        by_cases hvp2 : v < P.2
        · -- both in the left segment: sorted by the left call, framed by the right
          rw [fR u (by omega), fR v (by omega)]
          exact l5 u v hu huv (by omega)
        · by_cases hup2 : P.2 < u
          · -- both in the right segment
            exact r5 u v (by omega) huv hv
          · -- u is at or below the pivot, v at or above
            have hu2 : u ≤ P.2 := by omega
            have hv2 : P.2 ≤ v := by omega
            have hub : ag R u ≤ ag P.1 P.2 := by
              by_cases hup : u = P.2
              · rw [hup, hvp]
              · exact hleft u hu (by omega)
            have hvb : ag P.1 P.2 ≤ ag R v := by
              by_cases hvq : v = P.2
              · rw [hvq, hvp]
              · exact hright v (by omega) hv
            exact le_trans hub hvb
    · have hres : robustQuickSort a low high = a := by
        rw [robustQuickSort, if_neg hlh]
      rw [hres]
      refine ⟨rfl, List.Perm.refl a, fun k _ => rfl, fun _ => rfl, ?_⟩
      intro u v hu huv hv
      have : u = v := by omega
      rw [this]

/-- quickSort of quick-sort.ts: sort a copy in place over the full
index range with the robust median-of-three quicksort. -/
def quickSort (arr : List ℚ) : List ℚ :=
  if arr.length ≤ 1 then arr else robustQuickSort arr 0 (arr.length - 1)

theorem quickSort_eq_sortSpec (arr : List ℚ) : quickSort arr = sortSpec arr := by
  unfold quickSort
  by_cases hlen : arr.length ≤ 1
  · rw [if_pos hlen]
    apply eq_sortSpec_of _ _ (List.Perm.refl _)
    match arr, hlen with
    | [], _ => exact List.Pairwise.nil
    | [x], _ => exact List.pairwise_singleton _ x
  · rw [if_neg hlen]
    obtain ⟨q1, q2, q3, q4, q5⟩ := robustQuickSort_spec (arr.length - 1) arr 0
      (arr.length - 1) (by omega) (by omega)
    apply eq_sortSpec_of _ _ q2
    apply List.pairwise_iff_getElem.mpr
    intro i j hi hj hij
    rw [← ag_eq_getElem _ i hi, ← ag_eq_getElem _ j hj]
    rw [q1] at hj
    exact q5 i j (by omega) (le_of_lt hij) (by omega)

/- ===================== heapSort (draft algorithms file) ===================== -/

/-- The largest-of-root-and-left-child selection of heapify. -/
def heapLeft (a : List ℚ) (n i : ℕ) : ℕ :=
  if 2 * i + 1 < n ∧ ag a (2 * i + 1) > ag a i then 2 * i + 1 else i

/-- The index `largest` computed by heapify: the root i, then the left
child if it exists and is greater, then the right child if it exists
and is greater than the current largest. -/
def heapLargest (a : List ℚ) (n i : ℕ) : ℕ :=
  if 2 * i + 2 < n ∧ ag a (2 * i + 2) > ag a (heapLeft a n i) then 2 * i + 2
  else heapLeft a n i

theorem heapLeft_cases (a : List ℚ) (n i : ℕ) :
    heapLeft a n i = i ∨ (heapLeft a n i = 2 * i + 1 ∧ 2 * i + 1 < n) := by
  unfold heapLeft
  by_cases hc : 2 * i + 1 < n ∧ ag a (2 * i + 1) > ag a i
  · rw [if_pos hc]
    exact Or.inr ⟨rfl, hc.1⟩
  · rw [if_neg hc]
    exact Or.inl rfl

theorem heapLeft_ge (a : List ℚ) (n i : ℕ) : ag a i ≤ ag a (heapLeft a n i) := by
  unfold heapLeft
  by_cases hc : 2 * i + 1 < n ∧ ag a (2 * i + 1) > ag a i
  · rw [if_pos hc]
    exact le_of_lt hc.2
  · rw [if_neg hc]

theorem heapLeft_max (a : List ℚ) (n i : ℕ) (h : 2 * i + 1 < n) :
    ag a (2 * i + 1) ≤ ag a (heapLeft a n i) := by
  unfold heapLeft
  by_cases hc : 2 * i + 1 < n ∧ ag a (2 * i + 1) > ag a i
  · rw [if_pos hc]
  · rw [if_neg hc]
    push_neg at hc
    exact hc h

theorem heapLargest_cases (a : List ℚ) (n i : ℕ) :
    heapLargest a n i = i ∨ (heapLargest a n i = 2 * i + 1 ∧ 2 * i + 1 < n)
      ∨ (heapLargest a n i = 2 * i + 2 ∧ 2 * i + 2 < n) := by
  unfold heapLargest
  by_cases hc : 2 * i + 2 < n ∧ ag a (2 * i + 2) > ag a (heapLeft a n i)
  · rw [if_pos hc]
    exact Or.inr (Or.inr ⟨rfl, hc.1⟩)
  · rw [if_neg hc]
    rcases heapLeft_cases a n i with h | ⟨h, hn⟩
    · exact Or.inl h
    · exact Or.inr (Or.inl ⟨h, hn⟩)

theorem heapLargest_ge (a : List ℚ) (n i : ℕ) :
    ag a i ≤ ag a (heapLargest a n i) := by
  unfold heapLargest
  by_cases hc : 2 * i + 2 < n ∧ ag a (2 * i + 2) > ag a (heapLeft a n i)
  · rw [if_pos hc]
    exact le_trans (heapLeft_ge a n i) (le_of_lt hc.2)
  · rw [if_neg hc]
    exact heapLeft_ge a n i

theorem heapLargest_maxL (a : List ℚ) (n i : ℕ) (h : 2 * i + 1 < n) :
    ag a (2 * i + 1) ≤ ag a (heapLargest a n i) := by
  unfold heapLargest
  by_cases hc : 2 * i + 2 < n ∧ ag a (2 * i + 2) > ag a (heapLeft a n i)
  · rw [if_pos hc]
    exact le_trans (heapLeft_max a n i h) (le_of_lt hc.2)
  · rw [if_neg hc]
    exact heapLeft_max a n i h

theorem heapLargest_maxR (a : List ℚ) (n i : ℕ) (h : 2 * i + 2 < n) :
    ag a (2 * i + 2) ≤ ag a (heapLargest a n i) := by
  unfold heapLargest
  by_cases hc : 2 * i + 2 < n ∧ ag a (2 * i + 2) > ag a (heapLeft a n i)
  · rw [if_pos hc]
  · rw [if_neg hc]
    push_neg at hc
    exact hc h

/-- Function heapify of the draft algorithms file: if the largest of
the root and its (existing) children is not the root, swap it up and
re-heapify the affected subtree. -/
def heapify (a : List ℚ) (n i : ℕ) : List ℚ :=
  if h : heapLargest a n i ≠ i then
    heapify (swap a i (heapLargest a n i)) n (heapLargest a n i)
  else a
termination_by n - i
decreasing_by
  rcases heapLargest_cases a n i with he | ⟨he, hn⟩ | ⟨he, hn⟩
  · exact absurd he h
  · omega
  · omega

/-- Max-heap property for all nodes with index at least s, within the
heap prefix of size n. -/
def HeapFrom (a : List ℚ) (n s : ℕ) : Prop :=
  ∀ j c, s ≤ j → (c = 2 * j + 1 ∨ c = 2 * j + 2) → c < n → ag a c ≤ ag a j

/-- In a max-heap prefix the root dominates the whole prefix. -/
theorem heap_root_max (a : List ℚ) (n : ℕ) (h : HeapFrom a n 0) :
    ∀ k, k < n → ag a k ≤ ag a 0 := by
  intro k
  induction k using Nat.strong_induction_on with
  | _ k ih =>
    intro hk
    by_cases h0 : k = 0
    · rw [h0]
    · have hparent : k = 2 * ((k - 1) / 2) + 1 ∨ k = 2 * ((k - 1) / 2) + 2 := by omega
      have hstep := h ((k - 1) / 2) k (by omega) hparent hk
      exact le_trans hstep (ih ((k - 1) / 2) (by omega) (by omega))

/-- Full invariant of heapify: length and permutation are preserved,
positions left of the root and positions at or beyond n are untouched,
the root receives the largest of root and children, and re-heapifying
a heap broken at most at the root repairs it. -/
theorem heapify_spec : ∀ (fuel : ℕ) (a : List ℚ) (n i : ℕ), n - i ≤ fuel → n ≤ a.length →
    (heapify a n i).length = a.length ∧
    (heapify a n i).Perm a ∧
    (∀ k, (k ≠ i ∧ k < 2 * i + 1) ∨ n ≤ k → ag (heapify a n i) k = ag a k) ∧
    ag (heapify a n i) i = ag a (heapLargest a n i) ∧
    (HeapFrom a n (i + 1) → HeapFrom (heapify a n i) n i) := by
  intro fuel
  induction fuel with
  | zero =>
    intro a n i hf hn
    have hli : heapLargest a n i = i := by
      rcases heapLargest_cases a n i with h | ⟨h, hc⟩ | ⟨h, hc⟩
      · exact h
      · omega
      · omega
    have hres : heapify a n i = a := by
      rw [heapify, dif_neg (fun h => h hli)]
    rw [hres, hli]
    refine ⟨rfl, List.Perm.refl a, fun k _ => rfl, rfl, ?_⟩
    intro hpre j c hj hc hcn
    by_cases hji : j = i
    · subst hji
      rcases hc with rfl | rfl
      · omega
      · omega
    · exact hpre j c (by omega) hc hcn
  | succ fuel ih =>
    intro a n i hf hn
    by_cases hLi : heapLargest a n i = i
    · have hres : heapify a n i = a := by
        rw [heapify, dif_neg (fun h => h hLi)]
      rw [hres, hLi]
      refine ⟨rfl, List.Perm.refl a, fun k _ => rfl, rfl, ?_⟩
      intro hpre j c hj hc hcn
      by_cases hji : j = i
      · subst hji
        rcases hc with rfl | rfl
        · have hm := heapLargest_maxL a n j hcn
          rw [hLi] at hm
          exact hm
        · have hm := heapLargest_maxR a n j hcn
          rw [hLi] at hm
          exact hm
      · exact hpre j c (by omega) hc hcn
    · set L := heapLargest a n i with hLdef
      have hres : heapify a n i = heapify (swap a i L) n L := by
        rw [heapify, dif_pos hLi]
      have hLrange : i < L ∧ L < n := by
        rcases heapLargest_cases a n i with h | ⟨h, hc⟩ | ⟨h, hc⟩
        · exact absurd h hLi
        · omega
        · omega
      have hLchild : L = 2 * i + 1 ∨ L = 2 * i + 2 := by
        rcases heapLargest_cases a n i with h | ⟨h, _⟩ | ⟨h, _⟩
        · exact absurd h hLi
        · exact Or.inl h
        · exact Or.inr h
      have hLlow : 2 * i + 1 ≤ L := by
        rcases hLchild with h | h
        · omega
        · omega
      have hil : i < a.length := by omega
      have hLl : L < a.length := by omega
      obtain ⟨r1, r2, r3, r4, r5⟩ := ih (swap a i L) n L (by omega)
        (by rw [length_swap]; omega)
      rw [hres]
      have hswlen : (swap a i L).length = a.length := length_swap a i L
      refine ⟨by rw [r1, hswlen], r2.trans (swap_perm a i L hil hLl), ?_, ?_, ?_⟩
      · intro k hk
        have hk' : (k ≠ L ∧ k < 2 * L + 1) ∨ n ≤ k := by
          rcases hk with ⟨hk1, hk2⟩ | hk2
          · exact Or.inl ⟨by omega, by omega⟩
          · exact Or.inr hk2
        rw [r3 k hk']
        rcases hk with ⟨hk1, hk2⟩ | hk2
        · exact ag_swap_other a i L k hk1 (by omega)
        · exact ag_swap_other a i L k (by omega) (by omega)
      · rw [r3 i (Or.inl ⟨by omega, by omega⟩), ag_swap_fst a i L hil (by omega)]
      · intro hpre
        have hpre' : HeapFrom (swap a i L) n (L + 1) := by
          intro j c hj hc hcn
          have hcb : 2 * j + 1 ≤ c ∧ c ≤ 2 * j + 2 := by
            rcases hc with rfl | rfl
            · omega
            · omega
          rw [ag_swap_other a i L j (by omega) (by omega),
            ag_swap_other a i L c (by omega) (by omega)]
          exact hpre j c (by omega) hc hcn
        have hheap := r5 hpre'
        intro j c hj hc hcn
        have hcb : 2 * j + 1 ≤ c ∧ c ≤ 2 * j + 2 := by
          rcases hc with rfl | rfl
          · omega
          · omega
        by_cases hjL : L ≤ j
        · exact hheap j c hjL hc hcn
        · by_cases hji : j = i
          · subst hji
            have hrootv : ag (heapify (swap a j L) n L) j = ag a L := by
              rw [r3 j (Or.inl ⟨by omega, by omega⟩), ag_swap_fst a j L hil (by omega)]
            rw [hrootv]
            by_cases hcL : c = L
            · rw [hcL, r4]
              rcases heapLargest_cases (swap a j L) n L with h | ⟨h, hc2⟩ | ⟨h, hc2⟩
              · rw [h, ag_swap_snd a j L hLl]
                have := heapLargest_ge a n j
                rw [← hLdef] at this
                exact this
              · rw [h, ag_swap_other a j L (2 * L + 1) (by omega) (by omega)]
                exact hpre L (2 * L + 1) (by omega) (Or.inl rfl) hc2
              · rw [h, ag_swap_other a j L (2 * L + 2) (by omega) (by omega)]
                exact hpre L (2 * L + 2) (by omega) (Or.inr rfl) hc2
            · have hcv : ag (heapify (swap a j L) n L) c = ag a c := by
                rw [r3 c (Or.inl ⟨hcL, by omega⟩),
                  ag_swap_other a j L c (by omega) hcL]
              rw [hcv]
              rcases hc with rfl | rfl
              · have hm := heapLargest_maxL a n j hcn
                rw [← hLdef] at hm
                exact hm
              · have hm := heapLargest_maxR a n j hcn
                rw [← hLdef] at hm
                exact hm
          · have hjv : ag (heapify (swap a i L) n L) j = ag a j := by
              rw [r3 j (Or.inl ⟨by omega, by omega⟩),
                ag_swap_other a i L j hji (by omega)]
            have hcv : ag (heapify (swap a i L) n L) c = ag a c := by
              rw [r3 c (Or.inl ⟨by omega, by omega⟩),
                ag_swap_other a i L c (by omega) (by omega)]
            rw [hjv, hcv]
            exact hpre j c (by omega) hc hcn

/-- Phase 1 of heapSort: heapify nodes cnt-1, cnt-2, ..., 0 (called
with cnt = floor(n / 2), the count of non-leaf candidates). -/
def heapBuild (n : ℕ) : ℕ → List ℚ → List ℚ
  | 0, a => a
  | i + 1, a => heapBuild n i (heapify a n i)

theorem heapBuild_spec (n : ℕ) : ∀ (cnt : ℕ) (a : List ℚ), n ≤ a.length →
    HeapFrom a n cnt →
    (heapBuild n cnt a).length = a.length ∧
    (heapBuild n cnt a).Perm a ∧
    HeapFrom (heapBuild n cnt a) n 0 := by
  intro cnt
  induction cnt with
  | zero =>
    intro a hn hpre
    exact ⟨rfl, List.Perm.refl a, hpre⟩
  | succ cnt ih =>
    intro a hn hpre
    obtain ⟨h1, h2, h3, h4, h5⟩ := heapify_spec (n - cnt) a n cnt le_rfl hn
    have hstep : heapBuild n (cnt + 1) a = heapBuild n cnt (heapify a n cnt) := rfl
    rw [hstep]
    obtain ⟨b1, b2, b3⟩ := ih (heapify a n cnt) (by omega) (h5 hpre)
    exact ⟨b1.trans h1, b2.trans h2, b3⟩

/-- Phase 2 of heapSort: with cnt+1 elements still in the heap, swap
the root with the last heap element and re-heapify the shrunken heap,
repeating down to a single element. -/
def heapExtract : ℕ → List ℚ → List ℚ
  | 0, a => a
  | i + 1, a => heapExtract i (heapify (swap a 0 (i + 1)) (i + 1) 0)

theorem heapExtract_spec : ∀ (cnt : ℕ) (a : List ℚ), cnt < a.length →
    HeapFrom a (cnt + 1) 0 →
    (∀ u v, u ≤ v → cnt < v → v < a.length → ag a u ≤ ag a v) →
    (heapExtract cnt a).length = a.length ∧
    (heapExtract cnt a).Perm a ∧
    (heapExtract cnt a).Pairwise (· ≤ ·) := by
  intro cnt
  induction cnt with
  | zero =>
    intro a hlen hheap hsuf
    refine ⟨rfl, List.Perm.refl a, ?_⟩
    apply List.pairwise_iff_getElem.mpr
    intro x y hx hy hxy
    rw [← ag_eq_getElem _ x hx, ← ag_eq_getElem _ y hy]
    exact hsuf x y (le_of_lt hxy) (by omega) hy
  | succ cnt ih =>
    intro a hlen hheap hsuf
    have h0l : 0 < a.length := by omega
    have hcl : cnt + 1 < a.length := by omega
    have hswlen : (swap a 0 (cnt + 1)).length = a.length := length_swap a 0 (cnt + 1)
    obtain ⟨h1, h2, h3, h4, h5⟩ := heapify_spec (cnt + 1) (swap a 0 (cnt + 1))
      (cnt + 1) 0 (by omega) (by omega)
    set A := heapify (swap a 0 (cnt + 1)) (cnt + 1) 0 with hAdef
    have hroot : ∀ k, k ≤ cnt + 1 → ag a k ≤ ag a 0 :=
      fun k hk => heap_root_max a (cnt + 2) hheap k (by omega)
    -- the untouched tail of the heapified array
    have hAtail : ∀ k, cnt + 1 ≤ k → ag A k = ag (swap a 0 (cnt + 1)) k := by
      intro k hk
      exact h3 k (Or.inr hk)
    have hAlast : ag A (cnt + 1) = ag a 0 := by
      rw [hAtail (cnt + 1) le_rfl, ag_swap_snd a 0 (cnt + 1) hcl]
    have hAbeyond : ∀ k, cnt + 1 < k → ag A k = ag a k := by
      intro k hk
      rw [hAtail k (by omega), ag_swap_other a 0 (cnt + 1) k (by omega) (by omega)]
    -- the live prefix values stay bounded by the old root
    have hApre : ∀ u, u ≤ cnt → ag A u ≤ ag a 0 := by
      intro u hu
      have hseg : (seg A 0 cnt).Perm (seg (swap a 0 (cnt + 1)) 0 cnt) := by
        apply seg_perm_of (swap a 0 (cnt + 1)) A 0 cnt (by omega) h2
          (fun k hk => by
            rcases hk with hk | hk
            · omega
            · exact hAtail k (by omega))
          (by omega) (by omega)
      have hmem : ag A u ∈ seg A 0 cnt := by
        apply (mem_seg_iff A 0 cnt (by omega) _).mpr
        exact ⟨u, by omega, hu, rfl⟩
      obtain ⟨k, hk1, hk2, hk3⟩ := (mem_seg_iff (swap a 0 (cnt + 1)) 0 cnt (by omega) _).mp
        (hseg.mem_iff.mp hmem)
      rw [← hk3]
      by_cases hk0 : k = 0
      · rw [hk0, ag_swap_fst a 0 (cnt + 1) h0l (by omega)]
        exact hroot (cnt + 1) le_rfl
      · rw [ag_swap_other a 0 (cnt + 1) k hk0 (by omega)]
        exact hroot k (by omega)
    -- heap precondition of the recursive call
    have hpre' : HeapFrom (swap a 0 (cnt + 1)) (cnt + 1) 1 := by
      intro j c hj hc hcn
      have hcb : 2 * j + 1 ≤ c ∧ c ≤ 2 * j + 2 := by
        rcases hc with rfl | rfl
        · omega
        · omega
      rw [ag_swap_other a 0 (cnt + 1) j (by omega) (by omega),
        ag_swap_other a 0 (cnt + 1) c (by omega) (by omega)]
      exact hheap j c (by omega) hc (by omega)
    -- sorted-suffix invariant of the recursive call
    have hsuf' : ∀ u v, u ≤ v → cnt < v → v < A.length → ag A u ≤ ag A v := by
      intro u v huv hv hvl
      have hvl' : v < a.length := by omega
      have hva : ag a 0 ≤ ag A v := by
        by_cases hve : v = cnt + 1
        · rw [hve, hAlast]
        · rw [hAbeyond v (by omega)]
          exact hsuf 0 v (by omega) (by omega) hvl'
      by_cases hu : u ≤ cnt
      · exact le_trans (hApre u hu) hva
      · by_cases hue : u = cnt + 1
        · rw [hue, hAlast]
          exact hva
        · rw [hAbeyond u (by omega)]
          by_cases hve : v = cnt + 1
          · omega
          · rw [hAbeyond v (by omega)]
            exact hsuf u v huv (by omega) hvl'
    have hstep : heapExtract (cnt + 1) a = heapExtract cnt A := rfl
    rw [hstep]
    obtain ⟨e1, e2, e3⟩ := ih A (by omega) (h5 hpre') hsuf'
    exact ⟨e1.trans (h1.trans hswlen),
      e2.trans (h2.trans (swap_perm a 0 (cnt + 1) h0l hcl)), e3⟩

/-- heapSort of the draft algorithms file: build a max heap over the
whole copy, then repeatedly move the root to the shrinking tail. -/
def heapSort (arr : List ℚ) : List ℚ :=
  heapExtract (arr.length - 1) (heapBuild arr.length (arr.length / 2) arr)

theorem heapSort_eq_sortSpec (arr : List ℚ) : heapSort arr = sortSpec arr := by
  by_cases h0 : arr.length = 0
  · rw [List.length_eq_zero.mp h0]
    rfl
  · have hpre : HeapFrom arr arr.length (arr.length / 2) := by
      intro j c hj hc hcn
      rcases hc with rfl | rfl
      · omega
      · omega
    obtain ⟨b1, b2, b3⟩ := heapBuild_spec arr.length (arr.length / 2) arr le_rfl hpre
    have hb : HeapFrom (heapBuild arr.length (arr.length / 2) arr)
        ((arr.length - 1) + 1) 0 := by
      have : (arr.length - 1) + 1 = arr.length := by omega
      rw [this]
      exact b3
    obtain ⟨e1, e2, e3⟩ := heapExtract_spec (arr.length - 1)
      (heapBuild arr.length (arr.length / 2) arr) (by omega) hb
      (fun u v huv hv hvl => absurd hvl (by omega))
    exact eq_sortSpec_of arr (heapSort arr) (e2.trans b2) e3

/- ============ radixSort and bitwiseRadixSort (counting passes) ============ -/

/-- The digit of x at place value dp in the given base: the source
computes Math.floor(arr[i] / digitPlace) % 10 for radixSort and
(workArr[i] >> shift) & 255 = floor(x / 2^shift) mod 256 for
bitwiseRadixSort; both are x / dp % base. -/
def digitAt (base dp x : ℕ) : ℕ := x / dp % base

/-- The per-digit counting fold of a counting-sort pass:
count[digit]++ per element. -/
def foldCountsBy (dig : ℕ → ℕ) (l : List ℕ) (cs : List ℕ) : List ℕ :=
  l.foldl (fun cs x => cs.set (dig x) (ag cs (dig x) + 1)) cs

theorem foldCountsBy_spec (dig : ℕ → ℕ) (l : List ℕ) : ∀ (cs : List ℕ),
    (∀ x ∈ l, dig x < cs.length) →
    (foldCountsBy dig l cs).length = cs.length ∧
    ∀ v, ag (foldCountsBy dig l cs) v
      = ag cs v + (l.filter (fun x => dig x = v)).length := by
  induction l with
  | nil => intro cs _; simp [foldCountsBy]
  | cons a t ih =>
    intro cs h
    have hstep : foldCountsBy dig (a :: t) cs
        = foldCountsBy dig t (cs.set (dig a) (ag cs (dig a) + 1)) := rfl
    have ha : dig a < cs.length := h a (List.mem_cons_self a t)
    obtain ⟨ih1, ih2⟩ := ih (cs.set (dig a) (ag cs (dig a) + 1))
      (by intro x hx; simpa using h x (List.mem_cons_of_mem _ hx))
    rw [hstep]
    refine ⟨by simpa using ih1, ?_⟩
    intro v
    rw [ih2 v, List.filter_cons]
    by_cases hv : dig a = v
    · subst hv
      rw [ag_set_self cs (dig a) ha]
      simp
      omega
    · rw [ag_set_ne cs (dig a) v hv]
      simp [hv]

/-- Sum of the first d+1 entries of a count array. -/
def partialSum (cs : List ℕ) (d : ℕ) : ℕ := ((List.range (d + 1)).map (ag cs)).sum

theorem partialSum_succ (cs : List ℕ) (d : ℕ) :
    partialSum cs (d + 1) = partialSum cs d + ag cs (d + 1) := by
  unfold partialSum
  rw [List.range_succ, List.map_append, List.sum_append]
  simp

/-- The cumulative-sum fold of a counting-sort pass:
count[i] += count[i-1] for i = 1 .. m. -/
def cumFold (m : ℕ) (cs : List ℕ) : List ℕ :=
  (List.range' 1 m).foldl (fun cs i => cs.set i (ag cs i + ag cs (i - 1))) cs

theorem cumFold_spec (m : ℕ) : ∀ (cs : List ℕ), m < cs.length →
    (cumFold m cs).length = cs.length ∧
    (∀ d, d ≤ m → ag (cumFold m cs) d = partialSum cs d) ∧
    (∀ d, m < d → ag (cumFold m cs) d = ag cs d) := by
  induction m with
  | zero =>
    intro cs hm
    refine ⟨rfl, ?_, fun d _ => rfl⟩
    intro d hd
    rw [Nat.le_zero.mp hd]
    show ag cs 0 = partialSum cs 0
    unfold partialSum
    rw [List.range_succ]
    simp
  | succ m ih =>
    intro cs hm
    obtain ⟨i1, i2, i3⟩ := ih cs (by omega)
    have hstep : cumFold (m + 1) cs
        = (cumFold m cs).set (m + 1) (ag (cumFold m cs) (m + 1) + ag (cumFold m cs) m) := by
      unfold cumFold
      rw [List.range'_concat, List.foldl_append, List.foldl_cons, List.foldl_nil,
        Nat.one_mul]
      have h1 : 1 + m = m + 1 := by omega
      rw [h1]
      have h2 : m + 1 - 1 = m := by omega
      rw [h2]
    have hlen : m + 1 < (cumFold m cs).length := by rw [i1]; omega
    have hval : ag (cumFold m cs) (m + 1) + ag (cumFold m cs) m = partialSum cs (m + 1) := by
      rw [i3 (m + 1) (by omega), i2 m le_rfl, partialSum_succ]
      omega
    rw [hstep]
    refine ⟨by rw [List.length_set]; exact i1, ?_, ?_⟩
    · intro d hd
      by_cases hde : d = m + 1
      · rw [hde, ag_set_self _ (m + 1) hlen, hval]
      · rw [ag_set_ne _ (m + 1) d (fun h => hde h.symm)]
        exact i2 d (by omega)
    · intro d hd
      rw [ag_set_ne _ (m + 1) d (by omega)]
      exact i3 d (by omega)

/-- One digit block of a partially built counting-sort output: the
slots of digit d, with the not-yet-placed leading part still holding
the fill value 0 and the already-placed suffix elements in order. -/
def radixBlock (arr : List ℕ) (dig : ℕ → ℕ) (j d : ℕ) : List ℕ :=
  List.replicate ((arr.take j).filter (fun x => dig x = d)).length 0
    ++ (arr.drop j).filter (fun x => dig x = d)

/-- The output array of a counting-sort pass after the indexes
j, j+1, ..., n-1 have been placed (the source loop runs backwards). -/
def radixPartial (arr : List ℕ) (dig : ℕ → ℕ) (base j : ℕ) : List ℕ :=
  (List.range base).flatMap (radixBlock arr dig j)

/-- Start offset of the digit-d block in the pass output. -/
def blockStart (arr : List ℕ) (dig : ℕ → ℕ) (d : ℕ) : ℕ :=
  ((List.range d).map (fun e => (arr.filter (fun x => dig x = e)).length)).sum

theorem radixBlock_length (arr : List ℕ) (dig : ℕ → ℕ) (j d : ℕ) :
    (radixBlock arr dig j d).length = (arr.filter (fun x => dig x = d)).length := by
  rw [radixBlock, List.length_append, List.length_replicate]
  conv_rhs => rw [← List.take_append_drop j arr]
  rw [List.filter_append, List.length_append]

theorem range_split (d base : ℕ) (h : d < base) :
    List.range base = List.range d ++ d :: List.range' (d + 1) (base - (d + 1)) := by
  have e1 := List.range'_append 0 d (base - d) 1
  rw [Nat.zero_add, Nat.one_mul] at e1
  have e2 : base - d + d = base := by omega
  rw [e2] at e1
  have e3 : base - d = (base - (d + 1)) + 1 := by omega
  have e4 : List.range' d (base - d) = d :: List.range' (d + 1) (base - (d + 1)) := by
    rw [e3, List.range'_succ]
  rw [List.range_eq_range', ← e1, e4, ← List.range_eq_range']

/-- Setting one position inside the middle block of a concatenation of
blocks rewrites just that block. -/
theorem flatMap_set (B B' : ℕ → List ℕ) : ∀ (l1 : List ℕ), ∀ (l2 : List ℕ) (e k x : ℕ),
    (∀ d ∈ l1, B d = B' d) → (∀ d ∈ l2, B d = B' d) →
    (B e).set k x = B' e → k < (B e).length →
    ((l1 ++ e :: l2).flatMap B).set ((l1.map (fun d => (B d).length)).sum + k) x
      = (l1 ++ e :: l2).flatMap B' := by
  intro l1
  induction l1 with
  | nil =>
    intro l2 e k x _ h2 hset hk
    rw [List.nil_append, List.flatMap_cons, List.flatMap_cons]
    rw [List.map_nil, List.sum_nil, Nat.zero_add]
    rw [List.set_append]
    rw [if_pos hk]
    rw [hset]
    congr 1
    rw [List.flatMap_def, List.flatMap_def]
    apply congrArg
    exact List.map_congr_left h2
  | cons a t ih =>
    intro l2 e k x h1 h2 hset hk
    rw [List.cons_append, List.flatMap_cons, List.flatMap_cons]
    rw [List.map_cons, List.sum_cons]
    rw [List.set_append]
    rw [if_neg (by omega)]
    have hsub : (B a).length + (t.map (fun d => (B d).length)).sum + k - (B a).length
        = (t.map (fun d => (B d).length)).sum + k := by omega
    rw [hsub, ih l2 e k x (fun d hd => h1 d (List.mem_cons_of_mem a hd)) h2 hset hk,
      h1 a (List.mem_cons_self a t)]

/-- Placing element i converts the partially built output for suffix
i+1 into the one for suffix i. -/
theorem radixPartial_set (arr : List ℕ) (dig : ℕ → ℕ) (base i : ℕ)
    (hi : i < arr.length) (hd : dig (ag arr i) < base) :
    (radixPartial arr dig base (i + 1)).set
        (blockStart arr dig (dig (ag arr i))
          + ((arr.take i).filter (fun x => dig x = dig (ag arr i))).length)
        (ag arr i)
      = radixPartial arr dig base i := by
  set x := ag arr i with hx
  set d := dig x with hdd
  have htake : arr.take (i + 1) = arr.take i ++ [x] := take_succ_ag arr i hi
  have hdrop : arr.drop i = x :: arr.drop (i + 1) := by
    rw [hx, ag_eq_getElem arr i hi]
    exact (List.getElem_cons_drop arr i hi).symm
  have hblock_ne : ∀ e, e ≠ d → radixBlock arr dig (i + 1) e = radixBlock arr dig i e := by
    intro e he
    have hne : ¬ (dig x = e) := fun hc => he (by rw [hdd]; exact hc.symm)
    unfold radixBlock
    rw [htake, List.filter_append, hdrop, List.filter_cons]
    simp [hne]
  have hxd : dig x = d := hdd.symm
  have hmid : (radixBlock arr dig (i + 1) d).set
      ((arr.take i).filter (fun x => dig x = d)).length x = radixBlock arr dig i d := by
    unfold radixBlock
    rw [htake, List.filter_append, hdrop]
    have hfx : List.filter (fun y => decide (dig y = d)) [x] = [x] := by
      simp [hxd]
    have hfcons : List.filter (fun y => decide (dig y = d)) (x :: arr.drop (i + 1))
        = x :: List.filter (fun y => decide (dig y = d)) (arr.drop (i + 1)) := by
      rw [List.filter_cons, if_pos (by simp [hxd])]
    rw [hfx, hfcons]
    rw [List.length_append]
    have hfl1 : [x].length = 1 := rfl
    rw [hfl1, List.replicate_succ']
    rw [List.set_append]
    rw [if_pos (by simp)]
    rw [List.set_append]
    rw [if_neg (by simp)]
    rw [List.length_replicate, Nat.sub_self]
    rw [List.set_cons_zero]
    rw [List.append_assoc, List.singleton_append]
  have hmidlen : ((arr.take i).filter (fun y => dig y = d)).length
      < (radixBlock arr dig (i + 1) d).length := by
    rw [radixBlock, List.length_append, List.length_replicate, htake, List.filter_append]
    have h1 : (List.filter (fun y => decide (dig y = d)) [x]).length = 1 := by
      simp [hxd]
    rw [List.length_append, h1]
    omega
  have hstartlen : blockStart arr dig d
      = ((List.range d).map (fun e => (radixBlock arr dig (i + 1) e).length)).sum := by
    unfold blockStart
    apply congrArg
    apply List.map_congr_left
    intro e _
    rw [radixBlock_length]
  unfold radixPartial
  rw [range_split d base hd]
  rw [hstartlen]
  apply flatMap_set
  · intro e he
    exact hblock_ne e (by rw [List.mem_range] at he; omega)
  · intro e he
    have : d + 1 ≤ e := (List.mem_range'_1.mp he).1
    exact hblock_ne e (by omega)
  · exact hmid
  · exact hmidlen

/-- The backwards placement loop of a counting-sort pass, over the
index list: output[count[digit]-1] = arr[i]; count[digit]--. -/
def placeFold (arr : List ℕ) (dig : ℕ → ℕ) (idxs : List ℕ)
    (st : List ℕ × List ℕ) : List ℕ × List ℕ :=
  idxs.foldr (fun i st =>
    (st.1.set (ag st.2 (dig (ag arr i)) - 1) (ag arr i),
     st.2.set (dig (ag arr i)) (ag st.2 (dig (ag arr i)) - 1))) st

theorem placeFold_spec (arr : List ℕ) (dig : ℕ → ℕ) (base : ℕ)
    (hdig : ∀ x ∈ arr, dig x < base) (cnt2 : List ℕ) (hc2len : cnt2.length = base)
    (hc2 : ∀ d, d < base → ag cnt2 d
      = blockStart arr dig d + (arr.filter (fun x => dig x = d)).length) :
    ∀ m, m ≤ arr.length →
    (placeFold arr dig (List.range' (arr.length - m) m)
        (List.replicate arr.length 0, cnt2)).1
      = radixPartial arr dig base (arr.length - m) ∧
    (placeFold arr dig (List.range' (arr.length - m) m)
        (List.replicate arr.length 0, cnt2)).2.length = base ∧
    ∀ d, d < base →
      ag (placeFold arr dig (List.range' (arr.length - m) m)
          (List.replicate arr.length 0, cnt2)).2 d
        = blockStart arr dig d
          + ((arr.take (arr.length - m)).filter (fun x => dig x = d)).length := by
  intro m
  induction m with
  | zero =>
    intro _
    have h0 : placeFold arr dig (List.range' (arr.length - 0) 0)
        (List.replicate arr.length 0, cnt2) = (List.replicate arr.length 0, cnt2) := rfl
    rw [h0]
    have hb : ∀ d, radixBlock arr dig arr.length d
        = List.replicate ((arr.filter (fun x => dig x = d)).length) 0 := by
      intro d
      rw [radixBlock, List.take_length, List.drop_length, List.filter_nil, List.append_nil]
    have hsum : ((List.range base).map
        (fun d => (arr.filter (fun x => dig x = d)).length)).sum = arr.length := by
      have hp := perm_flatMap_filter dig base arr hdig
      have hl := hp.length_eq
      rw [List.length_flatMap] at hl
      rw [← hl]
      apply congrArg
      apply List.map_congr_left
      intro e _
      show (arr.filter (fun x => dig x = e)).length = _
      rfl
    have hP0 : radixPartial arr dig base arr.length = List.replicate arr.length 0 := by
      apply List.eq_replicate.mpr
      constructor
      · rw [radixPartial, List.length_flatMap]
        have hmapeq : List.map (List.length ∘ radixBlock arr dig arr.length) (List.range base)
            = (List.range base).map (fun d => (arr.filter (fun x => dig x = d)).length) := by
          apply List.map_congr_left
          intro e _
          show (radixBlock arr dig arr.length e).length = _
          rw [hb e, List.length_replicate]
        rw [hmapeq]
        exact hsum
      · intro b hbmem
        obtain ⟨e, _, hmem⟩ := List.mem_flatMap.mp hbmem
        rw [hb e] at hmem
        exact List.eq_of_mem_replicate hmem
    have hn0 : arr.length - 0 = arr.length := rfl
    rw [hn0]
    refine ⟨hP0.symm, hc2len, ?_⟩
    intro d hd
    rw [List.take_length]
    exact hc2 d hd
  | succ m ih =>
    intro hm
    obtain ⟨i1, i2, i3⟩ := ih (by omega)
    set i := arr.length - (m + 1) with hidef
    have hi : i < arr.length := by omega
    have hnm : arr.length - m = i + 1 := by omega
    rw [hnm] at i1 i2 i3
    set S := placeFold arr dig (List.range' (i + 1) m)
      (List.replicate arr.length 0, cnt2) with hSdef
    have hstep : placeFold arr dig (List.range' i (m + 1))
        (List.replicate arr.length 0, cnt2)
        = (S.1.set (ag S.2 (dig (ag arr i)) - 1) (ag arr i),
           S.2.set (dig (ag arr i)) (ag S.2 (dig (ag arr i)) - 1)) := by
      unfold placeFold
      rw [List.range'_succ]
      rfl
    set x := ag arr i with hxdef
    have hxmem : x ∈ arr := ag_mem arr i hi
    have hdx : dig x < base := hdig x hxmem
    have hksucc : ∀ e, ((arr.take (i + 1)).filter (fun y => dig y = e)).length
        = ((arr.take i).filter (fun y => dig y = e)).length
          + (if dig x = e then 1 else 0) := by
      intro e
      rw [take_succ_ag arr i hi, List.filter_append, List.length_append]
      by_cases he : dig x = e
      · simp [hxdef] at he ⊢
        simp [he]
      · simp [hxdef] at he ⊢
        simp [he]
    have hcount : ag S.2 (dig x) = blockStart arr dig (dig x)
        + ((arr.take i).filter (fun y => dig y = (dig x))).length + 1 := by
      rw [i3 (dig x) hdx, hksucc (dig x)]
      simp
      omega
    rw [hstep]
    refine ⟨?_, by rw [List.length_set]; exact i2, ?_⟩
    · show S.1.set (ag S.2 (dig x) - 1) x = radixPartial arr dig base i
      rw [hcount, i1]
      have hsub : blockStart arr dig (dig x)
          + ((arr.take i).filter (fun y => dig y = (dig x))).length + 1 - 1
          = blockStart arr dig (dig x)
            + ((arr.take i).filter (fun y => dig y = (dig x))).length := by omega
      rw [hsub]
      exact radixPartial_set arr dig base i hi hdx
    · intro d hd
      show ag (S.2.set (dig x) (ag S.2 (dig x) - 1)) d = _
      by_cases hde : dig x = d
      · rw [← hde]
        rw [ag_set_self S.2 (dig x) (by rw [i2]; exact hdx), hcount]
        omega
      · rw [ag_set_ne S.2 (dig x) d hde, i3 d hd, hksucc d]
        simp [hde]

/-- One full counting-sort pass of a radix sort: count digits, make
counts cumulative, then place elements backwards.  base = 10 with
digit floor(x / digitPlace) % 10 is countingSortForRadix; base = 256
with digit (x >> shift) & 255 is one pass of bitwiseRadixSort. -/
def radixPassGen (base dp : ℕ) (arr : List ℕ) : List ℕ :=
  (placeFold arr (digitAt base dp) (List.range arr.length)
    (List.replicate arr.length 0,
     cumFold (base - 1) (foldCountsBy (digitAt base dp) arr (List.replicate base 0)))).1

/-- A counting-sort pass is the stable bucket partition by digit. -/
theorem radixPassGen_eq (base dp : ℕ) (hbase : 0 < base) (arr : List ℕ) :
    radixPassGen base dp arr
      = (List.range base).flatMap
          (fun d => arr.filter (fun x => digitAt base dp x = d)) := by
  have hdigx : ∀ x ∈ arr, digitAt base dp x < base := by
    intro x _
    exact Nat.mod_lt _ hbase
  have hrep : ∀ x ∈ arr, digitAt base dp x < (List.replicate base (0 : ℕ)).length := by
    intro x hx
    rw [List.length_replicate]
    exact hdigx x hx
  obtain ⟨c1, c2⟩ := foldCountsBy_spec (digitAt base dp) arr (List.replicate base 0) hrep
  have hc1len : (foldCountsBy (digitAt base dp) arr (List.replicate base 0)).length
      = base := by rw [c1, List.length_replicate]
  obtain ⟨u1, u2, u3⟩ := cumFold_spec (base - 1)
    (foldCountsBy (digitAt base dp) arr (List.replicate base 0)) (by omega)
  have hc2len : (cumFold (base - 1)
      (foldCountsBy (digitAt base dp) arr (List.replicate base 0))).length = base := by
    rw [u1]
    exact hc1len
  have hcnt1val : ∀ d, d < base →
      ag (foldCountsBy (digitAt base dp) arr (List.replicate base 0)) d
        = (arr.filter (fun x => digitAt base dp x = d)).length := by
    intro d hd
    rw [c2 d, ag_replicate, if_pos hd, Nat.zero_add]
  have hcnt2val : ∀ d, d < base →
      ag (cumFold (base - 1) (foldCountsBy (digitAt base dp) arr (List.replicate base 0))) d
        = blockStart arr (digitAt base dp) d
          + (arr.filter (fun x => digitAt base dp x = d)).length := by
    intro d hd
    rw [u2 d (by omega)]
    unfold partialSum blockStart
    rw [List.range_succ, List.map_append, List.sum_append]
    have hmc : List.map (ag (foldCountsBy (digitAt base dp) arr (List.replicate base 0)))
        (List.range d)
        = (List.range d).map (fun e => (arr.filter (fun x => digitAt base dp x = e)).length) := by
      apply List.map_congr_left
      intro e he
      rw [List.mem_range] at he
      exact hcnt1val e (by omega)
    rw [hmc]
    simp [hcnt1val d hd]
  have hplace := placeFold_spec arr (digitAt base dp) base hdigx _ hc2len hcnt2val
    arr.length le_rfl
  have h00 : arr.length - arr.length = 0 := by omega
  rw [h00] at hplace
  unfold radixPassGen
  rw [List.range_eq_range']
  rw [hplace.1]
  unfold radixPartial
  rw [List.flatMap_def, List.flatMap_def]
  apply congrArg
  apply List.map_congr_left
  intro e _
  rw [radixBlock, List.take_zero, List.drop_zero, List.filter_nil]
  rfl

theorem radixPassGen_perm (base dp : ℕ) (hbase : 0 < base) (arr : List ℕ) :
    (radixPassGen base dp arr).Perm arr := by
  rw [radixPassGen_eq base dp hbase arr]
  exact perm_flatMap_filter (digitAt base dp) base arr (fun x _ => Nat.mod_lt _ hbase)

/-- A counting-sort pass on an array already sorted by the lower
digits produces an array sorted by the lower digits and the new one. -/
theorem radixPassGen_sorted (base dp : ℕ) (hbase : 0 < base) (hdp : 0 < dp)
    (arr : List ℕ) (hsort : arr.Pairwise (fun u v => u % dp ≤ v % dp)) :
    (radixPassGen base dp arr).Pairwise
      (fun u v => u % (dp * base) ≤ v % (dp * base)) := by
  rw [radixPassGen_eq base dp hbase arr]
  rw [List.flatMap_def]
  apply List.pairwise_flatten.mpr
  constructor
  · intro l hl
    obtain ⟨k, _, rfl⟩ := List.mem_map.mp hl
    apply List.Pairwise.imp_of_mem ?_ (hsort.filter _)
    intro u v hu hv huv
    have hdu : u / dp % base = k := by
      simpa [digitAt] using (List.mem_filter.mp hu).2
    have hdv : v / dp % base = k := by
      simpa [digitAt] using (List.mem_filter.mp hv).2
    rw [Nat.mod_mul, Nat.mod_mul, hdu, hdv]
    exact Nat.add_le_add_right huv _
  · rw [List.pairwise_map]
    refine (List.pairwise_lt_range base).imp ?_
    intro j k hjk u hu v hv
    have hdu : u / dp % base = j := by
      simpa [digitAt] using (List.mem_filter.mp hu).2
    have hdv : v / dp % base = k := by
      simpa [digitAt] using (List.mem_filter.mp hv).2
    rw [Nat.mod_mul, Nat.mod_mul, hdu, hdv]
    have humod : u % dp < dp := Nat.mod_lt _ hdp
    have e1 : dp * (j + 1) = dp * j + dp := Nat.mul_succ dp j
    have e2 : dp * (j + 1) ≤ dp * k := Nat.mul_le_mul_left dp hjk
    omega

/-- Sorted by residues below a common bound means sorted. -/
theorem sorted_of_mod_sorted (dp : ℕ) (a : List ℕ)
    (hbound : ∀ x ∈ a, x < dp) (hsort : a.Pairwise (fun u v => u % dp ≤ v % dp)) :
    a.Pairwise (· ≤ ·) := by
  apply List.Pairwise.imp_of_mem ?_ hsort
  intro u v hu hv huv
  rwa [Nat.mod_eq_of_lt (hbound u hu), Nat.mod_eq_of_lt (hbound v hv)] at huv

/-- The digit-place loop of radixSort: counting-sort passes for place
values 1, 10, 100, ... while the maximum still has a digit there. -/
def radixLoop (max dp : ℕ) (a : List ℕ) : List ℕ :=
  if h : 0 < max / dp then radixLoop max (dp * 10) (radixPassGen 10 dp a) else a
termination_by max / dp
decreasing_by
  have h1 : max / (dp * 10) = max / dp / 10 := (Nat.div_div_eq_div_mul max dp 10).symm
  rw [h1]
  exact Nat.div_lt_self h (by omega)

/-- The byte loop of bitwiseRadixSort: counting-sort passes for shifts
0, 8, 16, ... (place values 1, 256, 256², ...) while the maximum
shifted right still has bits there. -/
def bitwiseRadixLoop (max dp : ℕ) (a : List ℕ) : List ℕ :=
  if h : 0 < max / dp then bitwiseRadixLoop max (dp * 256) (radixPassGen 256 dp a) else a
termination_by max / dp
decreasing_by
  have h1 : max / (dp * 256) = max / dp / 256 := (Nat.div_div_eq_div_mul max dp 256).symm
  rw [h1]
  exact Nat.div_lt_self h (by omega)

theorem radixLoop_spec : ∀ (fv : ℕ) (max dp : ℕ) (a : List ℕ), max / dp ≤ fv → 0 < dp →
    (∀ x ∈ a, x ≤ max) →
    a.Pairwise (fun u v => u % dp ≤ v % dp) →
    (radixLoop max dp a).Perm a ∧ (radixLoop max dp a).Pairwise (· ≤ ·) := by
  intro fv
  induction fv with
  | zero =>
    intro max dp a hf hdp hbound hsort
    have hres : radixLoop max dp a = a := by
      rw [radixLoop, dif_neg (by omega)]
    rw [hres]
    have hmax : max < dp := by
      by_contra hc
      push_neg at hc
      have := (Nat.one_le_div_iff hdp).mpr hc
      omega
    exact ⟨List.Perm.refl a,
      sorted_of_mod_sorted dp a (fun x hx => by have := hbound x hx; omega) hsort⟩
  | succ fv ih =>
    intro max dp a hf hdp hbound hsort
    by_cases hg : 0 < max / dp
    · have hres : radixLoop max dp a = radixLoop max (dp * 10) (radixPassGen 10 dp a) := by
        rw [radixLoop, dif_pos hg]
      rw [hres]
      have hperm := radixPassGen_perm 10 dp (by omega) a
      have hsort' := radixPassGen_sorted 10 dp (by omega) hdp a hsort
      have hbound' : ∀ x ∈ radixPassGen 10 dp a, x ≤ max :=
        fun x hx => hbound x (hperm.mem_iff.mp hx)
      have hfv : max / (dp * 10) ≤ fv := by
        have h1 : max / (dp * 10) = max / dp / 10 := (Nat.div_div_eq_div_mul max dp 10).symm
        have h2 : max / dp / 10 < max / dp := Nat.div_lt_self hg (by omega)
        omega
      obtain ⟨p1, p2⟩ := ih max (dp * 10) (radixPassGen 10 dp a) hfv (by omega)
        hbound' hsort'
      exact ⟨p1.trans hperm, p2⟩
    · have hres : radixLoop max dp a = a := by rw [radixLoop, dif_neg hg]
      rw [hres]
      have hmax : max < dp := by
        by_contra hc
        push_neg at hc
        have := (Nat.one_le_div_iff hdp).mpr hc
        omega
      exact ⟨List.Perm.refl a,
        sorted_of_mod_sorted dp a (fun x hx => by have := hbound x hx; omega) hsort⟩

theorem bitwiseRadixLoop_spec : ∀ (fv : ℕ) (max dp : ℕ) (a : List ℕ), max / dp ≤ fv →
    0 < dp →
    (∀ x ∈ a, x ≤ max) →
    a.Pairwise (fun u v => u % dp ≤ v % dp) →
    (bitwiseRadixLoop max dp a).Perm a ∧ (bitwiseRadixLoop max dp a).Pairwise (· ≤ ·) := by
  intro fv
  induction fv with
  | zero =>
    intro max dp a hf hdp hbound hsort
    have hres : bitwiseRadixLoop max dp a = a := by
      rw [bitwiseRadixLoop, dif_neg (by omega)]
    rw [hres]
    have hmax : max < dp := by
      by_contra hc
      push_neg at hc
      have := (Nat.one_le_div_iff hdp).mpr hc
      omega
    exact ⟨List.Perm.refl a,
      sorted_of_mod_sorted dp a (fun x hx => by have := hbound x hx; omega) hsort⟩
  | succ fv ih =>
    intro max dp a hf hdp hbound hsort
    by_cases hg : 0 < max / dp
    · have hres : bitwiseRadixLoop max dp a
          = bitwiseRadixLoop max (dp * 256) (radixPassGen 256 dp a) := by
        rw [bitwiseRadixLoop, dif_pos hg]
      rw [hres]
      have hperm := radixPassGen_perm 256 dp (by omega) a
      have hsort' := radixPassGen_sorted 256 dp (by omega) hdp a hsort
      have hbound' : ∀ x ∈ radixPassGen 256 dp a, x ≤ max :=
        fun x hx => hbound x (hperm.mem_iff.mp hx)
      have hfv : max / (dp * 256) ≤ fv := by
        have h1 : max / (dp * 256) = max / dp / 256 :=
          (Nat.div_div_eq_div_mul max dp 256).symm
        have h2 : max / dp / 256 < max / dp := Nat.div_lt_self hg (by omega)
        omega
      obtain ⟨p1, p2⟩ := ih max (dp * 256) (radixPassGen 256 dp a) hfv (by omega)
        hbound' hsort'
      exact ⟨p1.trans hperm, p2⟩
    · have hres : bitwiseRadixLoop max dp a = a := by rw [bitwiseRadixLoop, dif_neg hg]
      rw [hres]
      have hmax : max < dp := by
        by_contra hc
        push_neg at hc
        have := (Nat.one_le_div_iff hdp).mpr hc
        omega
      exact ⟨List.Perm.refl a,
        sorted_of_mod_sorted dp a (fun x hx => by have := hbound x hx; omega) hsort⟩

/-- radixSort of the draft algorithms file: trivial arrays returned
unchanged, otherwise scan the maximum and run decimal counting-sort
passes for every digit place of the maximum. -/
def radixSort (arr : List ℕ) : List ℕ :=
  if arr.length ≤ 1 then arr
  else radixLoop (foldMax arr 0) 1 arr

/-- bitwiseRadixSort of bitwise-radix-sort.ts: scan the maximum and
run byte-wise counting-sort passes for every byte of the maximum. -/
def bitwiseRadixSort (arr : List ℕ) : List ℕ :=
  bitwiseRadixLoop (foldMax arr 0) 1 arr

theorem radixSort_eq_sortSpecN (arr : List ℕ) : radixSort arr = sortSpecN arr := by
  unfold radixSort
  by_cases hlen : arr.length ≤ 1
  · rw [if_pos hlen]
    apply eq_sortSpecN_of _ _ (List.Perm.refl _)
    match arr, hlen with
    | [], _ => exact List.Pairwise.nil
    | [x], _ => exact List.pairwise_singleton _ x
  · rw [if_neg hlen]
    obtain ⟨hmax0, hmaxb⟩ := foldMax_spec arr 0
    have hsort1 : arr.Pairwise (fun u v => u % 1 ≤ v % 1) := by
      apply List.pairwise_iff_getElem.mpr
      intro i j hi hj hij
      simp [Nat.mod_one]
    obtain ⟨p1, p2⟩ := radixLoop_spec (foldMax arr 0) (foldMax arr 0) 1 arr
      (by omega) (by omega) hmaxb hsort1
    exact eq_sortSpecN_of arr _ p1 p2

theorem bitwiseRadixSort_eq_sortSpecN (arr : List ℕ) :
    bitwiseRadixSort arr = sortSpecN arr := by
  unfold bitwiseRadixSort
  obtain ⟨hmax0, hmaxb⟩ := foldMax_spec arr 0
  have hsort1 : arr.Pairwise (fun u v => u % 1 ≤ v % 1) := by
    apply List.pairwise_iff_getElem.mpr
    intro i j hi hj hij
    simp [Nat.mod_one]
  obtain ⟨p1, p2⟩ := bitwiseRadixLoop_spec (foldMax arr 0) (foldMax arr 0) 1 arr
    (by omega) (by omega) hmaxb hsort1
  exact eq_sortSpecN_of arr _ p1 p2

/-- Modelled from the spec: timSort of tim-sort.ts copies the input
and sorts the copy with the platform's native sort under the numeric
comparator (a, b) => a - b; the native sort is external to this
repository and is modelled as the ascending sorted permutation the
spec requires of it. -/
def timSort (arr : List ℚ) : List ℚ := List.insertionSort (· ≤ ·) arr

theorem timSort_eq_sortSpec (arr : List ℚ) : timSort arr = sortSpec arr := rfl

/-- Claim C5: every algorithm in the registry sorts correctly — for
every input array (in particular every generated array of sizes 0, 1,
2, 17 and 100), each of the thirteen registered sorting functions
(Bubble, Bubble Smart, Insertion, Selection, Merge, Quick, Heap,
Shell, Counting, Radix, Bitwise Radix, native Timsort, Bucket with its
default bucketSize 5) returns the reference ascending sort of the same
multiset; the final two conjuncts state that the reference sort is
indeed an ascending permutation of its input. -/
theorem claim_C5 :
    (∀ arr : List ℚ, bubbleSort arr = sortSpec arr)
    ∧ (∀ arr : List ℚ, bubbleSortSmart arr = sortSpec arr)
    ∧ (∀ arr : List ℚ, insertionSort arr = sortSpec arr)
    ∧ (∀ arr : List ℚ, selectionSort arr = sortSpec arr)
    ∧ (∀ arr : List ℚ, mergeSort arr = sortSpec arr)
    ∧ (∀ arr : List ℚ, quickSort arr = sortSpec arr)
    ∧ (∀ arr : List ℚ, heapSort arr = sortSpec arr)
    ∧ (∀ arr : List ℚ, shellSort arr = sortSpec arr)
    ∧ (∀ arr : List ℕ, countingSort arr = sortSpecN arr)
    ∧ (∀ arr : List ℕ, radixSort arr = sortSpecN arr)
    ∧ (∀ arr : List ℕ, bitwiseRadixSort arr = sortSpecN arr)
    ∧ (∀ arr : List ℚ, timSort arr = sortSpec arr)
    ∧ (∀ arr : List ℚ, bucketSort arr 5 = sortSpec arr)
    ∧ (∀ arr : List ℚ, (sortSpec arr).Perm arr ∧ (sortSpec arr).Pairwise (· ≤ ·))
    ∧ (∀ arr : List ℕ, (sortSpecN arr).Perm arr ∧ (sortSpecN arr).Pairwise (· ≤ ·)) :=
  ⟨bubbleSort_eq_sortSpec, bubbleSortSmart_eq_sortSpec, insertionSort_eq_sortSpec,
   selectionSort_eq_sortSpec, mergeSort_eq_sortSpec, quickSort_eq_sortSpec,
   heapSort_eq_sortSpec, shellSort_eq_sortSpec, countingSort_eq_sortSpecN,
   radixSort_eq_sortSpecN, bitwiseRadixSort_eq_sortSpecN, timSort_eq_sortSpec,
   fun arr => bucketSort_eq_sortSpec arr 5 (by norm_num),
   fun arr => ⟨List.perm_insertionSort _ arr, List.sorted_insertionSort _ arr⟩,
   fun arr => ⟨List.perm_insertionSort _ arr, List.sorted_insertionSort _ arr⟩⟩

/- ===================== frame behaviour of the registry (no input mutation) ===================== -/

/-- A heap of rational-array references: address to contents. -/
def HeapQ : Type := ℕ → List ℚ

/-- A heap of integer-array references. -/
def HeapN : Type := ℕ → List ℕ

def hsetQ (h : HeapQ) (r : ℕ) (v : List ℚ) : HeapQ :=
  fun s => if s = r then v else h s

def hsetN (h : HeapN) (r : ℕ) (v : List ℕ) : HeapN :=
  fun s => if s = r then v else h s

/-- Heap-level behaviour shared by every registry algorithm: each
source function starts by creating a fresh array (the copy
[...arr] / newAry / arrCopy / heapArr / workArr, or the fresh
output / counts / bucket arrays) and performs every element assignment
on those fresh references, never through the argument reference.  The
combinator allocates the fresh result at the next free address, stores
the function's final contents there, and returns that address. -/
def runCopying (f : List ℚ → List ℚ) (h : HeapQ) (next arg : ℕ) : HeapQ × ℕ × ℕ :=
  (hsetQ h next (f (h arg)), next + 1, next)

/-- Integer-array version of the allocation combinator. -/
def runCopyingN (f : List ℕ → List ℕ) (h : HeapN) (next arg : ℕ) : HeapN × ℕ × ℕ :=
  (hsetN h next (f (h arg)), next + 1, next)

theorem runCopying_frame (f : List ℚ → List ℚ) (h : HeapQ) (next arg : ℕ)
    (hne : arg < next) :
    (runCopying f h next arg).1 arg = h arg
    ∧ (runCopying f h next arg).1 (runCopying f h next arg).2.2 = f (h arg) := by
  constructor
  · show hsetQ h next (f (h arg)) arg = h arg
    unfold hsetQ
    rw [if_neg (by omega)]
  · show hsetQ h next (f (h arg)) next = f (h arg)
    unfold hsetQ
    rw [if_pos rfl]

theorem runCopyingN_frame (f : List ℕ → List ℕ) (h : HeapN) (next arg : ℕ)
    (hne : arg < next) :
    (runCopyingN f h next arg).1 arg = h arg
    ∧ (runCopyingN f h next arg).1 (runCopyingN f h next arg).2.2 = f (h arg) := by
  constructor
  · show hsetN h next (f (h arg)) arg = h arg
    unfold hsetN
    rw [if_neg (by omega)]
  · show hsetN h next (f (h arg)) next = f (h arg)
    unfold hsetN
    rw [if_pos rfl]

/-- Claim C6: no registry algorithm mutates its input.  Invoking any
of the thirteen registered sorting functions on a heap with a fresh
allocation frontier leaves the argument reference element-for-element
identical to its pre-call snapshot, while the returned fresh reference
holds the function's result. -/
theorem claim_C6 : ∀ (h : HeapQ) (hN : HeapN) (next arg : ℕ), arg < next →
    ((runCopying bubbleSort h next arg).1 arg = h arg
      ∧ (runCopying bubbleSort h next arg).1 (runCopying bubbleSort h next arg).2.2
        = bubbleSort (h arg))
    ∧ ((runCopying bubbleSortSmart h next arg).1 arg = h arg
      ∧ (runCopying bubbleSortSmart h next arg).1
          (runCopying bubbleSortSmart h next arg).2.2 = bubbleSortSmart (h arg))
    ∧ ((runCopying insertionSort h next arg).1 arg = h arg
      ∧ (runCopying insertionSort h next arg).1
          (runCopying insertionSort h next arg).2.2 = insertionSort (h arg))
    ∧ ((runCopying selectionSort h next arg).1 arg = h arg
      ∧ (runCopying selectionSort h next arg).1
          (runCopying selectionSort h next arg).2.2 = selectionSort (h arg))
    ∧ ((runCopying mergeSort h next arg).1 arg = h arg
      ∧ (runCopying mergeSort h next arg).1
          (runCopying mergeSort h next arg).2.2 = mergeSort (h arg))
    ∧ ((runCopying quickSort h next arg).1 arg = h arg
      ∧ (runCopying quickSort h next arg).1
          (runCopying quickSort h next arg).2.2 = quickSort (h arg))
    ∧ ((runCopying heapSort h next arg).1 arg = h arg
      ∧ (runCopying heapSort h next arg).1
          (runCopying heapSort h next arg).2.2 = heapSort (h arg))
    ∧ ((runCopying shellSort h next arg).1 arg = h arg
      ∧ (runCopying shellSort h next arg).1
          (runCopying shellSort h next arg).2.2 = shellSort (h arg))
    ∧ ((runCopyingN countingSort hN next arg).1 arg = hN arg
      ∧ (runCopyingN countingSort hN next arg).1
          (runCopyingN countingSort hN next arg).2.2 = countingSort (hN arg))
    ∧ ((runCopyingN radixSort hN next arg).1 arg = hN arg
      ∧ (runCopyingN radixSort hN next arg).1
          (runCopyingN radixSort hN next arg).2.2 = radixSort (hN arg))
    ∧ ((runCopyingN bitwiseRadixSort hN next arg).1 arg = hN arg
      ∧ (runCopyingN bitwiseRadixSort hN next arg).1
          (runCopyingN bitwiseRadixSort hN next arg).2.2 = bitwiseRadixSort (hN arg))
    ∧ ((runCopying timSort h next arg).1 arg = h arg
      ∧ (runCopying timSort h next arg).1
          (runCopying timSort h next arg).2.2 = timSort (h arg))
    ∧ ((runCopying (fun a => bucketSort a 5) h next arg).1 arg = h arg
      ∧ (runCopying (fun a => bucketSort a 5) h next arg).1
          (runCopying (fun a => bucketSort a 5) h next arg).2.2
        = bucketSort (h arg) 5) := by
  intro h hN next arg hlt
  exact ⟨runCopying_frame _ h next arg hlt, runCopying_frame _ h next arg hlt,
    runCopying_frame _ h next arg hlt, runCopying_frame _ h next arg hlt,
    runCopying_frame _ h next arg hlt, runCopying_frame _ h next arg hlt,
    runCopying_frame _ h next arg hlt, runCopying_frame _ h next arg hlt,
    runCopyingN_frame _ hN next arg hlt, runCopyingN_frame _ hN next arg hlt,
    runCopyingN_frame _ hN next arg hlt, runCopying_frame _ h next arg hlt,
    runCopying_frame _ h next arg hlt⟩

/-- Witness for claim C6 at a concrete heap and addresses. -/
theorem claim_C6_witness :
    0 < 1
    ∧ ((runCopying bubbleSort (fun _ => ([] : List ℚ)) 1 0).1 0 = (fun _ => ([] : List ℚ)) 0
      ∧ (runCopying bubbleSort (fun _ => ([] : List ℚ)) 1 0).1
          (runCopying bubbleSort (fun _ => ([] : List ℚ)) 1 0).2.2
        = bubbleSort ((fun _ => ([] : List ℚ)) 0)) :=
  ⟨by decide,
   (claim_C6 (fun _ => ([] : List ℚ)) (fun _ => ([] : List ℕ)) 1 0 (by decide)).1⟩
